import Mathlib

/-!
# The metrics query adapter of `pkg/plugin/datasource.go`

A shallow embedding of the query transformation engine: the bucket resolver
(`calculateBuckets`, `clampBucketSeconds`), the metric router (`getQueryType`,
`solanaMetricsUrl`), the bucket decoder (`getInstructionInvocations`), the
per-metric derivations of `Datasource.query` and `query` itself with its
error results, and the top-N selector (`invocationHeap` driven by Go's
`container/heap`).

Conventions of the embedding.

* Go `int32` values are `Int`s; where the source can overflow the result is
  wrapped with `wrapInt32`.
* A `time.Time` is an `Int`: the instant in nanoseconds counted from the zero
  `Time`, so the zero value of the type is `0`. The times of a payload are
  read as written in UTC and carry no monotonic reading, so that `!=` on two
  of them is the inequality of their instants.
* A span of time in seconds is what the source computes,
  `int32(d.Seconds())`: the `float64` sum of `Duration.Seconds`, rounded to
  nearest as IEEE 754 does, then truncated. The conversion of a `float64`
  outside `int32` is left to the implementation by the language and is kept
  out by the hypothesis `isInt32 (rangeSeconds start end_)`.
* The `float32` counters of the failure rate count exactly up to `2^24`,
  where `x + 1` rounds back to `x`.
* A Go slice is a `List`; `make([]T, k)` is `List.replicate k zero` and
  `append` adds at the end.
* A run-time panic (index or slice bound out of range, integer division by
  zero) is the result `none`.
* `json.Unmarshal` is outside the embedding: a function that decodes a body
  takes the outcome of the decoding, `Except String payload`, as its input.
* The HTTP client and `time.Time.Format` are parameters; `fmt.Sprintf` is
  modelled on the verbs the source uses.
-/

namespace Plugin

/-! ## Machine integers and time -/

/-- The instant of a `time.Time`, in nanoseconds from the zero `Time`. -/
abbrev Time := Int

/-- The values of Go's `int32`. -/
def isInt32 (x : Int) : Prop := -2147483648 ≤ x ∧ x ≤ 2147483647

instance (x : Int) : Decidable (isInt32 x) := by
  unfold isInt32; infer_instance

/-- Two's complement wrap-around of an integer into `int32`. -/
def wrapInt32 (x : Int) : Int := (x + 2147483648) % 4294967296 - 2147483648

/-- Go's `a / b` on `int32`: `none` is the division-by-zero panic, the quotient
truncates toward zero and wraps (only `MinInt32 / -1` overflows). -/
def divInt32 (a b : Int) : Option Int :=
  if b = 0 then none else some (wrapInt32 (Int.tdiv a b))

/-! ## Durations in seconds

The source reads a span of time as `int32(d.Seconds())`. `Duration.Seconds`
returns `float64(sec) + float64(nsec)/1e9` with `sec = d / Second` and
`nsec = d % Second`: the two conversions are exact, the division and the sum
are each rounded to the nearest `float64`, ties to even. Both operands are
multiples of `2^-82`, so the functions below work on natural numbers scaled by
`2^82`, on the magnitude of the duration (rounding to nearest is symmetric in
the sign). -/

/-- The least `b` in `[lo, lo + 2^k]` with `n < 2^b`, for `n < 2^(lo + 2^k)`. -/
def bitSearch : Nat → Nat → Nat → Nat
  | 0, lo, n => if n < 2 ^ lo then lo else lo + 1
  | k + 1, lo, n =>
    if n < 2 ^ (lo + 2 ^ k) then bitSearch k lo n else bitSearch k (lo + 2 ^ k) n

/-- The number of binary digits of `n`, for `n < 2^256`; the numbers met
here are below `2^117`. -/
def bitLength (n : Nat) : Nat := bitSearch 8 0 n

/-- Rounding to the 53 significant bits of a `float64`, to nearest, ties to even. -/
def roundTo53 (n : Nat) : Nat :=
  if bitLength n ≤ 53 then n
  else
    let shift := bitLength n - 53
    let q := n / 2 ^ shift
    let rem := n % 2 ^ shift
    let half := 2 ^ (shift - 1)
    (if rem > half ∨ (rem = half ∧ q % 2 = 1) then q + 1 else q) * 2 ^ shift

/-- The `float64` quotient `float64(nsec) / 1e9` for `0 ≤ nsec < 10^9`, scaled by
`2^82`: with `t` such that `1 ≤ nsec * 2^t / 10^9 < 2`, the 53-bit mantissa is
`nsec * 2^(52 + t) / 10^9` rounded to nearest, ties to even. -/
def fracFloat (nsec : Nat) : Nat :=
  if nsec = 0 then 0
  else
    let t0 := 30 - bitLength nsec
    let t := if nsec * 2 ^ t0 ≥ 1000000000 then t0 else t0 + 1
    let q := nsec * 2 ^ (52 + t) / 1000000000
    let rem := nsec * 2 ^ (52 + t) % 1000000000
    (if 2 * rem > 1000000000 ∨ (2 * rem = 1000000000 ∧ q % 2 = 1) then q + 1 else q)
      * 2 ^ (30 - t)

/-- The integer part of `Duration.Seconds` on a duration of `d ≥ 0` nanoseconds. -/
def secondsMagnitude (d : Nat) : Nat :=
  roundTo53 (d / 1000000000 * 2 ^ 82 + fracFloat (d % 1000000000)) / 2 ^ 82

/-- The expression `int32(d.Seconds())` on a `time.Duration` of `d` nanoseconds: the
`float64` seconds, truncated toward zero. Go leaves the conversion of a value
outside `int32` to the implementation; the embedding then keeps the truncated
value, and the theorems that depend on it assume `isInt32` of it. -/
def durationSeconds (d : Int) : Int :=
  if 0 ≤ d then (secondsMagnitude d.toNat : Int) else -(secondsMagnitude (-d).toNat : Int)

/-- The method `Time.Sub` for times without a monotonic reading: the difference in
nanoseconds, saturated at the least and the greatest `time.Duration`. -/
def durationSub (end_ start : Time) : Int :=
  if end_ - start < -9223372036854775808 then -9223372036854775808
  else if end_ - start > 9223372036854775807 then 9223372036854775807
  else end_ - start

/-- The expression `int32(end.Sub(start).Seconds())` (lines 42 and 52). -/
def rangeSeconds (start end_ : Time) : Int := durationSeconds (durationSub end_ start)

/-! ## Bucket resolver -/

/-- The function `calculateBuckets` of the source (lines 41-47). -/
def calculateBuckets (start end_ : Time) (bucketSeconds : Int) : Option Int := do
  let buckets ← divInt32 (rangeSeconds start end_) bucketSeconds
  if buckets < 1 then
    pure 1
  else
    pure buckets

/-- The function `clampBucketSeconds` of the source (lines 49-55). The division by the constant
`256` cannot panic and, on an `int32` dividend, cannot overflow after `+ 1`;
it is wrapped all the same. -/
def clampBucketSeconds (start end_ : Time) (bucketSeconds maxBuckets : Int) : Option Int := do
  let buckets ← calculateBuckets start end_ bucketSeconds
  if buckets > maxBuckets then
    pure (wrapInt32 (Int.tdiv (rangeSeconds start end_) 256 + 1))
  else
    pure bucketSeconds

/-- The reference definition of the bucket resolver in the words of the
specification (section 4.1), on the duration `d` in whole seconds, with
`int32` truncating division. -/
def resolveBucketSecondsRef (d w m : Int) : Int :=
  if max 1 (wrapInt32 (Int.tdiv d w)) > m then Int.tdiv d 256 + 1 else w

/-! ## Payloads and decoded series -/

/-- The struct `invocationsBucket` (lines 159-164). -/
structure invocationsBucket where
  Count : Int
  Status : String
  IxName : String
  Time : Time
  deriving DecidableEq

/-- The struct `signersBucket` (lines 166-169). -/
structure signersBucket where
  Time : Time
  Count : Int
  deriving DecidableEq

/-- The struct `programEventBucket` (lines 171-177). -/
structure programEventBucket where
  Count : Int
  Time : Time
  Authority : String
  Status : String
  Action : String
  deriving DecidableEq

/-- The struct `instructionInvocationsResponse` (lines 191-196). -/
structure instructionInvocationsResponse where
  times : List Time
  values : List Int
  statusLabels : List String
  ixNameLabels : List String
  deriving DecidableEq

/-- A `float32` of the failure-rate column: the zero a `make` fills in, or the
quotient `curr_failure / curr_len` of two counters (kept as the two operands;
`0 / 0` is the NaN the source produces). The counters are exact below `2^24`. -/
inductive Float32
  | zero
  | quot (failures len : Nat)
  deriving DecidableEq

/-- The values handed to `data.NewField`. -/
inductive Column
  | time (v : List Time)
  | int32 (v : List Int)
  | string (v : List String)
  | float32 (v : List Float32)
  deriving DecidableEq

/-- One `data.NewField(name, nil, values)`. -/
structure Field where
  name : String
  values : Column
  deriving DecidableEq

/-- The fields of the frame, `frame.Fields`, in the order they are appended. -/
abbrev Frame := List Field

/-- The number of rows of a column. -/
def Column.len : Column → Nat
  | .time v => v.length
  | .int32 v => v.length
  | .string v => v.length
  | .float32 v => v.length

/-- The column a frame carries under a field name. -/
def Frame.column (f : Frame) (name : String) : Option Column :=
  (f.find? (fun fld => fld.name == name)).map Field.values

/-- Go's `for i, n := range xs`, threading a state through the body. -/
def forRange {σ α : Type} (body : σ → Nat → α → σ) : Nat → List α → σ → σ
  | _, [], s => s
  | i, n :: rest, s => forRange body (i + 1) rest (body s i n)

/-- The function `getInstructionInvocations` of the source (lines 249-273); the argument is the outcome of
`json.Unmarshal` on the response body. -/
def getInstructionInvocations (unmarshal : Except String (List invocationsBucket)) :
    Except String instructionInvocationsResponse :=
  match unmarshal with
  | .error err => .error err
  | .ok buckets =>
    let times : List Time := List.replicate buckets.length 0
    let values : List Int := List.replicate buckets.length 0
    let statusLabels : List String := List.replicate buckets.length ""
    let ixNameLabels : List String := List.replicate buckets.length ""
    .ok (forRange (fun (r : instructionInvocationsResponse) i n =>
        { times := r.times.set i n.Time
          values := r.values.set i n.Count
          statusLabels := r.statusLabels.set i n.Status
          ixNameLabels := r.ixNameLabels.set i n.IxName })
      0 buckets ⟨times, values, statusLabels, ixNameLabels⟩)

/-! ## Derivations of `Datasource.query` that do not rank -/

/-- The `UniqueSigners` case of `query` (lines 372-390), after a successful decode. -/
def queryUniqueSigners (buckets : List signersBucket) : Frame :=
  let times : List Time := List.replicate buckets.length 0
  let values : List Int := List.replicate buckets.length 0
  let (times, values) := buckets.foldl
    (fun (acc : List Time × List Int) bucket => (acc.1 ++ [bucket.Time], acc.2 ++ [bucket.Count]))
    (times, values)
  [⟨"time", .time times⟩, ⟨"count", .int32 values⟩]

/-- The `Failures` case of `query` (lines 391-420), after a successful decode. -/
def queryFailures (buckets : List invocationsBucket) : Frame :=
  let (times, values, ixNameLabels) := buckets.foldl
    (fun (acc : List Time × List Int × List String) n =>
      if n.Status ≠ "success" then
        (acc.1 ++ [n.Time], acc.2.1 ++ [n.Count], acc.2.2 ++ [n.IxName])
      else acc)
    (([] : List Time), ([] : List Int), ([] : List String))
  [⟨"time", .time times⟩, ⟨"count", .int32 values⟩, ⟨"instructionName", .string ixNameLabels⟩]

/-- The statement `x++` on a `float32` counter that holds a whole number: exact below
`2^24`; at `2^24` the sum `2^24 + 1` is a tie and rounds to the even `2^24`. -/
def incFloat32 (x : Nat) : Nat := if x < 16777216 then x + 1 else x

/-- The loop state of the `FailureRate` case. -/
structure failureRateState where
  times : List Time
  values : List Float32
  curr_time : Time
  curr_failure : Nat
  curr_len : Nat
  deriving DecidableEq

/-- The `FailureRate` case of `query` (lines 421-450), after a successful decode. The slice
expression `Buckets[0 : len(Buckets)-1]` panics on an empty list. The test
`n.Time != curr_time` is on instants, the bucket times being written in UTC; the two
counters are `float32` values that hold whole numbers, and the rate keeps its two operands. -/
def queryFailureRate (buckets : List invocationsBucket) : Option Frame :=
  if buckets.length = 0 then none
  else
    let init : failureRateState :=
      { times := List.replicate buckets.length 0
        values := List.replicate buckets.length Float32.zero
        curr_time := 0, curr_failure := 0, curr_len := 0 }
    let s := forRange (fun (s : failureRateState) i n =>
        if i ≠ 0 ∧ n.Time ≠ s.curr_time then
          { s with
            curr_time := n.Time
            curr_failure :=
              if n.Status ≠ "success" then incFloat32 s.curr_failure else s.curr_failure
            curr_len := incFloat32 s.curr_len }
        else
          { s with
            times := s.times ++ [s.curr_time]
            values := s.values ++ [Float32.quot s.curr_failure s.curr_len] })
      0 (buckets.take (buckets.length - 1)) init
    some [⟨"time", .time s.times⟩, ⟨"rate", .float32 s.values⟩]

/-- The `ProgramDeployments` / `FailedProgramDeployments` case of `query` (lines 451-488), after a
successful decode. -/
def queryProgramDeployments (buckets : List programEventBucket) : Frame :=
  let times : List Time := List.replicate buckets.length 0
  let values : List Int := List.replicate buckets.length 0
  let authorityLabels : List String := List.replicate buckets.length ""
  let statusLabels : List String := List.replicate buckets.length ""
  let actionLabels : List String := List.replicate buckets.length ""
  let (times, values, statusLabels, _authorityLabels, actionLabels) := forRange
    (fun (acc : List Time × List Int × List String × List String × List String) i n =>
      (acc.1.set i n.Time, acc.2.1.set i n.Count, acc.2.2.1.set i n.Status,
        acc.2.2.2.1.set i n.Authority, acc.2.2.2.2.set i n.Action))
    0 buckets (times, values, statusLabels, authorityLabels, actionLabels)
  [⟨"time", .time times⟩, ⟨"count", .int32 values⟩, ⟨"authority", .string statusLabels⟩,
    ⟨"status", .string statusLabels⟩, ⟨"action", .string actionLabels⟩]

/-! ## The ranking structure: `invocationHeap` -/

/-- The struct `invocationHeapItem` (lines 200-204). -/
structure invocationHeapItem where
  ixName : String
  count : Int
  index : Int
  deriving DecidableEq

/-- The type `invocationHeap` (line 198), a slice of pointers, together with the items the
pointers reach: `store` lists the allocated items in allocation order, an
address is a position of `store`, and `ptrs` is the slice of addresses. -/
structure invocationHeap where
  store : List invocationHeapItem
  ptrs : List Nat
  deriving DecidableEq

/-- The write `p.index = i` through the pointer `p`. -/
def setIndex (store : List invocationHeapItem) (p : Nat) (i : Int) :
    Option (List invocationHeapItem) :=
  (store[p]?).map (fun it => store.set p { it with index := i })

namespace invocationHeap

/-- The method `Len` (line 206). -/
def Len (h : invocationHeap) : Nat := h.ptrs.length

/-- The item `*h[i]`. -/
def item (h : invocationHeap) (i : Nat) : Option invocationHeapItem :=
  (h.ptrs[i]?).bind (fun p => h.store[p]?)

/-- The method `Less` (line 207): the larger count comes first. -/
def Less (h : invocationHeap) (i j : Nat) : Option Bool :=
  (h.item i).bind (fun a => (h.item j).bind (fun b => some (decide (a.count > b.count))))

/-- The method `Swap` (lines 208-212). -/
def Swap (h : invocationHeap) (i j : Nat) : Option invocationHeap :=
  (h.ptrs[i]?).bind fun hi =>
  (h.ptrs[j]?).bind fun hj =>
  let ptrs := (h.ptrs.set i hj).set j hi
  (ptrs[i]?).bind fun p =>
  (setIndex h.store p i).bind fun store =>
  (ptrs[j]?).bind fun q =>
  (setIndex store q j).bind fun store =>
  some { store := store, ptrs := ptrs }

/-- The method `Push` (lines 214-219); `x` is the address of the item. -/
def Push (h : invocationHeap) (x : Nat) : Option invocationHeap :=
  let n := h.ptrs.length
  (setIndex h.store x n).bind fun store =>
  some { store := store, ptrs := h.ptrs ++ [x] }

/-- The method `Pop` (lines 221-229): the shortened slice and the address of the item taken
off its end. The write `old[n-1] = nil` lands beyond the shortened slice. -/
def Pop (h : invocationHeap) : Option (invocationHeap × Nat) :=
  let n := h.ptrs.length
  if n = 0 then none
  else
    (h.ptrs[n - 1]?).bind fun x =>
    (setIndex h.store x (-1)).bind fun store =>
    some ({ store := store, ptrs := h.ptrs.take (n - 1) }, x)

end invocationHeap

/-! ## Go's `container/heap`

Transcribed from the Go standard library (`container/heap/heap.go`), which the
source imports and drives through the `heap.Interface` methods above.
Positions are natural numbers: for `j = 0` the parent `(j - 1) / 2` of Go's
truncating division is `0`, as it is for the truncated subtraction here. A loop
takes its iteration bound as fuel and yields `none` when the bound is used up,
so that a result of `some` is a result of the Go loop. -/

namespace heap

/-- The loop of `up(h, j)`. -/
def upLoop : Nat → invocationHeap → Nat → Option invocationHeap
  | 0, _, _ => none
  | fuel + 1, h, j =>
    let i := (j - 1) / 2
    if i = j then some h
    else
      (h.Less j i).bind fun lt =>
      if !lt then some h
      else (h.Swap i j).bind fun h => upLoop fuel h i

/-- The function `up(h, j)`: the position at least halves at every turn. -/
def up (h : invocationHeap) (j : Nat) : Option invocationHeap := upLoop (j + 1) h j

/-- The loop of `down(h, i0, n)`: the heap and the last position `i`. -/
def downLoop : Nat → invocationHeap → Nat → Nat → Option (invocationHeap × Nat)
  | 0, _, _, _ => none
  | fuel + 1, h, i, n =>
    let j1 := 2 * i + 1
    if j1 ≥ n then some (h, i)
    else
      (if j1 + 1 < n then (h.Less (j1 + 1) j1).map (fun lt => if lt then j1 + 1 else j1)
        else some j1).bind fun j =>
      (h.Less j i).bind fun lt =>
      if !lt then some (h, i)
      else (h.Swap i j).bind fun h => downLoop fuel h j n

/-- The function `down(h, i0, n)`, with its result `i > i0`: the position grows at every turn
and stays below `n`. -/
def down (h : invocationHeap) (i0 n : Nat) : Option (invocationHeap × Bool) :=
  (downLoop (n + 1) h i0 n).map fun r => (r.1, decide (r.2 > i0))

/-- The function `heap.Init`. -/
def Init (h : invocationHeap) : Option invocationHeap :=
  let n := h.Len
  (List.range (n / 2)).reverse.foldlM (fun h i => (down h i n).map Prod.fst) h

/-- The function `heap.Push`. -/
def Push (h : invocationHeap) (x : Nat) : Option invocationHeap :=
  (h.Push x).bind fun h => up h (h.Len - 1)

/-- The function `heap.Pop`: `h.Len() - 1` is `-1` on an empty heap and `h.Swap(0, -1)` panics. -/
def Pop (h : invocationHeap) : Option (invocationHeap × Nat) :=
  if h.Len = 0 then none
  else
    let n := h.Len - 1
    (h.Swap 0 n).bind fun h =>
    (down h 0 n).bind fun r => r.1.Pop

/-- The function `heap.Fix` at a position read from an `index` field, a Go `int`. At `-1`, the
value `Pop` leaves in a removed item, `down` breaks at once (`j1 < 0`) and
`up` finds the parent `(-1 - 1) / 2 = -1` equal to the position, so nothing
happens; below `-1` the call of `Less` in `up` indexes out of range. -/
def Fix (h : invocationHeap) (i : Int) : Option invocationHeap :=
  match i with
  | .ofNat i => (down h i h.Len).bind fun r => if !r.2 then up r.1 i else some r.1
  | .negSucc 0 => some h
  | .negSucc (_ + 1) => none

end heap

namespace invocationHeap

/-- The method `update` (lines 231-234); `item` is the address of the item. -/
def update (pq : invocationHeap) (item : Nat) (total : Int) : Option invocationHeap :=
  (pq.store[item]?).bind fun it =>
  let store := pq.store.set item { it with count := wrapInt32 (it.count + total) }
  heap.Fix { pq with store := store } it.index

/-- The assignment `topN[k] = true` on the `map[string]bool`, kept as the list of its keys. -/
def setTrue (m : List String) (k : String) : List String :=
  if k ∈ m then m else m ++ [k]

/-- The loop of `topN`: `k` turns of `heap.Pop`. -/
def topNLoop : Nat → invocationHeap → List String → Option (List String)
  | 0, _, topN => some topN
  | k + 1, h, topN =>
    (heap.Pop h).bind fun r =>
    (r.1.store[r.2]?).bind fun item =>
    topNLoop k r.1 (setTrue topN item.ixName)

/-- The method `topN` (lines 236-247). The counter `i` runs from `0` while `i < n`, that is
`n` times for a positive `n` and not at all otherwise. -/
def topN (h : invocationHeap) (n : Int) : Option (List String) :=
  let n := if n > wrapInt32 h.Len then wrapInt32 h.Len else n
  topNLoop n.toNat h []

end invocationHeap

/-! ## The `TopInstructions` derivation -/

/-- One turn of the accumulation loop (lines 334-344), on the heap and the `seen` map
(a list of bindings, the first for a key being the one in force). -/
def accumulateStep (r : instructionInvocationsResponse)
    (st : invocationHeap × List (String × Nat)) (i : Nat) :
    Option (invocationHeap × List (String × Nat)) :=
  (r.ixNameLabels[i]?).bind fun name =>
  match st.2.lookup name with
  | none =>
    (r.values[i]?).bind fun v =>
    let p := st.1.store.length
    let h : invocationHeap :=
      { st.1 with store := st.1.store ++ [{ count := v, ixName := name, index := 0 }] }
    (heap.Push h p).map fun h => (h, (name, p) :: st.2)
  | some p =>
    (r.values[i]?).bind fun v =>
    (st.1.update p v).map fun h => (h, st.2)

/-- The accumulation of the `TopInstructions` case (lines 331-344). -/
def accumulate (r : instructionInvocationsResponse) :
    Option (invocationHeap × List (String × Nat)) :=
  (heap.Init { store := [], ptrs := [] }).bind fun ixTotalsMap =>
  (List.range r.times.length).foldlM (accumulateStep r) (ixTotalsMap, [])

/-- The heap built from a decoded series followed by `topN` (lines 331-346): the top-N set. -/
def selectTopN (r : instructionInvocationsResponse) (n : Int) : Option (List String) :=
  (accumulate r).bind fun st => st.1.topN n

/-- One turn of the filter loop (lines 353-362). -/
def filterStep (r : instructionInvocationsResponse) (top : List String)
    (out : instructionInvocationsResponse) (i : Nat) : Option instructionInvocationsResponse :=
  (r.ixNameLabels[i]?).bind fun ix_name =>
  if ix_name ∈ top then
    (r.times[i]?).bind fun t =>
    (r.values[i]?).bind fun v =>
    (r.statusLabels[i]?).bind fun s =>
    (r.ixNameLabels[i]?).bind fun x =>
    some { times := out.times ++ [t], values := out.values ++ [v],
           statusLabels := out.statusLabels ++ [s], ixNameLabels := out.ixNameLabels ++ [x] }
  else some out

/-- The `TopInstructions` case of `query` (lines 323-371), after a successful decode `r`. -/
def queryTopInstructions (r : instructionInvocationsResponse) (topN : Int) : Option Frame :=
  (selectTopN r topN).bind fun top =>
  let lenb := r.times.length
  let init : instructionInvocationsResponse :=
    { times := List.replicate lenb 0, values := List.replicate lenb 0,
      statusLabels := List.replicate lenb "", ixNameLabels := List.replicate lenb "" }
  ((List.range r.times.length).foldlM (filterStep r top) init).map fun out =>
  [⟨"time", .time out.times⟩, ⟨"count", .int32 out.values⟩,
    ⟨"status", .string out.statusLabels⟩, ⟨"instructionName", .string out.ixNameLabels⟩]

/-! ## The heap seen as a list of entries

The order and the contents of an `invocationHeap` are those of the list of
`(ixName, count)` pairs met along its slice. The functions below are the
methods and the loops of `container/heap` on that list; the lemmas relate them
to the ones above, and the order properties are proved on the list. -/

/-- A name with its running count. -/
abbrev Entry := String × Int

/-- The entry of a dereferenced item. -/
def entryOf : Option invocationHeapItem → Entry
  | some it => (it.ixName, it.count)
  | none => ("", 0)

/-- The entries of a heap, in slice order. -/
def invocationHeap.view (h : invocationHeap) : List Entry :=
  h.ptrs.map fun p => entryOf h.store[p]?

/-- The entry at a position. -/
def ent (a : List Entry) (i : Nat) : Entry := a[i]?.getD ("", 0)

/-- The count at a position. -/
def key (a : List Entry) (i : Nat) : Int := (ent a i).2

/-- The exchange of two positions. -/
def swapL (a : List Entry) (i j : Nat) : List Entry := (a.set i (ent a j)).set j (ent a i)

/-- The loop of `up` on entries. -/
def upL : Nat → List Entry → Nat → List Entry
  | 0, a, _ => a
  | fuel + 1, a, j =>
    let i := (j - 1) / 2
    if i = j then a
    else if key a j > key a i then upL fuel (swapL a i j) i
    else a

/-- The child `down` compares with its parent: the right one when it is in range and larger. -/
def childL (a : List Entry) (i n : Nat) : Nat :=
  if 2 * i + 1 + 1 < n ∧ key a (2 * i + 1 + 1) > key a (2 * i + 1) then 2 * i + 1 + 1
  else 2 * i + 1

/-- The loop of `down` on entries, with the last position. -/
def downL : Nat → List Entry → Nat → Nat → List Entry × Nat
  | 0, a, i, _ => (a, i)
  | fuel + 1, a, i, n =>
    if 2 * i + 1 ≥ n then (a, i)
    else if key a (childL a i n) > key a i then downL fuel (swapL a i (childL a i n)) (childL a i n) n
    else (a, i)

/-- The function `heap.Fix` on entries. -/
def fixL (a : List Entry) (i : Nat) : List Entry :=
  let r := downL (a.length + 1) a i a.length
  if r.2 > i then r.1 else upL (i + 1) r.1 i

/-- The function `heap.Pop` on entries: what stays and what is taken. -/
def popL (a : List Entry) : List Entry × Entry :=
  let n := a.length - 1
  let b := (downL (n + 1) (swapL a 0 n) 0 n).1
  (b.take n, ent b n)

/-- The loop of `topN` on entries: what stays and what was taken, in order. -/
def popsL : Nat → List Entry → List Entry × List Entry
  | 0, a => (a, [])
  | k + 1, a =>
    let r := popsL k (popL a).1
    (r.1, (popL a).2 :: r.2)

/-- Max-heap order on the first `n` positions: no count exceeds its parent's. -/
def IsHeap (a : List Entry) (n : Nat) : Prop :=
  ∀ k, 0 < k → k < n → key a k ≤ key a ((k - 1) / 2)

/-- Heap order but for the pair of `j` and its parent, with the children of `j`
below the parent of `j`: what `up` at `j` repairs. -/
def UpReady (a : List Entry) (j n : Nat) : Prop :=
  (∀ k, 0 < k → k < n → k ≠ j → key a k ≤ key a ((k - 1) / 2)) ∧
  (∀ k, 0 < k → k < n → (k - 1) / 2 = j → 0 < j → key a k ≤ key a ((j - 1) / 2))

/-- Heap order but for the pairs of `i` and its children, with the children of
`i` below the parent of `i`: what `down` at `i` repairs. -/
def DownReady (a : List Entry) (i n : Nat) : Prop :=
  (∀ k, 0 < k → k < n → (k - 1) / 2 ≠ i → key a k ≤ key a ((k - 1) / 2)) ∧
  (∀ k, 0 < k → k < n → (k - 1) / 2 = i → 0 < i → key a k ≤ key a ((i - 1) / 2))

/-- Heap order but for the pairs that involve `i`, with the children of `i`
below the parent of `i`: a heap whose count at `i` was overwritten. -/
def FixReady (a : List Entry) (i n : Nat) : Prop :=
  (∀ k, 0 < k → k < n → k ≠ i → (k - 1) / 2 ≠ i → key a k ≤ key a ((k - 1) / 2)) ∧
  (∀ k, 0 < k → k < n → (k - 1) / 2 = i → 0 < i → key a k ≤ key a ((i - 1) / 2))

/-! ## Spec-side reading of a series -/

/-- The rows of a decoded series the ranking reads: instruction name and count. -/
def seriesRows (r : instructionInvocationsResponse) : List Entry :=
  r.ixNameLabels.zip r.values

/-- The summed count of an instruction name: the sum of the counts of its rows. -/
def total (rows : List Entry) (name : String) : Int :=
  ((rows.filter fun e => e.1 = name).map Prod.snd).sum

/-- The number of distinct instruction names of a series. -/
def distinctCount (rows : List Entry) : Nat := (rows.map Prod.fst).toFinset.card

/-- The running total of `name` raised by `v`, in `int32` arithmetic. -/
def bump (name : String) (v : Int) (a : List Entry) : List Entry :=
  a.map fun e => if e.1 = name then (e.1, wrapInt32 (e.2 + v)) else e

/-- Online aggregation, one row: a new name enters with its count, a known
name has its running total raised. -/
def totalsStep (acc : List Entry) (row : Entry) : List Entry :=
  if row.1 ∈ acc.map Prod.fst then bump row.1 row.2 acc else acc ++ [row]

/-- Online aggregation of a list of rows, names in order of first sight. -/
def totals (rows : List Entry) : List Entry := rows.foldl totalsStep []

/-! ## Invariants of the heap with its items -/

/-- Index consistency: the item at position `i` of the slice exists and records `i`. -/
def IndexOK (h : invocationHeap) : Prop :=
  ∀ i, i < h.ptrs.length → ∃ it, h.item i = some it ∧ it.index = (i : Int)

/-- Every allocated item is in the heap, at the position it records. -/
def AllIn (h : invocationHeap) : Prop :=
  ∀ p, p < h.store.length →
    ∃ it i, h.store[p]? = some it ∧ it.index = ((i : Nat) : Int) ∧ h.ptrs[i]? = some p

/-- Two heaps with the same allocated items up to their `index` fields. -/
def SameNames (h h' : invocationHeap) : Prop :=
  h'.store.length = h.store.length ∧
    ∀ p : Nat,
      (h'.store[p]?).map invocationHeapItem.ixName = (h.store[p]?).map invocationHeapItem.ixName

/-- The `seen` map reaches, for each name it binds, an item of that name; it
binds exactly the names in `names`. -/
def SeenOK (h : invocationHeap) (seen : List (String × Nat)) (names : List String) : Prop :=
  ∀ name, match seen.lookup name with
    | none => name ∉ names
    | some p => name ∈ names ∧ ∃ it, h.store[p]? = some it ∧ it.ixName = name

/-- A move from `h` to `h'` that keeps index consistency, keeps every item in
the heap when every item was, keeps the names of the items, and leaves the
entries `a`. -/
def Step (h h' : invocationHeap) (a : List Entry) : Prop :=
  IndexOK h' ∧ (AllIn h → AllIn h') ∧ SameNames h h' ∧ h'.view = a

/-- The state of the accumulation loop after `t` rows: a consistent max-heap
whose entries are the online aggregation of those rows, with a `seen` map
that reaches the item of every name met. -/
def AccInv (r : instructionInvocationsResponse) (t : Nat)
    (st : invocationHeap × List (String × Nat)) : Prop :=
  IndexOK st.1 ∧ AllIn st.1 ∧ IsHeap st.1.view st.1.view.length ∧
    List.Perm st.1.view (totals ((seriesRows r).take t)) ∧
    SeenOK st.1 st.2 ((totals ((seriesRows r).take t)).map Prod.fst)

/-- The entries of a column on the rows whose instruction name is in `top`, in order. -/
def keepRows {α : Type} (top names : List String) (col : List α) : List α :=
  ((names.zip col).filter fun p => p.1 ∈ top).map Prod.snd

/-! ## Concrete inputs -/

/-- Scenario A of the specification: rows `(transfer, 5)`, `(mint, 3)`, `(transfer, 7)`. -/
def scenarioA : instructionInvocationsResponse :=
  { times := [100, 100, 200]
    values := [5, 3, 7]
    statusLabels := ["success", "success", "success"]
    ixNameLabels := ["transfer", "mint", "transfer"] }

/-- The binary numeral of `i`, least digit first, written with the letters `a` (zero) and
`b` (one): a supply of distinct instruction names. -/
def binaryName (i : Nat) : String :=
  String.mk ((Nat.digits 2 i).map fun b => if b = 0 then 'a' else 'b')

/-- A decoded series of `k` rows with `k` distinct instruction names, every count zero. -/
def wideSeries (k : Nat) : instructionInvocationsResponse :=
  { times := List.replicate k 0
    values := List.replicate k 0
    statusLabels := List.replicate k "success"
    ixNameLabels := (List.range k).map fun i => binaryName (i + 1) }

/-! ## Metric router -/

/-- The type `MetricType` (line 29), a string type. -/
abbrev MetricType := String

/-- The constant `Invocations` (line 32). -/
def Invocations : MetricType := "invocations"

/-- The constant `UniqueSigners` (line 33). -/
def UniqueSigners : MetricType := "uniqueSigners"

/-- The constant `Failures` (line 34). -/
def Failures : MetricType := "failures"

/-- The constant `FailureRate` (line 35). -/
def FailureRate : MetricType := "failureRate"

/-- The constant `ProgramDeployments` (line 36). -/
def ProgramDeployments : MetricType := "programDeployments"

/-- The constant `FailedProgramDeployments` (line 37). -/
def FailedProgramDeployments : MetricType := "failedProgramDeployments"

/-- The constant `TopInstructions` (line 38). -/
def TopInstructions : MetricType := "topInstructions"

/-- The function `getQueryType` (lines 57-76): the cases of the `switch`, tried in order. -/
def getQueryType (qt : MetricType) : MetricType :=
  if qt = Invocations then Invocations
  else if qt = UniqueSigners then UniqueSigners
  else if qt = Failures then Invocations
  else if qt = FailureRate then Invocations
  else if qt = ProgramDeployments then ProgramDeployments
  else if qt = FailedProgramDeployments then FailedProgramDeployments
  else if qt = TopInstructions then Invocations
  else Invocations

/-- The expression `int32(query.Interval.Seconds())` (line 288), on the query interval, a
`time.Duration` in nanoseconds. -/
def intervalSeconds (interval : Int) : Int := durationSeconds interval

/-! ## `fmt.Sprintf`

The fragment of Go's `fmt.Sprintf` the source uses: the verbs `%s`, `%d` and
`%v` on strings and integers, with `%%`, and Go's renderings of a bad verb, a
missing operand and extra operands. Flags, widths and the other verbs are not
modelled (a verb outside `s`, `d`, `v` is rendered as a bad verb). -/

/-- The decimal rendering of an integer, as `%d` and `%v` print it. -/
def decimal (n : Int) : String := toString n

/-- An operand of `fmt.Sprintf`. -/
inductive FmtArg
  | string (s : String)
  | int (n : Int)
  | int32 (n : Int)
  deriving DecidableEq

/-- The Go type name of an operand. -/
def FmtArg.typeName : FmtArg → String
  | .string _ => "string"
  | .int _ => "int"
  | .int32 _ => "int32"

/-- The default rendering of an operand. -/
def FmtArg.value : FmtArg → String
  | .string s => s
  | .int n => decimal n
  | .int32 n => decimal n

/-- The verbs an operand accepts. -/
def FmtArg.accepts : FmtArg → Char → Bool
  | .string _, verb => verb == 's' || verb == 'v'
  | .int _, verb => verb == 'd' || verb == 'v'
  | .int32 _, verb => verb == 'd' || verb == 'v'

/-- An operand under a verb: its rendering, or `%!verb(type=value)` for a bad verb. -/
def FmtArg.render (a : FmtArg) (verb : Char) : String :=
  if a.accepts verb then a.value
  else "%!" ++ verb.toString ++ "(" ++ a.typeName ++ "=" ++ a.value ++ ")"

/-- A piece of a format string: literal text or a verb. -/
inductive FmtPiece
  | lit (s : String)
  | verb (c : Char)
  deriving DecidableEq

/-- The pieces of a format string; `cur` is the literal text read so far. -/
def parseFormat : List Char → String → List FmtPiece
  | [], cur => if cur = "" then [] else [.lit cur]
  | '%' :: '%' :: rest, cur => parseFormat rest (cur.push '%')
  | '%' :: verb :: rest, cur =>
    if cur = "" then .verb verb :: parseFormat rest ""
    else .lit cur :: .verb verb :: parseFormat rest ""
  | ['%'], cur => [.lit (cur ++ "%!(NOVERB)")]
  | c :: rest, cur => parseFormat rest (cur.push c)

/-- The pieces filled with the operands, in order. -/
def renderPieces : List FmtPiece → List FmtArg → String
  | [], [] => ""
  | [], extra =>
    "%!(EXTRA " ++ ", ".intercalate (extra.map fun a => a.typeName ++ "=" ++ a.value) ++ ")"
  | .lit s :: ps, args => s ++ renderPieces ps args
  | .verb v :: ps, a :: args => a.render v ++ renderPieces ps args
  | .verb v :: ps, [] => "%!" ++ v.toString ++ "(MISSING)" ++ renderPieces ps []

/-- The function `fmt.Sprintf` on the fragment above. -/
def Sprintf (format : String) (args : List FmtArg) : String :=
  renderPieces (parseFormat format.toList "") args

/-! ## The upstream request -/

/-- The struct `Datasource` (lines 109-114), without the HTTP client. -/
structure Datasource where
  host : String
  apiKey : String
  maxBuckets : Int

/-- The method `solanaMetricsUrl` (lines 121-127). The layout `time.RFC3339` of
`time.Time.Format` belongs to the standard library and is the parameter
`rfc3339`. -/
def Datasource.solanaMetricsUrl (rfc3339 : Time → String) (d : Datasource)
    (metricType : MetricType) (programId ixName : String) (start end_ : Time) (bucket : Int) :
    String :=
  let uri := Sprintf "%s/query/solana/instructions/%s/%s?start=%s&end=%s&bucketSeconds=%d"
    [.string d.host, .string programId, .string metricType, .string (rfc3339 start),
      .string (rfc3339 end_), .int32 bucket]
  if ixName ≠ "" then Sprintf "%s&instructionName=%s" [.string uri, .string ixName]
  else uri

/-! ## `Datasource.query` -/

/-- The struct `queryPayload` (lines 148-153). -/
structure queryPayload where
  QueryType : String
  ProgramId : String
  IxName : String
  TopN : Int

/-- The struct `queryModel` (lines 155-157). -/
structure queryModel where
  Payload : queryPayload

/-- The fields of a `backend.DataQuery` the source reads: the outcome of
`json.Unmarshal(query.JSON, &qm)`, the time range and the interval (a
`time.Duration`, in nanoseconds). -/
structure DataQuery where
  JSON : Except String queryModel
  From : Time
  To : Time
  Interval : Int

/-- The request handed to the HTTP client (lines 284-290). -/
structure Request where
  method : String
  contentType : String
  authorization : String
  uri : String
  deriving DecidableEq

/-- What the source reads of a completed upstream response: the status code
and the outcome of `json.Unmarshal` of the body into each of the three
payload types. -/
structure Response where
  StatusCode : Int
  invocations : Except String (List invocationsBucket)
  signers : Except String (List signersBucket)
  programEvents : Except String (List programEventBucket)

/-- The fields of a `backend.DataResponse` the source sets. -/
structure DataResponse where
  Frames : List Frame
  Error : Option String
  Status : Int
  deriving DecidableEq

/-- The constant `backend.StatusBadRequest`. -/
def StatusBadRequest : Int := 400

/-- The function `backend.ErrDataResponse`: an error response without frames. -/
def ErrDataResponse (status : Int) (message : String) : DataResponse :=
  { Frames := [], Error := some message, Status := status }

/-- The end of `query` (lines 492-494): the zero `DataResponse` with the frame appended. -/
def frameResponse (frame : Frame) : DataResponse :=
  { Frames := [frame], Error := none, Status := 0 }

/-- The request `query` builds (lines 284-290) once the bucket width is resolved. -/
def buildRequest (rfc3339 : Time → String) (d : Datasource) (query : DataQuery)
    (qm : queryModel) (buckets : Int) : Request :=
  let qt := getQueryType qm.Payload.QueryType
  { method := "GET"
    contentType := "application/json"
    authorization := Sprintf "Bearer %s" [.string d.apiKey]
    uri := d.solanaMetricsUrl rfc3339 qt qm.Payload.ProgramId qm.Payload.IxName query.From
      query.To buckets }

/-- The `switch` of `query` on the requested metric type (lines 306-491) and the return of the
frame; `none` is a panic inside a derivation. -/
def querySwitch (qm : queryModel) (resp : Response) : Option DataResponse :=
  if qm.Payload.QueryType = Invocations then
    match getInstructionInvocations resp.invocations with
    | .error err =>
      some (ErrDataResponse StatusBadRequest (Sprintf "json unmarshal: %v" [.string err]))
    | .ok r =>
      some (frameResponse [⟨"time", .time r.times⟩, ⟨"count", .int32 r.values⟩,
        ⟨"status", .string r.statusLabels⟩, ⟨"instructionName", .string r.ixNameLabels⟩])
  else if qm.Payload.QueryType = TopInstructions then
    match getInstructionInvocations resp.invocations with
    | .error err =>
      some (ErrDataResponse StatusBadRequest (Sprintf "json unmarshal: %v" [.string err]))
    | .ok r => (queryTopInstructions r qm.Payload.TopN).map frameResponse
  else if qm.Payload.QueryType = UniqueSigners then
    match resp.signers with
    | .error err =>
      some (ErrDataResponse StatusBadRequest (Sprintf "json unmarshal: %v" [.string err]))
    | .ok buckets => some (frameResponse (queryUniqueSigners buckets))
  else if qm.Payload.QueryType = Failures then
    match resp.invocations with
    | .error err =>
      some (ErrDataResponse StatusBadRequest (Sprintf "json unmarshal: %v" [.string err]))
    | .ok buckets => some (frameResponse (queryFailures buckets))
  else if qm.Payload.QueryType = FailureRate then
    match resp.invocations with
    | .error err =>
      some (ErrDataResponse StatusBadRequest (Sprintf "json unmarshal: %v" [.string err]))
    | .ok buckets => (queryFailureRate buckets).map frameResponse
  else if qm.Payload.QueryType = FailedProgramDeployments
      ∨ qm.Payload.QueryType = ProgramDeployments then
    match resp.programEvents with
    | .error err =>
      some (ErrDataResponse StatusBadRequest (Sprintf "json unmarshal: %v" [.string err]))
    | .ok buckets => some (frameResponse (queryProgramDeployments buckets))
  else
    some (ErrDataResponse StatusBadRequest
      (Sprintf "invalid query type: %s" [.string qm.Payload.QueryType]))

/-- The method `query` (lines 275-495). The HTTP client is the parameter `Do`: the outcome
of `d.Client.Do(req, resp)` for a request, a transport error or a completed
response. The result `none` is a panic. -/
def Datasource.query (rfc3339 : Time → String) (Do : Request → Except String Response)
    (d : Datasource) (query : DataQuery) : Option DataResponse :=
  match query.JSON with
  | .error err =>
    some (ErrDataResponse StatusBadRequest (Sprintf "json unmarshal: %v" [.string err]))
  | .ok qm =>
    (clampBucketSeconds query.From query.To (intervalSeconds query.Interval) d.maxBuckets).bind
      fun buckets =>
    match Do (buildRequest rfc3339 d query qm buckets) with
    | .error httpError =>
      some (ErrDataResponse StatusBadRequest (Sprintf "upstream error: %v" [.string httpError]))
    | .ok resp =>
      if resp.StatusCode ≠ 200 then
        some (ErrDataResponse StatusBadRequest
          (Sprintf "upstream error: %v" [.int resp.StatusCode]))
      else querySwitch qm resp

/-- A sub-query for an hour of data at a ten-second interval. -/
def hourQuery (queryType : String) : DataQuery :=
  { JSON := .ok ⟨⟨queryType, "Prog1111", "", 3⟩⟩
    From := 0, To := 3600000000000, Interval := 10000000000 }

/-- A datasource with a ceiling of 100 buckets. -/
def exampleDatasource : Datasource :=
  { host := "https://metrics.example", apiKey := "secret", maxBuckets := 100 }

/-- An upstream that answers every request with the given status and an empty payload. -/
def upstreamStatus (code : Int) : Request → Except String Response :=
  fun _ => .ok ⟨code, .ok [], .ok [], .ok []⟩

/-! ## Reachable heaps -/

/-- Max-heap order read on the items: the count at the parent position
`(i - 1) / 2` is at least the count at position `i`. -/
def MaxHeapOrder (h : invocationHeap) : Prop :=
  ∀ i, 0 < i → i < h.Len →
    ∃ a b, h.item i = some a ∧ h.item ((i - 1) / 2) = some b ∧ a.count ≤ b.count

/-- The allocation of a fresh item; its address is the old length of `store`. -/
def alloc (h : invocationHeap) (it : invocationHeapItem) : invocationHeap :=
  { h with store := h.store ++ [it] }

/-- The heaps reached from the empty heap by `heap.Push` of a fresh item and
by `update` with any delta on an item that is in the heap. -/
inductive Reachable : invocationHeap → Prop
  | empty : Reachable { store := [], ptrs := [] }
  | push (h h' : invocationHeap) (it : invocationHeapItem) : Reachable h →
      heap.Push (alloc h it) h.store.length = some h' → Reachable h'
  | update (h h' : invocationHeap) (i p : Nat) (delta : Int) : Reachable h →
      h.ptrs[i]? = some p → h.update p delta = some h' → Reachable h'

/-- Both invariants of a heap: max-heap order and index consistency. -/
def HeapInv (h : invocationHeap) : Prop := MaxHeapOrder h ∧ IndexOK h

/-- A heap of two items, `mint` with the count 13 at the root. -/
def twoItemHeap : invocationHeap :=
  { store := [⟨"transfer", 5, 1⟩, ⟨"mint", 13, 0⟩], ptrs := [1, 0] }

/-! # Proofs -/

/-! ## Lists of entries -/

theorem ent_set (a : List Entry) (i k : Nat) (x : Entry) (hi : i < a.length) :
    ent (a.set i x) k = if k = i then x else ent a k := by
  unfold ent
  by_cases h : k = i
  · subst h; simp [hi]
  · have h' : i ≠ k := fun e => h e.symm
    simp [h, List.getElem?_set_ne h']

theorem ent_swapL (a : List Entry) (i j k : Nat) (hi : i < a.length) (hj : j < a.length) :
    ent (swapL a i j) k = if k = j then ent a i else if k = i then ent a j else ent a k := by
  unfold swapL
  rw [ent_set _ _ _ _ (by simpa using hj), ent_set _ _ _ _ hi]

theorem key_swapL (a : List Entry) (i j k : Nat) (hi : i < a.length) (hj : j < a.length) :
    key (swapL a i j) k = if k = j then key a i else if k = i then key a j else key a k := by
  unfold key
  rw [ent_swapL a i j k hi hj]
  split_ifs <;> rfl

@[simp] theorem length_swapL (a : List Entry) (i j : Nat) : (swapL a i j).length = a.length := by
  simp [swapL]

theorem ent_mem (a : List Entry) (i : Nat) (hi : i < a.length) : ent a i ∈ a := by
  unfold ent
  rw [List.getElem?_eq_getElem hi]
  exact List.getElem_mem hi

theorem mem_ent (a : List Entry) (e : Entry) (he : e ∈ a) : ∃ i, i < a.length ∧ ent a i = e := by
  obtain ⟨i, hi, rfl⟩ := List.getElem_of_mem he
  exact ⟨i, hi, by simp [ent, List.getElem?_eq_getElem hi]⟩

theorem set_cons_perm (x : Entry) : ∀ (xs : List Entry) (j : Nat), j < xs.length →
    List.Perm (ent xs j :: xs.set j x) (x :: xs)
  | [], j, h => by simp at h
  | y :: ys, 0, _ => by
    simpa [ent] using List.Perm.swap x y ys
  | y :: ys, j + 1, h => by
    have ih := set_cons_perm x ys j (by simpa using h)
    have e : ent (y :: ys) (j + 1) = ent ys j := by simp [ent]
    rw [e, List.set_cons_succ]
    exact ((List.Perm.swap y (ent ys j) (ys.set j x)).trans (ih.cons y)).trans
      (List.Perm.swap x y ys)

theorem swapL_perm : ∀ (a : List Entry) (i j : Nat), i < a.length → j < a.length →
    List.Perm (swapL a i j) a
  | [], i, _, h, _ => by simp at h
  | x :: xs, 0, 0, _, _ => by simp [swapL, ent]
  | x :: xs, 0, j + 1, _, hj => by
    have h := set_cons_perm x xs j (by simpa using hj)
    simpa [swapL, ent] using h
  | x :: xs, i + 1, 0, hi, _ => by
    have h := set_cons_perm x xs i (by simpa using hi)
    simpa [swapL, ent] using h
  | x :: xs, i + 1, j + 1, hi, hj => by
    have h := swapL_perm xs i j (by simpa using hi) (by simpa using hj)
    simpa [swapL, ent] using h.cons x

/-! ## `up` on entries -/

theorem length_upL : ∀ (fuel : Nat) (a : List Entry) (j : Nat), (upL fuel a j).length = a.length
  | 0, a, j => rfl
  | fuel + 1, a, j => by
    unfold upL
    simp only
    split_ifs
    · rfl
    · rw [length_upL fuel, length_swapL]
    · rfl

theorem upL_perm : ∀ (fuel : Nat) (a : List Entry) (j : Nat), j < a.length →
    List.Perm (upL fuel a j) a
  | 0, a, j, _ => List.Perm.refl _
  | fuel + 1, a, j, hj => by
    unfold upL
    simp only
    split_ifs
    · exact List.Perm.refl _
    · have hi : (j - 1) / 2 < a.length := by omega
      exact (upL_perm fuel _ _ (by simpa using hi)).trans (swapL_perm a _ _ hi hj)
    · exact List.Perm.refl _

theorem upReady_swap (a : List Entry) (j n : Nat) (hjn : j < n) (hn : n ≤ a.length)
    (hne : (j - 1) / 2 ≠ j) (hlt : key a j > key a ((j - 1) / 2)) (hU : UpReady a j n) :
    UpReady (swapL a ((j - 1) / 2) j) ((j - 1) / 2) n := by
  have hj : j < a.length := by omega
  have hi : (j - 1) / 2 < a.length := by omega
  have hj0 : 0 < j := by omega
  refine ⟨fun k hk hkn hki => ?_, fun k hk hkn hpar hi0 => ?_⟩
  · rw [key_swapL a _ _ _ hi hj, key_swapL a _ _ _ hi hj]
    have h1 := hU.1 k hk hkn
    have h2 := hU.2 k hk hkn
    by_cases e1 : k = j
    · subst e1
      simp only [if_true, if_neg hne]
      omega
    · rw [if_neg e1, if_neg hki]
      by_cases e2 : (k - 1) / 2 = j
      · rw [if_pos e2]
        exact h2 e2 hj0
      · rw [if_neg e2]
        by_cases e3 : (k - 1) / 2 = (j - 1) / 2
        · rw [if_pos e3]
          have := h1 e1
          rw [e3] at this
          omega
        · rw [if_neg e3]
          exact h1 e1
  · have hi1 := hU.1 ((j - 1) / 2) hi0 (by omega) hne
    have hpp : ((j - 1) / 2 - 1) / 2 ≠ j := by omega
    have hpp' : ((j - 1) / 2 - 1) / 2 ≠ (j - 1) / 2 := by omega
    rw [key_swapL a _ _ _ hi hj, key_swapL a _ _ _ hi hj, if_neg hpp, if_neg hpp']
    by_cases e1 : k = j
    · rw [if_pos e1]
      exact hi1
    · have e2 : k ≠ (j - 1) / 2 := by omega
      rw [if_neg e1, if_neg e2]
      have := hU.1 k hk hkn e1
      rw [hpar] at this
      omega

theorem upL_heap : ∀ (fuel : Nat) (a : List Entry) (j n : Nat), j < fuel → j < n → n ≤ a.length →
    UpReady a j n → IsHeap (upL fuel a j) n
  | 0, _, _, _, h, _, _, _ => by omega
  | fuel + 1, a, j, n, hf, hjn, hn, hU => by
    unfold upL
    simp only
    by_cases hne : (j - 1) / 2 = j
    · rw [if_pos hne]
      intro k hk hkn
      exact hU.1 k hk hkn (by omega)
    · rw [if_neg hne]
      by_cases hlt : key a j > key a ((j - 1) / 2)
      · rw [if_pos hlt]
        exact upL_heap fuel _ _ n (by omega) (by omega) (by simpa using hn)
          (upReady_swap a j n hjn hn hne hlt hU)
      · rw [if_neg hlt]
        intro k hk hkn
        by_cases e : k = j
        · subst e; omega
        · exact hU.1 k hk hkn e

/-! ## `down` on entries -/

theorem childL_cases (a : List Entry) (i n : Nat) :
    childL a i n = 2 * i + 1 ∨ (childL a i n = 2 * i + 1 + 1 ∧ 2 * i + 1 + 1 < n) := by
  unfold childL
  split_ifs with h
  · exact Or.inr ⟨rfl, h.1⟩
  · exact Or.inl rfl

theorem childL_max (a : List Entry) (i n k : Nat) (hk : 0 < k) (hkn : k < n)
    (hpar : (k - 1) / 2 = i) : key a k ≤ key a (childL a i n) := by
  have hk' : k = 2 * i + 1 ∨ k = 2 * i + 1 + 1 := by omega
  unfold childL
  split_ifs with h
  · rcases hk' with e | e
    · subst e; omega
    · subst e; exact le_refl _
  · rcases hk' with e | e
    · subst e; exact le_refl _
    · subst e
      have : ¬ key a (2 * i + 1 + 1) > key a (2 * i + 1) := fun hgt => h ⟨hkn, hgt⟩
      omega

theorem length_downL : ∀ (fuel : Nat) (a : List Entry) (i n : Nat),
    (downL fuel a i n).1.length = a.length
  | 0, a, i, n => rfl
  | fuel + 1, a, i, n => by
    unfold downL
    split_ifs
    · rfl
    · rw [length_downL fuel, length_swapL]
    · rfl

theorem downL_ge : ∀ (fuel : Nat) (a : List Entry) (i n : Nat), i ≤ (downL fuel a i n).2
  | 0, a, i, n => le_refl _
  | fuel + 1, a, i, n => by
    unfold downL
    split_ifs
    · exact le_refl _
    · have h := downL_ge fuel (swapL a i (childL a i n)) (childL a i n) n
      rcases childL_cases a i n with e | e <;> omega
    · exact le_refl _

theorem downL_perm : ∀ (fuel : Nat) (a : List Entry) (i n : Nat), n ≤ a.length →
    List.Perm (downL fuel a i n).1 a
  | 0, a, i, n, _ => List.Perm.refl _
  | fuel + 1, a, i, n, hn => by
    unfold downL
    split_ifs with h1 h2
    · exact List.Perm.refl _
    · have hc : childL a i n < a.length := by
        rcases childL_cases a i n with e | e <;> omega
      have hi : i < a.length := by omega
      exact (downL_perm fuel _ _ n (by simpa using hn)).trans (swapL_perm a _ _ hi hc)
    · exact List.Perm.refl _

theorem downL_frame : ∀ (fuel : Nat) (a : List Entry) (i n k : Nat), n ≤ a.length → n ≤ k →
    ent (downL fuel a i n).1 k = ent a k
  | 0, a, i, n, k, _, _ => rfl
  | fuel + 1, a, i, n, k, hn, hk => by
    unfold downL
    split_ifs with h1 h2
    · rfl
    · have hc : childL a i n < n := by
        rcases childL_cases a i n with e | e <;> omega
      rw [downL_frame fuel _ _ n k (by simpa using hn) hk,
        ent_swapL a _ _ _ (by omega) (by omega), if_neg (by omega), if_neg (by omega)]
    · rfl

theorem downL_stay (fuel : Nat) (a : List Entry) (i n : Nat)
    (h : (downL (fuel + 1) a i n).2 ≤ i) :
    (downL (fuel + 1) a i n).1 = a ∧ (n ≤ 2 * i + 1 ∨ key a (childL a i n) ≤ key a i) := by
  unfold downL at h ⊢
  split_ifs at h ⊢ with h1 h2
  · exact ⟨rfl, Or.inl h1⟩
  · have hge := downL_ge fuel (swapL a i (childL a i n)) (childL a i n) n
    rcases childL_cases a i n with e | e <;> omega
  · exact ⟨rfl, Or.inr (by omega)⟩

theorem downL_moved (fuel : Nat) (a : List Entry) (i n : Nat)
    (h : i < (downL (fuel + 1) a i n).2) :
    2 * i + 1 < n ∧ key a i < key a (childL a i n) := by
  unfold downL at h
  split_ifs at h with h1 h2
  · simp at h
  · exact ⟨by omega, h2⟩
  · simp at h

theorem downReady_swap (a : List Entry) (i n : Nat) (hn : n ≤ a.length) (hin : 2 * i + 1 < n)
    (hlt : key a (childL a i n) > key a i) (hD : DownReady a i n) :
    DownReady (swapL a i (childL a i n)) (childL a i n) n := by
  have hc : childL a i n < n := by
    rcases childL_cases a i n with e | e <;> omega
  have hci : i < childL a i n := by
    rcases childL_cases a i n with e | e <;> omega
  have hpc : (childL a i n - 1) / 2 = i := by
    rcases childL_cases a i n with e | e <;> omega
  have hmax := childL_max a i n
  generalize childL a i n = c at *
  have hia : i < a.length := by omega
  have hca : c < a.length := by omega
  refine ⟨fun k hk hkn hkc => ?_, fun k hk hkn hpar _ => ?_⟩
  · rw [key_swapL a _ _ _ hia hca, key_swapL a _ _ _ hia hca, if_neg hkc]
    by_cases e1 : k = c
    · subst e1
      rw [if_pos rfl, if_pos hpc]
      omega
    · rw [if_neg e1]
      by_cases e2 : k = i
      · subst e2
        have hp : (k - 1) / 2 ≠ k := by omega
        rw [if_pos rfl, if_neg hp]
        exact hD.2 c (by omega) hc hpc hk
      · rw [if_neg e2]
        by_cases e3 : (k - 1) / 2 = i
        · rw [if_pos e3]
          exact hmax k hk hkn e3
        · rw [if_neg e3]
          exact hD.1 k hk hkn e3
  · have e1 : k ≠ c := by omega
    have e2 : k ≠ i := by omega
    rw [key_swapL a _ _ _ hia hca, key_swapL a _ _ _ hia hca, if_neg e1, if_neg e2, hpc,
      if_neg (by omega), if_pos rfl]
    have := hD.1 k hk hkn (by omega)
    rw [hpar] at this
    exact this

theorem downL_heap : ∀ (fuel : Nat) (a : List Entry) (i n : Nat), n < fuel + i → n ≤ a.length →
    DownReady a i n → IsHeap (downL fuel a i n).1 n
  | 0, a, i, n, hf, hn, hD => by
    intro k hk hkn
    exact hD.1 k hk hkn (by omega)
  | fuel + 1, a, i, n, hf, hn, hD => by
    unfold downL
    split_ifs with h1 h2
    · intro k hk hkn
      exact hD.1 k hk hkn (by omega)
    · have hci : i < childL a i n := by
        rcases childL_cases a i n with e | e <;> omega
      exact downL_heap fuel _ _ n (by omega) (by simpa using hn)
        (downReady_swap a i n hn (by omega) h2 hD)
    · intro k hk hkn
      show key a k ≤ key a ((k - 1) / 2)
      by_cases e : (k - 1) / 2 = i
      · have := childL_max a i n k hk hkn e
        rw [e]
        omega
      · exact hD.1 k hk hkn e

/-! ## `Fix`, `Pop` and repeated `Pop` on entries -/

theorem length_fixL (a : List Entry) (i : Nat) : (fixL a i).length = a.length := by
  unfold fixL
  simp only
  split_ifs
  · rw [length_downL]
  · rw [length_upL, length_downL]

theorem fixL_perm (a : List Entry) (i : Nat) (hi : i < a.length) : List.Perm (fixL a i) a := by
  unfold fixL
  simp only
  split_ifs
  · exact downL_perm _ _ _ _ (le_refl _)
  · exact (upL_perm _ _ _ (by rw [length_downL]; exact hi)).trans
      (downL_perm _ _ _ _ (le_refl _))

theorem fixL_heap (a : List Entry) (i : Nat) (hi : i < a.length) (hF : FixReady a i a.length) :
    IsHeap (fixL a i) a.length := by
  unfold fixL
  simp only
  split_ifs with h
  · obtain ⟨h1, h2⟩ := downL_moved a.length a i a.length h
    refine downL_heap _ a i a.length (by omega) (le_refl _) ⟨fun k hk hkn hpar => ?_, hF.2⟩
    by_cases e : k = i
    · subst e
      have hc : childL a k a.length < a.length := by
        rcases childL_cases a k a.length with e | e <;> omega
      have hpc : (childL a k a.length - 1) / 2 = k := by
        rcases childL_cases a k a.length with e | e <;> omega
      have := hF.2 (childL a k a.length) (by omega) hc hpc hk
      omega
    · exact hF.1 k hk hkn e hpar
  · obtain ⟨h1, h2⟩ := downL_stay a.length a i a.length (by omega)
    rw [h1]
    refine upL_heap _ a i a.length (by omega) hi (le_refl _) ⟨fun k hk hkn hki => ?_, hF.2⟩
    by_cases e : (k - 1) / 2 = i
    · have := childL_max a i a.length k hk hkn e
      rw [e]
      omega
    · exact hF.1 k hk hkn hki e

theorem isHeap_root (a : List Entry) (n : Nat) (hH : IsHeap a n) :
    ∀ k, k < n → key a k ≤ key a 0 := by
  intro k
  induction k using Nat.strong_induction_on with
  | _ k ih =>
    intro hk
    by_cases h0 : k = 0
    · subst h0; exact le_refl _
    · have h1 := hH k (by omega) hk
      have h2 := ih ((k - 1) / 2) (by omega) (by omega)
      omega

theorem ent_take (b : List Entry) (n k : Nat) (hk : k < n) : ent (b.take n) k = ent b k := by
  unfold ent
  rw [List.getElem?_take_of_lt hk]

theorem take_last_perm (b : List Entry) (n : Nat) (hb : b.length = n + 1) :
    List.Perm (ent b n :: b.take n) b := by
  have h1 : b.drop n = [ent b n] := by
    have hn : n < b.length := by omega
    rw [List.drop_eq_getElem_cons hn, List.drop_of_length_le (by omega)]
    simp [ent, List.getElem?_eq_getElem hn]
  have h2 : b = b.take n ++ [ent b n] := by
    rw [← h1, List.take_append_drop]
  calc List.Perm (ent b n :: b.take n) (b.take n ++ [ent b n]) :=
        (List.perm_append_singleton _ _).symm
    _ = b := h2.symm

theorem popL_spec (a : List Entry) (ha : 0 < a.length) (hH : IsHeap a a.length) :
    (popL a).2 = ent a 0 ∧ List.Perm ((popL a).2 :: (popL a).1) a ∧
      IsHeap (popL a).1 (popL a).1.length ∧ (popL a).1.length = a.length - 1 ∧
      ∀ e ∈ a, e.2 ≤ (popL a).2.2 := by
  have hn : a.length - 1 < a.length := by omega
  have hs : a.length - 1 ≤ (swapL a 0 (a.length - 1)).length := by simp
  have hlen : (downL (a.length - 1 + 1) (swapL a 0 (a.length - 1)) 0 (a.length - 1)).1.length
      = a.length - 1 + 1 := by
    rw [length_downL, length_swapL]; omega
  have hlast : ent (downL (a.length - 1 + 1) (swapL a 0 (a.length - 1)) 0 (a.length - 1)).1
      (a.length - 1) = ent a 0 := by
    rw [downL_frame _ _ _ _ _ hs (le_refl _), ent_swapL a _ _ _ ha hn, if_pos rfl]
  have hperm : List.Perm (downL (a.length - 1 + 1) (swapL a 0 (a.length - 1)) 0
      (a.length - 1)).1 a :=
    (downL_perm _ _ _ _ hs).trans (swapL_perm a _ _ ha hn)
  have hready : DownReady (swapL a 0 (a.length - 1)) 0 (a.length - 1) := by
    refine ⟨fun k hk hkn hpar => ?_, fun k _ _ _ h0 => absurd h0 (by omega)⟩
    rw [key_swapL a _ _ _ ha hn, key_swapL a _ _ _ ha hn, if_neg (by omega), if_neg (by omega),
      if_neg (by omega), if_neg hpar]
    exact hH k hk (by omega)
  have hheap := downL_heap (a.length - 1 + 1) _ 0 (a.length - 1) (by omega) hs hready
  unfold popL
  simp only
  refine ⟨hlast, ?_, ?_, ?_, ?_⟩
  · exact (take_last_perm _ _ hlen).trans hperm
  · intro k hk hkn
    have hkn' : k < a.length - 1 := by
      rw [List.length_take] at hkn
      omega
    rw [key, key, ent_take _ _ _ hkn', ent_take _ _ _ (by omega)]
    exact hheap k hk hkn'
  · rw [List.length_take, hlen]; omega
  · intro e he
    obtain ⟨k, hk, rfl⟩ := mem_ent a e he
    rw [hlast]
    exact isHeap_root a a.length hH k hk

theorem popsL_spec : ∀ (k : Nat) (a : List Entry), k ≤ a.length → IsHeap a a.length →
    List.Perm ((popsL k a).2 ++ (popsL k a).1) a ∧ (popsL k a).2.length = k ∧
      ∀ p ∈ (popsL k a).2, ∀ q ∈ (popsL k a).1, q.2 ≤ p.2
  | 0, a, _, _ => by
    simp [popsL]
  | k + 1, a, hk, hH => by
    obtain ⟨_, hperm, hheap, hlen, hmax⟩ := popL_spec a (by omega) hH
    obtain ⟨ih1, ih2, ih3⟩ := popsL_spec k (popL a).1 (by omega) hheap
    unfold popsL
    simp only
    refine ⟨?_, by simp [ih2], ?_⟩
    · exact (List.Perm.cons _ ih1).trans hperm
    · intro p hp q hq
      rcases List.mem_cons.1 hp with e | hp'
      · subst e
        have hq1 : q ∈ (popL a).1 := (ih1.mem_iff).1 (List.mem_append_right _ hq)
        exact hmax q ((hperm.mem_iff).1 (List.mem_cons_of_mem _ hq1))
      · exact ih3 p hp' q hq

/-! ## The heap with its items: reading positions -/

theorem set_same {α : Type} (l : List α) (i : Nat) (a : α) (h : l[i]? = some a) :
    l.set i a = l := by
  apply List.ext_getElem?
  intro k
  rw [List.getElem?_set]
  split_ifs with h1 h2
  · subst h1; exact h.symm
  · subst h1; rw [List.getElem?_eq_none (by omega)]
  · rfl

theorem get_set_set {α : Type} (l : List α) (p q k : Nat) (x y : α) (hpq : p ≠ q)
    (hp : p < l.length) (hq : q < l.length) :
    ((l.set p x).set q y)[k]? = if k = q then some y else if k = p then some x else l[k]? := by
  rw [List.getElem?_set, List.getElem?_set]
  simp only [List.length_set]
  by_cases e1 : k = q
  · subst e1; simp [hq]
  · by_cases e2 : k = p
    · subst e2
      have : q ≠ k := fun e => e1 e.symm
      simp [this, hp, e1]
    · have h1 : q ≠ k := fun e => e1 e.symm
      have h2 : p ≠ k := fun e => e2 e.symm
      simp [h1, h2, e1, e2]

theorem lt_of_get {α : Type} {l : List α} {i : Nat} {a : α} (h : l[i]? = some a) :
    i < l.length := by
  obtain ⟨h', _⟩ := List.getElem?_eq_some.1 h
  exact h'

theorem item_some (h : invocationHeap) (i : Nat) (it : invocationHeapItem) :
    h.item i = some it ↔ ∃ p, h.ptrs[i]? = some p ∧ h.store[p]? = some it := by
  simp [invocationHeap.item, Option.bind_eq_some]

theorem IndexOK.get {h : invocationHeap} (hOK : IndexOK h) {i : Nat} (hi : i < h.ptrs.length) :
    ∃ p it, h.ptrs[i]? = some p ∧ h.store[p]? = some it ∧ it.index = (i : Int) := by
  obtain ⟨it, h1, h2⟩ := hOK i hi
  obtain ⟨p, h3, h4⟩ := (item_some h i it).1 h1
  exact ⟨p, it, h3, h4, h2⟩

theorem IndexOK.inj {h : invocationHeap} (hOK : IndexOK h) {i j p : Nat}
    (hi : h.ptrs[i]? = some p) (hj : h.ptrs[j]? = some p) : i = j := by
  obtain ⟨p1, a, h1, h2, h3⟩ := hOK.get (lt_of_get hi)
  obtain ⟨p2, b, h4, h5, h6⟩ := hOK.get (lt_of_get hj)
  rw [hi] at h1
  rw [hj] at h4
  injection h1 with h1
  injection h4 with h4
  subst h1 h4
  rw [h2] at h5
  injection h5 with h5
  subst h5
  rw [h3] at h6
  exact_mod_cast h6

theorem length_view (h : invocationHeap) : h.view.length = h.ptrs.length := by
  simp [invocationHeap.view]

theorem view_ent (h : invocationHeap) (i p : Nat) (it : invocationHeapItem)
    (h1 : h.ptrs[i]? = some p) (h2 : h.store[p]? = some it) :
    ent h.view i = (it.ixName, it.count) := by
  simp [ent, invocationHeap.view, List.getElem?_map, h1, h2, entryOf]

theorem view_congr (h h' : invocationHeap)
    (hs : ∀ q : Nat, entryOf h'.store[q]? = entryOf h.store[q]?) :
    h'.view = h'.ptrs.map fun p => entryOf h.store[p]? := by
  unfold invocationHeap.view
  exact List.map_congr_left fun q _ => hs q

theorem step_refl (h : invocationHeap) (hOK : IndexOK h) : Step h h h.view :=
  ⟨hOK, id, ⟨rfl, fun _ => rfl⟩, rfl⟩

theorem step_trans {h h1 h2 : invocationHeap} {a1 a2 : List Entry} (s1 : Step h h1 a1)
    (s2 : Step h1 h2 a2) : Step h h2 a2 :=
  ⟨s2.1, fun hA => s2.2.1 (s1.2.1 hA),
    ⟨s2.2.2.1.1.trans s1.2.2.1.1, fun p => (s2.2.2.1.2 p).trans (s1.2.2.1.2 p)⟩, s2.2.2.2⟩

theorem step_length {h h' : invocationHeap} {a : List Entry} (s : Step h h' a) :
    h'.ptrs.length = a.length := by
  rw [← s.2.2.2, length_view]

/-! ## The methods of `invocationHeap` against the entries -/

theorem Less_view (h : invocationHeap) (hOK : IndexOK h) (i j : Nat) (hi : i < h.ptrs.length)
    (hj : j < h.ptrs.length) :
    h.Less i j = some (decide (key h.view i > key h.view j)) := by
  obtain ⟨p, a, h1, h2, _⟩ := hOK.get hi
  obtain ⟨q, b, h3, h4, _⟩ := hOK.get hj
  have e1 : h.item i = some a := (item_some h i a).2 ⟨p, h1, h2⟩
  have e2 : h.item j = some b := (item_some h j b).2 ⟨q, h3, h4⟩
  simp [invocationHeap.Less, e1, e2, key, view_ent h i p a h1 h2, view_ent h j q b h3 h4]

theorem Swap_same (h : invocationHeap) (hOK : IndexOK h) (i : Nat) (hi : i < h.ptrs.length) :
    h.Swap i i = some h := by
  obtain ⟨p, a, h1, h2, h3⟩ := hOK.get hi
  have e1 : h.ptrs.set i p = h.ptrs := set_same _ _ _ h1
  have e2 : ({ a with index := (i : Int) } : invocationHeapItem) = a := by
    cases a; simp_all
  have e3 : setIndex h.store p i = some h.store := by
    simp [setIndex, h2, e2, set_same _ _ _ h2]
  simp [invocationHeap.Swap, h1, e1, e3]

theorem swapL_same (a : List Entry) (i : Nat) (hi : i < a.length) : swapL a i i = a := by
  unfold swapL
  have h1 : a[i]? = some (ent a i) := by simp [ent, List.getElem?_eq_getElem hi]
  rw [set_same _ _ _ h1, set_same _ _ _ h1]

theorem Swap_ne (h : invocationHeap) (i j pi pj : Nat) (a b : invocationHeapItem)
    (h1 : h.ptrs[i]? = some pi) (h2 : h.ptrs[j]? = some pj) (h3 : h.store[pi]? = some a)
    (h4 : h.store[pj]? = some b) (hij : i ≠ j) (hp : pi ≠ pj) :
    h.Swap i j = some
      { store := (h.store.set pj { b with index := i }).set pi { a with index := j }
        ptrs := (h.ptrs.set i pj).set j pi } := by
  have hi := lt_of_get h1
  have hj := lt_of_get h2
  have e1 : ((h.ptrs.set i pj).set j pi)[i]? = some pj := by
    rw [get_set_set _ _ _ _ _ _ hij hi hj, if_neg hij, if_pos rfl]
  have e2 : ((h.ptrs.set i pj).set j pi)[j]? = some pi := by
    rw [get_set_set _ _ _ _ _ _ hij hi hj, if_pos rfl]
  have e3 : setIndex h.store pj i = some (h.store.set pj { b with index := i }) := by
    simp [setIndex, h4]
  have e4 : setIndex (h.store.set pj { b with index := i }) pi j
      = some ((h.store.set pj { b with index := i }).set pi { a with index := j }) := by
    have : (h.store.set pj { b with index := i })[pi]? = some a := by
      rw [List.getElem?_set_ne (fun e => hp e.symm), h3]
    simp [setIndex, this]
  simp [invocationHeap.Swap, h1, h2, e1, e2, e3, e4]

theorem Swap_step (h : invocationHeap) (hOK : IndexOK h) (i j : Nat) (hi : i < h.ptrs.length)
    (hj : j < h.ptrs.length) : ∃ h', h.Swap i j = some h' ∧ Step h h' (swapL h.view i j) := by
  by_cases hij : i = j
  · subst hij
    refine ⟨h, Swap_same h hOK i hi, ?_⟩
    rw [swapL_same _ _ (by rw [length_view]; exact hi)]
    exact step_refl h hOK
  · obtain ⟨pi, a, h1, h2, h3⟩ := hOK.get hi
    obtain ⟨pj, b, h4, h5, h6⟩ := hOK.get hj
    have hp : pi ≠ pj := fun e => hij (hOK.inj h1 (e ▸ h4))
    have hpi := lt_of_get h2
    have hpj := lt_of_get h5
    refine ⟨_, Swap_ne h i j pi pj a b h1 h4 h2 h5 hij hp, ?_⟩
    have hS : ∀ q : Nat, ((h.store.set pj { b with index := i }).set pi { a with index := j })[q]?
        = if q = pi then some { a with index := j }
          else if q = pj then some { b with index := i } else h.store[q]? :=
      fun q => get_set_set _ _ _ _ _ _ (fun e => hp e.symm) hpj hpi
    have hP : ∀ k : Nat, ((h.ptrs.set i pj).set j pi)[k]?
        = if k = j then some pi else if k = i then some pj else h.ptrs[k]? :=
      fun k => get_set_set _ _ _ _ _ _ hij hi hj
    refine ⟨?_, ?_, ⟨by simp, ?_⟩, ?_⟩
    · intro k hk
      simp only [List.length_set] at hk
      by_cases e1 : k = j
      · refine ⟨{ a with index := j }, (item_some _ _ _).2 ⟨pi, ?_, ?_⟩, by rw [e1]⟩
        · rw [hP, if_pos e1]
        · rw [hS, if_pos rfl]
      · by_cases e2 : k = i
        · refine ⟨{ b with index := i }, (item_some _ _ _).2 ⟨pj, ?_, ?_⟩, by rw [e2]⟩
          · rw [hP, if_neg e1, if_pos e2]
          · rw [hS, if_neg (fun e => hp e.symm), if_pos rfl]
        · obtain ⟨pk, c, h7, h8, h9⟩ := hOK.get hk
          have n1 : pk ≠ pi := fun e => e2 (hOK.inj h7 (e ▸ h1))
          have n2 : pk ≠ pj := fun e => e1 (hOK.inj h7 (e ▸ h4))
          refine ⟨c, (item_some _ _ _).2 ⟨pk, ?_, ?_⟩, h9⟩
          · rw [hP, if_neg e1, if_neg e2, h7]
          · rw [hS, if_neg n1, if_neg n2, h8]
    · intro hA p hpl
      simp only [List.length_set] at hpl
      by_cases e1 : p = pi
      · exact ⟨{ a with index := j }, j, by rw [hS, if_pos e1], rfl,
          by rw [hP, if_pos rfl, e1]⟩
      · by_cases e2 : p = pj
        · exact ⟨{ b with index := i }, i, by rw [hS, if_neg e1, if_pos e2], rfl,
            by rw [hP, if_neg hij, if_pos rfl, e2]⟩
        · obtain ⟨it, m, h7, h8, h9⟩ := hA p hpl
          have n1 : m ≠ j := fun e => e2 (by
            rw [e, h4] at h9; injection h9 with h9; exact h9.symm)
          have n2 : m ≠ i := fun e => e1 (by
            rw [e, h1] at h9; injection h9 with h9; exact h9.symm)
          exact ⟨it, m, by rw [hS, if_neg e1, if_neg e2, h7], h8,
            by rw [hP, if_neg n1, if_neg n2, h9]⟩
    · intro q
      show Option.map _ ((h.store.set pj { b with index := i }).set pi
        { a with index := j })[q]? = _
      rw [hS]
      by_cases e1 : q = pi
      · rw [if_pos e1, e1, h2]; rfl
      · by_cases e2 : q = pj
        · rw [if_neg e1, if_pos e2, e2, h5]; rfl
        · rw [if_neg e1, if_neg e2]
    · have hE : ∀ q : Nat, entryOf ((h.store.set pj { b with index := i }).set pi
          { a with index := j })[q]? = entryOf h.store[q]? := by
        intro q
        rw [hS]
        by_cases e1 : q = pi
        · rw [if_pos e1, e1, h2]; rfl
        · by_cases e2 : q = pj
          · rw [if_neg e1, if_pos e2, e2, h5]; rfl
          · rw [if_neg e1, if_neg e2]
      rw [view_congr h _ hE]
      show List.map _ ((h.ptrs.set i pj).set j pi) = _
      rw [List.map_set, List.map_set]
      unfold swapL
      rw [view_ent h i pi a h1 h2, view_ent h j pj b h4 h5]
      simp [invocationHeap.view, h2, h5, entryOf]

/-! ## The loops of `container/heap` against the entries -/

theorem upLoop_step : ∀ (fuel : Nat) (h : invocationHeap) (j : Nat), IndexOK h → j < fuel →
    j < h.ptrs.length → ∃ h', heap.upLoop fuel h j = some h' ∧ Step h h' (upL fuel h.view j)
  | 0, _, _, _, hf, _ => by omega
  | fuel + 1, h, j, hOK, hf, hj => by
    unfold heap.upLoop upL
    simp only
    by_cases hne : (j - 1) / 2 = j
    · rw [if_pos hne, if_pos hne]
      exact ⟨h, rfl, step_refl h hOK⟩
    · have hi : (j - 1) / 2 < h.ptrs.length := by omega
      rw [if_neg hne, if_neg hne, Less_view h hOK j _ hj hi, Option.some_bind]
      by_cases hlt : key h.view j > key h.view ((j - 1) / 2)
      · obtain ⟨h1, e1, s1⟩ := Swap_step h hOK _ j hi hj
        obtain ⟨h2, e2, s2⟩ := upLoop_step fuel h1 ((j - 1) / 2) s1.1 (by omega)
          (by rw [step_length s1, length_swapL, length_view]; exact hi)
        rw [s1.2.2.2] at s2
        refine ⟨h2, ?_, step_trans s1 (by rw [if_pos hlt]; exact s2)⟩
        simp [hlt, e1, e2]
      · refine ⟨h, ?_, by rw [if_neg hlt]; exact step_refl h hOK⟩
        simp [hlt]

theorem up_step (h : invocationHeap) (j : Nat) (hOK : IndexOK h) (hj : j < h.ptrs.length) :
    ∃ h', heap.up h j = some h' ∧ Step h h' (upL (j + 1) h.view j) :=
  upLoop_step (j + 1) h j hOK (by omega) hj

theorem child_view (h : invocationHeap) (hOK : IndexOK h) (i n : Nat) (hn : n ≤ h.ptrs.length)
    (_hi : 2 * i + 1 < n) :
    (if 2 * i + 1 + 1 < n then
        (h.Less (2 * i + 1 + 1) (2 * i + 1)).map (fun lt => if lt then 2 * i + 1 + 1 else 2 * i + 1)
      else some (2 * i + 1)) = some (childL h.view i n) := by
  unfold childL
  by_cases h2 : 2 * i + 1 + 1 < n
  · rw [if_pos h2, Less_view h hOK _ _ (by omega) (by omega)]
    by_cases h3 : key h.view (2 * i + 1 + 1) > key h.view (2 * i + 1)
    · simp [h2, h3]
    · simp [h3]
  · simp [h2]

theorem downLoop_step : ∀ (fuel : Nat) (h : invocationHeap) (i n : Nat), IndexOK h →
    n - i < fuel → n ≤ h.ptrs.length →
    ∃ h', heap.downLoop fuel h i n = some (h', (downL fuel h.view i n).2) ∧
      Step h h' (downL fuel h.view i n).1
  | 0, _, _, _, _, hf, _ => by omega
  | fuel + 1, h, i, n, hOK, hf, hn => by
    unfold heap.downLoop downL
    simp only
    by_cases h1 : 2 * i + 1 ≥ n
    · rw [if_pos h1, if_pos h1]
      exact ⟨h, rfl, step_refl h hOK⟩
    · have hc : childL h.view i n < n := by
        rcases childL_cases h.view i n with e | e <;> omega
      have hci : i < childL h.view i n := by
        rcases childL_cases h.view i n with e | e <;> omega
      rw [if_neg h1, if_neg h1, child_view h hOK i n hn (by omega), Option.some_bind,
        Less_view h hOK _ _ (by omega) (by omega), Option.some_bind]
      by_cases hlt : key h.view (childL h.view i n) > key h.view i
      · obtain ⟨h1, e1, s1⟩ := Swap_step h hOK i (childL h.view i n) (by omega) (by omega)
        obtain ⟨h2, e2, s2⟩ := downLoop_step fuel h1 (childL h.view i n) n s1.1 (by omega)
          (by rw [step_length s1, length_swapL, length_view]; exact hn)
        rw [s1.2.2.2] at e2 s2
        refine ⟨h2, ?_, step_trans s1 (by rw [if_pos hlt]; exact s2)⟩
        simp [hlt, e1, e2]
      · refine ⟨h, ?_, by rw [if_neg hlt]; exact step_refl h hOK⟩
        simp [hlt]

theorem down_step (h : invocationHeap) (i n : Nat) (hOK : IndexOK h) (hn : n ≤ h.ptrs.length) :
    ∃ h', heap.down h i n = some (h', decide ((downL (n + 1) h.view i n).2 > i)) ∧
      Step h h' (downL (n + 1) h.view i n).1 := by
  obtain ⟨h', e, s⟩ := downLoop_step (n + 1) h i n hOK (by omega) hn
  exact ⟨h', by simp [heap.down, e], s⟩

theorem Fix_step (h : invocationHeap) (i : Nat) (hOK : IndexOK h) (hi : i < h.ptrs.length) :
    ∃ h', heap.Fix h (i : Int) = some h' ∧ Step h h' (fixL h.view i) := by
  obtain ⟨h1, e1, s1⟩ := down_step h i h.ptrs.length hOK (le_refl _)
  have e0 : heap.Fix h (i : Int)
      = (heap.down h i h.ptrs.length).bind fun r => if !r.2 then heap.up r.1 i else some r.1 :=
    rfl
  rw [e0]
  unfold fixL
  simp only [length_view]
  rw [e1, Option.some_bind]
  by_cases hm : (downL (h.ptrs.length + 1) h.view i h.ptrs.length).2 > i
  · refine ⟨h1, by simp [hm], by rw [if_pos hm]; exact s1⟩
  · obtain ⟨h2, e2, s2⟩ := up_step h1 i s1.1
      (by rw [step_length s1, length_downL, length_view]; exact hi)
    rw [s1.2.2.2] at s2
    refine ⟨h2, by simp [hm, e2], by rw [if_neg hm]; exact step_trans s1 s2⟩

/-! ## `Push`, `update` and `Pop` against the entries -/

theorem IndexOK.valid {h : invocationHeap} (hOK : IndexOK h) {q : Nat} (hq : q ∈ h.ptrs) :
    q < h.store.length := by
  obtain ⟨k, hk, rfl⟩ := List.getElem_of_mem hq
  obtain ⟨p, it, h1, h2, _⟩ := hOK.get hk
  rw [List.getElem?_eq_getElem hk] at h1
  injection h1 with h1
  rw [h1]
  exact lt_of_get h2

theorem Push_alloc (h : invocationHeap) (hOK : IndexOK h) (hA : AllIn h) (name : String)
    (v : Int) :
    ∃ h1, invocationHeap.Push
        { h with store := h.store ++ [{ count := v, ixName := name, index := 0 }] }
        h.store.length = some h1 ∧ IndexOK h1 ∧ AllIn h1 ∧ h1.view = h.view ++ [(name, v)] ∧
      h1.store = h.store ++ [{ count := v, ixName := name, index := h.ptrs.length }] ∧
      h1.ptrs = h.ptrs ++ [h.store.length] := by
  refine ⟨⟨h.store ++ [{ count := v, ixName := name, index := h.ptrs.length }],
    h.ptrs ++ [h.store.length]⟩, ?_, ?_, ?_, ?_, rfl, rfl⟩
  · simp [invocationHeap.Push, setIndex]
  · intro k hk
    simp only [List.length_append, List.length_singleton] at hk
    by_cases e : k < h.ptrs.length
    · obtain ⟨p, it, h1, h2, h3⟩ := hOK.get e
      refine ⟨it, (item_some _ _ _).2 ⟨p, ?_, ?_⟩, h3⟩
      · show (h.ptrs ++ [h.store.length])[k]? = some p
        rw [List.getElem?_append_left e, h1]
      · show (h.store ++ _)[p]? = some it
        rw [List.getElem?_append_left (lt_of_get h2), h2]
    · have e' : k = h.ptrs.length := by omega
      subst e'
      refine ⟨{ count := v, ixName := name, index := h.ptrs.length },
        (item_some _ _ _).2 ⟨h.store.length, ?_, ?_⟩, rfl⟩
      · show (h.ptrs ++ [h.store.length])[h.ptrs.length]? = some h.store.length
        simp
      · show (h.store ++ _)[h.store.length]? = some _
        simp
  · intro p hp
    simp only [List.length_append, List.length_singleton] at hp
    by_cases e : p < h.store.length
    · obtain ⟨it, m, h1, h2, h3⟩ := hA p e
      refine ⟨it, m, ?_, h2, ?_⟩
      · show (h.store ++ _)[p]? = some it
        rw [List.getElem?_append_left e, h1]
      · show (h.ptrs ++ [h.store.length])[m]? = some p
        rw [List.getElem?_append_left (lt_of_get h3), h3]
    · have e' : p = h.store.length := by omega
      subst e'
      refine ⟨{ count := v, ixName := name, index := h.ptrs.length }, h.ptrs.length, ?_, rfl, ?_⟩
      · show (h.store ++ _)[h.store.length]? = some _
        simp
      · show (h.ptrs ++ [h.store.length])[h.ptrs.length]? = some h.store.length
        simp
  · show List.map _ (h.ptrs ++ [h.store.length]) = _
    rw [List.map_append]
    congr 1
    · apply List.map_congr_left
      intro q hq
      show entryOf (h.store ++ _)[q]? = _
      rw [List.getElem?_append_left (hOK.valid hq)]
    · simp [entryOf]

theorem update_step (h : invocationHeap) (hOK : IndexOK h) (hA : AllIn h) (p : Nat)
    (it : invocationHeapItem) (hp : h.store[p]? = some it) (v : Int) :
    ∃ h' i, h.ptrs[i]? = some p ∧ h.update p v = some h' ∧ IndexOK h' ∧ AllIn h' ∧
      SameNames h h' ∧
      h'.view = fixL (h.view.set i (it.ixName, wrapInt32 (it.count + v))) i := by
  obtain ⟨it', i, h1, h2, h3⟩ := hA p (lt_of_get hp)
  rw [hp] at h1
  injection h1 with h1
  subst h1
  have hi := lt_of_get h3
  have hpl := lt_of_get hp
  have hS : ∀ q : Nat,
      (h.store.set p { it with count := wrapInt32 (it.count + v) })[q]?
        = if q = p then some { it with count := wrapInt32 (it.count + v) } else h.store[q]? := by
    intro q
    rw [List.getElem?_set]
    by_cases e : p = q
    · subst e; simp [hpl]
    · have e' : ¬ q = p := fun x => e x.symm
      simp [e, e']
  have hOK1 : IndexOK { h with store := h.store.set p { it with count := wrapInt32 (it.count + v) } } := by
    intro k hk
    obtain ⟨pk, c, h4, h5, h6⟩ := hOK.get hk
    by_cases e : pk = p
    · subst e
      rw [hp] at h5
      injection h5 with h5
      subst h5
      exact ⟨{ it with count := wrapInt32 (it.count + v) },
        (item_some _ _ _).2 ⟨pk, h4, by rw [hS, if_pos rfl]⟩, h6⟩
    · exact ⟨c, (item_some _ _ _).2 ⟨pk, h4, by rw [hS, if_neg e, h5]⟩, h6⟩
  have hA1 : AllIn { h with store := h.store.set p { it with count := wrapInt32 (it.count + v) } } := by
    intro q hq
    simp only [List.length_set] at hq
    by_cases e : q = p
    · subst e
      exact ⟨{ it with count := wrapInt32 (it.count + v) }, i, by rw [hS, if_pos rfl], h2, h3⟩
    · obtain ⟨c, m, h4, h5, h6⟩ := hA q hq
      exact ⟨c, m, by rw [hS, if_neg e, h4], h5, h6⟩
  have hN1 : SameNames h
      { h with store := h.store.set p { it with count := wrapInt32 (it.count + v) } } := by
    refine ⟨by simp, fun q => ?_⟩
    show Option.map _ (h.store.set p _)[q]? = _
    rw [hS]
    by_cases e : q = p
    · rw [if_pos e, e, hp]; rfl
    · rw [if_neg e]
  have hV1 : invocationHeap.view
      { h with store := h.store.set p { it with count := wrapInt32 (it.count + v) } }
      = h.view.set i (it.ixName, wrapInt32 (it.count + v)) := by
    apply List.ext_getElem?
    intro k
    unfold invocationHeap.view
    rw [List.getElem?_map, List.getElem?_set, List.getElem?_map]
    simp only [List.length_map]
    by_cases e : i = k
    · subst e
      simp [h3, hS, hi, entryOf]
    · rw [if_neg e]
      rcases hk : h.ptrs[k]? with _ | pk
      · rfl
      · have : pk ≠ p := fun x => e (hOK.inj h3 (x ▸ hk))
        simp [hS, this]
  obtain ⟨h2', e2, s2⟩ := Fix_step _ i hOK1 hi
  rw [hV1] at s2
  refine ⟨h2', i, h3, ?_, s2.1, s2.2.1 hA1, ?_, s2.2.2.2⟩
  · rw [← e2]
    simp [invocationHeap.update, hp, h2]
  · exact ⟨s2.2.2.1.1.trans hN1.1, fun q => (s2.2.2.1.2 q).trans (hN1.2 q)⟩

theorem Pop_step (h : invocationHeap) (hOK : IndexOK h) (hn : 0 < h.ptrs.length) :
    ∃ h' x it, h.Pop = some (h', x) ∧ IndexOK h' ∧
      h'.view = h.view.take (h.ptrs.length - 1) ∧ h'.store[x]? = some it ∧
      (it.ixName, it.count) = ent h.view (h.ptrs.length - 1) := by
  have hlast : h.ptrs.length - 1 < h.ptrs.length := by omega
  obtain ⟨x, it, h1, h2, h3⟩ := hOK.get hlast
  have hx := lt_of_get h2
  have hS : ∀ q : Nat, (h.store.set x { it with index := -1 })[q]?
      = if q = x then some { it with index := -1 } else h.store[q]? := by
    intro q
    rw [List.getElem?_set]
    by_cases e : x = q
    · subst e; simp [hx]
    · have e' : ¬ q = x := fun y => e y.symm
      simp [e, e']
  have hne : ∀ k pk, k < h.ptrs.length - 1 → h.ptrs[k]? = some pk → pk ≠ x := by
    intro k pk hk hpk e
    have := hOK.inj hpk (e ▸ h1)
    omega
  refine ⟨⟨h.store.set x { it with index := -1 }, h.ptrs.take (h.ptrs.length - 1)⟩, x,
    { it with index := -1 }, ?_, ?_, ?_, ?_, ?_⟩
  · have : ¬ h.ptrs.length = 0 := by omega
    simp [invocationHeap.Pop, this, h1, setIndex, h2]
  · intro k hk
    simp only [List.length_take] at hk
    have hk' : k < h.ptrs.length - 1 := by omega
    obtain ⟨pk, c, h4, h5, h6⟩ := hOK.get (show k < h.ptrs.length by omega)
    refine ⟨c, (item_some _ _ _).2 ⟨pk, ?_, ?_⟩, h6⟩
    · show (h.ptrs.take _)[k]? = some pk
      rw [List.getElem?_take_of_lt hk', h4]
    · show (h.store.set x _)[pk]? = some c
      rw [hS, if_neg (hne k pk hk' h4), h5]
  · show List.map _ (h.ptrs.take _) = _
    unfold invocationHeap.view
    rw [← List.map_take]
    apply List.map_congr_left
    intro q hq
    obtain ⟨k, hk, hkq⟩ := List.getElem_of_mem hq
    rw [List.length_take] at hk
    have hk' : k < h.ptrs.length - 1 := by omega
    have h4 : h.ptrs[k]? = some q := by
      rw [← hkq, ← List.getElem?_take_of_lt hk', List.getElem?_eq_getElem]
    show entryOf (h.store.set x _)[q]? = _
    rw [hS, if_neg (hne k q hk' h4)]
  · show (h.store.set x _)[x]? = _
    rw [hS, if_pos rfl]
  · rw [view_ent h _ x it h1 h2]

theorem length_popL (a : List Entry) : (popL a).1.length = a.length - 1 := by
  unfold popL
  simp only
  rw [List.length_take, length_downL, length_swapL]
  omega

theorem heapPop_step (h : invocationHeap) (hOK : IndexOK h) (hn : 0 < h.ptrs.length) :
    ∃ h' x it, heap.Pop h = some (h', x) ∧ IndexOK h' ∧ h'.view = (popL h.view).1 ∧
      h'.store[x]? = some it ∧ (it.ixName, it.count) = (popL h.view).2 := by
  obtain ⟨h1, e1, s1⟩ := Swap_step h hOK 0 (h.ptrs.length - 1) hn (by omega)
  have l1 : h1.ptrs.length = h.ptrs.length := by
    rw [step_length s1, length_swapL, length_view]
  obtain ⟨h2, e2, s2⟩ := down_step h1 0 (h.ptrs.length - 1) s1.1 (by omega)
  rw [s1.2.2.2] at e2 s2
  have l2 : h2.ptrs.length = h.ptrs.length := by
    rw [step_length s2, length_downL, length_swapL, length_view]
  obtain ⟨h3, x, it, e3, hOK3, hv3, hx3, hit3⟩ := Pop_step h2 s2.1 (by omega)
  rw [l2, s2.2.2.2] at hv3 hit3
  refine ⟨h3, x, it, ?_, hOK3, ?_, hx3, ?_⟩
  · have : ¬ h.ptrs.length = 0 := by omega
    simp [heap.Pop, invocationHeap.Len, this, e1, e2, e3]
  · rw [hv3]; unfold popL; simp only [length_view]
  · rw [hit3]; unfold popL; simp only [length_view]

theorem topNLoop_step : ∀ (k : Nat) (h : invocationHeap) (acc : List String), IndexOK h →
    k ≤ h.ptrs.length →
    invocationHeap.topNLoop k h acc
      = some (((popsL k h.view).2.map Prod.fst).foldl invocationHeap.setTrue acc)
  | 0, h, acc, _, _ => by simp [invocationHeap.topNLoop, popsL]
  | k + 1, h, acc, hOK, hk => by
    obtain ⟨h', x, it, e, hOK', hv, hx, hit⟩ := heapPop_step h hOK (by omega)
    have hl : h'.ptrs.length = h.ptrs.length - 1 := by
      rw [← length_view h', hv, length_popL, length_view]
    have ih := topNLoop_step k h' (invocationHeap.setTrue acc it.ixName) hOK' (by omega)
    rw [hv] at ih
    have hname : it.ixName = (popL h.view).2.1 := by rw [← hit]
    rw [hname] at ih
    unfold invocationHeap.topNLoop popsL
    simp only [e, hx, Option.some_bind, ih, List.map_cons, List.foldl_cons, hname]

/-! ## Online aggregation, spec side -/

theorem wrapInt32_id (x : Int) (h : isInt32 x) : wrapInt32 x = x := by
  unfold isInt32 at h
  unfold wrapInt32
  omega

theorem wrapInt32_add (a b : Int) : wrapInt32 (wrapInt32 a + b) = wrapInt32 (a + b) := by
  unfold wrapInt32
  omega

theorem totals_snoc (rows : List Entry) (row : Entry) :
    totals (rows ++ [row]) = totalsStep (totals rows) row := by
  simp [totals, List.foldl_append]

theorem names_bump (name : String) (v : Int) (a : List Entry) :
    (bump name v a).map Prod.fst = a.map Prod.fst := by
  unfold bump
  rw [List.map_map]
  apply List.map_congr_left
  intro e _
  show (if e.1 = name then (e.1, wrapInt32 (e.2 + v)) else e).1 = e.1
  split_ifs <;> rfl

theorem names_totalsStep (acc : List Entry) (row : Entry) :
    (totalsStep acc row).map Prod.fst
      = if row.1 ∈ acc.map Prod.fst then acc.map Prod.fst else acc.map Prod.fst ++ [row.1] := by
  unfold totalsStep
  split_ifs
  · exact names_bump _ _ _
  · simp

theorem total_snoc (rows : List Entry) (row : Entry) (name : String) :
    total (rows ++ [row]) name = total rows name + if row.1 = name then row.2 else 0 := by
  unfold total
  rw [List.filter_append, List.map_append, List.sum_append]
  by_cases h : row.1 = name
  · simp [h]
  · simp [h]

theorem totals_names (rows : List Entry) :
    ∀ name, name ∈ (totals rows).map Prod.fst ↔ name ∈ rows.map Prod.fst := by
  induction rows using List.reverseRecOn with
  | nil => intro name; simp [totals]
  | append_singleton rows row ih =>
    intro name
    rw [totals_snoc, names_totalsStep, List.map_append, List.mem_append]
    split_ifs with h
    · rw [ih]
      constructor
      · exact Or.inl
      · rintro (h1 | h1)
        · exact h1
        · simp only [List.map_cons, List.map_nil, List.mem_singleton] at h1
          rw [h1]
          exact (ih _).1 h
    · rw [List.mem_append, ih]
      simp

theorem totals_nodup (rows : List Entry) : ((totals rows).map Prod.fst).Nodup := by
  induction rows using List.reverseRecOn with
  | nil => simp [totals]
  | append_singleton rows row ih =>
    rw [totals_snoc, names_totalsStep]
    split_ifs with h
    · exact ih
    · exact List.Nodup.append ih (List.nodup_singleton _) (by
        intro x hx hx'
        rw [List.mem_singleton] at hx'
        exact h (hx' ▸ hx))

theorem totals_count (rows : List Entry) (hrows : ∀ e ∈ rows, isInt32 e.2) :
    ∀ e ∈ totals rows, e.2 = wrapInt32 (total rows e.1) := by
  induction rows using List.reverseRecOn with
  | nil => intro e he; simp [totals] at he
  | append_singleton rows row ih =>
    have ih' := ih fun e he => hrows e (List.mem_append_left _ he)
    intro e he
    rw [totals_snoc] at he
    rw [total_snoc]
    unfold totalsStep at he
    split_ifs at he with h
    · unfold bump at he
      obtain ⟨e0, he0, rfl⟩ := List.mem_map.1 he
      by_cases hn : e0.1 = row.1
      · rw [if_pos hn]
        show wrapInt32 (e0.2 + row.2) = wrapInt32 (total rows e0.1 + if row.1 = e0.1 then row.2 else 0)
        rw [if_pos hn.symm, ih' e0 he0, wrapInt32_add]
      · rw [if_neg hn, if_neg (fun x => hn x.symm), add_zero]
        exact ih' e0 he0
    · rcases List.mem_append.1 he with h1 | h1
      · have hne : row.1 ≠ e.1 := fun x => h (x ▸ List.mem_map_of_mem Prod.fst h1)
        rw [if_neg hne, add_zero]
        exact ih' e h1
      · rw [List.mem_singleton] at h1
        subst h1
        have h0 : total rows e.1 = 0 := by
          unfold total
          have : (rows.filter fun x => x.1 = e.1) = [] := by
            rw [List.filter_eq_nil_iff]
            intro x hx hxe
            simp only [decide_eq_true_eq] at hxe
            exact h ((totals_names rows e.1).2 (hxe ▸ List.mem_map_of_mem Prod.fst hx))
          rw [this]
          rfl
        rw [h0, if_pos rfl, zero_add, wrapInt32_id _ (hrows e (by simp))]

theorem totals_length (rows : List Entry) : (totals rows).length = distinctCount rows := by
  unfold distinctCount
  have h : (rows.map Prod.fst).toFinset = ((totals rows).map Prod.fst).toFinset := by
    ext x
    rw [List.mem_toFinset, List.mem_toFinset, totals_names]
  rw [h, List.toFinset_card_of_nodup (totals_nodup rows), List.length_map]

/-! ## The accumulation loop -/

theorem ent_append_left (a : List Entry) (x : Entry) (k : Nat) (hk : k < a.length) :
    ent (a ++ [x]) k = ent a k := by
  unfold ent
  rw [List.getElem?_append_left hk]

theorem upReady_push (a : List Entry) (x : Entry) (hH : IsHeap a a.length) :
    UpReady (a ++ [x]) a.length (a.length + 1) := by
  refine ⟨fun k hk hkn hne => ?_, fun k hk hkn hpar _ => by omega⟩
  have h1 : k < a.length := by omega
  rw [key, key, ent_append_left a x k h1, ent_append_left a x _ (by omega)]
  exact hH k hk h1

theorem fixReady_set (a : List Entry) (x : Entry) (i : Nat) (hi : i < a.length)
    (hH : IsHeap a a.length) : FixReady (a.set i x) i a.length := by
  refine ⟨fun k hk hkn hne hpar => ?_, fun k hk hkn hpar hi0 => ?_⟩
  · rw [key, key, ent_set a i k x hi, ent_set a i _ x hi, if_neg hne, if_neg hpar]
    exact hH k hk hkn
  · rw [key, key, ent_set a i k x hi, ent_set a i _ x hi, if_neg (by omega), if_neg (by omega)]
    have h1 := hH k hk hkn
    have h2 := hH i hi0 hi
    rw [hpar] at h1
    exact le_trans h1 h2

theorem set_eq_bump (a : List Entry) (i : Nat) (name : String) (c v : Int) (hi : i < a.length)
    (hnd : (a.map Prod.fst).Nodup) (he : ent a i = (name, c)) :
    a.set i (name, wrapInt32 (c + v)) = bump name v a := by
  have hai : a[i]? = some (name, c) := by
    rw [← he]; simp [ent, List.getElem?_eq_getElem hi]
  apply List.ext_getElem?
  intro k
  unfold bump
  rw [List.getElem?_set, List.getElem?_map]
  by_cases e : i = k
  · subst e
    simp [hi, hai]
  · rw [if_neg e]
    rcases hk : a[k]? with _ | x
    · rfl
    · have hkl := lt_of_get hk
      have hx : x.1 ≠ name := by
        intro hx
        apply e
        have h1 : (a.map Prod.fst)[i]? = some name := by rw [List.getElem?_map, hai]; rfl
        have h2 : (a.map Prod.fst)[k]? = some name := by rw [List.getElem?_map, hk, ← hx]; rfl
        have hi' : i < (a.map Prod.fst).length := by simpa using hi
        have hk' : k < (a.map Prod.fst).length := by simpa using hkl
        rw [List.getElem?_eq_getElem hi'] at h1
        rw [List.getElem?_eq_getElem hk'] at h2
        injection h1 with h1
        injection h2 with h2
        exact (List.Nodup.getElem_inj_iff hnd).1 (h1.trans h2.symm)
      simp [hx]

theorem seenOK_names (h h' : invocationHeap) (seen : List (String × Nat)) (names : List String)
    (hN : SameNames h h') (hS : SeenOK h seen names) : SeenOK h' seen names := by
  intro name
  have h1 := hS name
  rcases hl : seen.lookup name with _ | p
  · rw [hl] at h1; exact h1
  · rw [hl] at h1
    obtain ⟨h2, it, h3, h4⟩ := h1
    have h5 := hN.2 p
    rw [h3] at h5
    rcases h6 : h'.store[p]? with _ | it'
    · rw [h6] at h5; simp at h5
    · rw [h6] at h5
      simp only [Option.map_some', Option.some.injEq] at h5
      exact ⟨h2, it', h6, h5.trans h4⟩

theorem take_succ_rows (r : instructionInvocationsResponse) (t : Nat) (name : String) (v : Int)
    (hrow : r.ixNameLabels[t]? = some name) (hval : r.values[t]? = some v) :
    (seriesRows r).take (t + 1) = (seriesRows r).take t ++ [(name, v)] := by
  have h : (seriesRows r)[t]? = some (name, v) :=
    List.getElem?_zip_eq_some.2 ⟨hrow, hval⟩
  rw [List.take_succ, h]
  rfl

theorem accumulateStep_new (r : instructionInvocationsResponse) (t : Nat)
    (st : invocationHeap × List (String × Nat)) (name : String) (v : Int)
    (hrow : r.ixNameLabels[t]? = some name) (hval : r.values[t]? = some v)
    (hI : AccInv r t st) (hl : st.2.lookup name = none) :
    ∃ st', accumulateStep r st t = some st' ∧ AccInv r (t + 1) st' := by
  obtain ⟨h, seen⟩ := st
  obtain ⟨hOK, hA, hH, hP, hS⟩ := hI
  simp only at hOK hA hH hP hS hl
  have hnew : name ∉ (totals ((seriesRows r).take t)).map Prod.fst := by
    have := hS name
    rw [hl] at this
    exact this
  obtain ⟨h1, e1, hOK1, hA1, hv1, hst1, hp1⟩ := Push_alloc h hOK hA name v
  have hlen1 : h1.ptrs.length = h.ptrs.length + 1 := by rw [hp1]; simp
  obtain ⟨h2, e2, s2⟩ := up_step h1 h.ptrs.length hOK1 (by omega)
  rw [hv1] at s2
  have hT : totals ((seriesRows r).take (t + 1))
      = totals ((seriesRows r).take t) ++ [(name, v)] := by
    rw [take_succ_rows r t name v hrow hval, totals_snoc]
    unfold totalsStep
    rw [if_neg hnew]
  refine ⟨(h2, (name, h.store.length) :: seen), ?_, s2.1, s2.2.1 hA1, ?_, ?_, ?_⟩
  · have : h1.Len - 1 = h.ptrs.length := by
      show h1.ptrs.length - 1 = _
      omega
    simp [accumulateStep, hrow, hval, hl, heap.Push, e1, this, e2]
  · show IsHeap h2.view h2.view.length
    rw [s2.2.2.2, length_upL]
    have hl0 : (h.view ++ [(name, v)]).length = h.view.length + 1 := by simp
    rw [hl0, ← length_view h]
    exact upL_heap _ _ _ _ (by omega) (by omega) (by omega) (upReady_push h.view (name, v) hH)
  · show List.Perm h2.view _
    rw [s2.2.2.2, hT]
    exact (upL_perm _ _ _ (by rw [List.length_append, length_view]; simp)).trans
      (List.Perm.append_right _ hP)
  · show SeenOK h2 ((name, h.store.length) :: seen) _
    rw [hT]
    intro name'
    rw [List.lookup_cons]
    by_cases hn : name' = name
    · subst hn
      simp only [beq_self_eq_true]
      refine ⟨by simp, ?_⟩
      have h5 := s2.2.2.1.2 h.store.length
      rw [hst1] at h5
      rcases h6 : h2.store[h.store.length]? with _ | it'
      · rw [h6] at h5; simp at h5
      · rw [h6] at h5
        simp only [Option.map_some', List.getElem?_concat_length, Option.some.injEq] at h5
        exact ⟨it', rfl, h5⟩
    · have hb : (name' == name) = false := by simpa using hn
      simp only [hb]
      have h1' := hS name'
      rcases hl' : seen.lookup name' with _ | q
      · rw [hl'] at h1'
        show name' ∉ _
        simp only [List.map_append, List.mem_append, List.map_cons, List.map_nil,
          List.mem_singleton, not_or]
        exact ⟨h1', hn⟩
      · rw [hl'] at h1'
        obtain ⟨h7, it, h8, h9⟩ := h1'
        have h5 := s2.2.2.1.2 q
        rw [hst1, List.getElem?_append_left (lt_of_get h8), h8] at h5
        rcases h6 : h2.store[q]? with _ | it'
        · rw [h6] at h5; simp at h5
        · rw [h6] at h5
          simp only [Option.map_some', Option.some.injEq] at h5
          exact ⟨by simp [h7], it', h6, h5.trans h9⟩

theorem accumulateStep_known (r : instructionInvocationsResponse) (t : Nat)
    (st : invocationHeap × List (String × Nat)) (name : String) (v : Int) (p : Nat)
    (hrow : r.ixNameLabels[t]? = some name) (hval : r.values[t]? = some v)
    (hI : AccInv r t st) (hl : st.2.lookup name = some p) :
    ∃ st', accumulateStep r st t = some st' ∧ AccInv r (t + 1) st' := by
  obtain ⟨h, seen⟩ := st
  obtain ⟨hOK, hA, hH, hP, hS⟩ := hI
  simp only at hOK hA hH hP hS hl
  obtain ⟨hin, it, hp, hname⟩ : name ∈ (totals ((seriesRows r).take t)).map Prod.fst ∧
      ∃ it, h.store[p]? = some it ∧ it.ixName = name := by
    have := hS name
    rw [hl] at this
    exact this
  obtain ⟨h', i, hpi, e, hOK', hA', hN, hv⟩ := update_step h hOK hA p it hp v
  have hi : i < h.view.length := by rw [length_view]; exact lt_of_get hpi
  have hent : ent h.view i = (name, it.count) := by
    rw [view_ent h i p it hpi hp, hname]
  have hnd : (h.view.map Prod.fst).Nodup :=
    ((hP.map Prod.fst).nodup_iff).2 (totals_nodup _)
  rw [hname, set_eq_bump h.view i name it.count v hi hnd hent] at hv
  have hb : bump name v h.view = h.view.set i (name, wrapInt32 (it.count + v)) :=
    (set_eq_bump h.view i name it.count v hi hnd hent).symm
  have hT : totals ((seriesRows r).take (t + 1))
      = bump name v (totals ((seriesRows r).take t)) := by
    rw [take_succ_rows r t name v hrow hval, totals_snoc]
    unfold totalsStep
    rw [if_pos hin]
  have hbi : i < (bump name v h.view).length := by rw [hb]; simpa using hi
  refine ⟨(h', seen), ?_, hOK', hA', ?_, ?_, ?_⟩
  · simp [accumulateStep, hrow, hval, hl, e]
  · show IsHeap h'.view h'.view.length
    rw [hv, length_fixL]
    refine fixL_heap _ i hbi ?_
    rw [hb, List.length_set]
    exact fixReady_set h.view _ i hi hH
  · show List.Perm h'.view _
    rw [hv, hT]
    exact (fixL_perm _ i hbi).trans (hP.map _)
  · show SeenOK h' seen _
    rw [hT, names_bump]
    exact seenOK_names h h' seen _ hN hS

theorem accumulate_inv (r : instructionInvocationsResponse)
    (hl1 : r.ixNameLabels.length = r.times.length) (hl2 : r.values.length = r.times.length) :
    ∀ t, t ≤ r.times.length →
      ∃ st, (List.range t).foldlM (accumulateStep r) (({ store := [], ptrs := [] } :
        invocationHeap), ([] : List (String × Nat))) = some st ∧ AccInv r t st
  | 0, _ => by
    refine ⟨_, rfl, ?_, ?_, ?_, ?_, ?_⟩
    · intro i hi; simp at hi
    · intro p hp; simp at hp
    · intro k _ hk; simp [invocationHeap.view] at hk
    · simp [invocationHeap.view, totals]
    · intro name; simp [totals]
  | t + 1, ht => by
    obtain ⟨st, e, hI⟩ := accumulate_inv r hl1 hl2 t (by omega)
    obtain ⟨name, hrow⟩ : ∃ name, r.ixNameLabels[t]? = some name :=
      ⟨_, List.getElem?_eq_getElem (by omega)⟩
    obtain ⟨v, hval⟩ : ∃ v, r.values[t]? = some v := ⟨_, List.getElem?_eq_getElem (by omega)⟩
    have hstep : ∃ st', accumulateStep r st t = some st' ∧ AccInv r (t + 1) st' := by
      rcases hl : st.2.lookup name with _ | p
      · exact accumulateStep_new r t st name v hrow hval hI hl
      · exact accumulateStep_known r t st name v p hrow hval hI hl
    obtain ⟨st', e', hI'⟩ := hstep
    refine ⟨st', ?_, hI'⟩
    rw [List.range_succ, List.foldlM_append, e]
    simp [e']

/-! ## The top-N set -/

theorem foldl_setTrue : ∀ (l acc : List String), (acc ++ l).Nodup →
    l.foldl invocationHeap.setTrue acc = acc ++ l
  | [], acc, _ => by simp
  | x :: l, acc, h => by
    have hx : x ∉ acc := by
      intro hx
      have := List.nodup_append.1 h
      exact this.2.2 hx (List.mem_cons_self _ _)
    have h' : ((acc ++ [x]) ++ l).Nodup := by simpa using h
    have hs : invocationHeap.setTrue acc x = acc ++ [x] := by
      unfold invocationHeap.setTrue
      rw [if_neg hx]
    rw [List.foldl_cons, hs, foldl_setTrue l (acc ++ [x]) h']
    simp

theorem accumulate_spec (r : instructionInvocationsResponse)
    (hl1 : r.ixNameLabels.length = r.times.length) (hl2 : r.values.length = r.times.length) :
    ∃ st, accumulate r = some st ∧ IndexOK st.1 ∧ AllIn st.1 ∧ IsHeap st.1.view st.1.view.length ∧
      List.Perm st.1.view (totals (seriesRows r)) ∧
      SeenOK st.1 st.2 ((totals (seriesRows r)).map Prod.fst) := by
  obtain ⟨st, e, hI⟩ := accumulate_inv r hl1 hl2 r.times.length (le_refl _)
  have hall : (seriesRows r).take r.times.length = seriesRows r := by
    apply List.take_of_length_le
    unfold seriesRows
    rw [List.length_zip]
    omega
  unfold AccInv at hI
  rw [hall] at hI
  refine ⟨st, ?_, hI⟩
  have h0 : heap.Init { store := [], ptrs := [] } = some { store := [], ptrs := [] } := rfl
  unfold accumulate
  rw [h0, Option.some_bind, e]

theorem selectTopN_spec (r : instructionInvocationsResponse) (n : Int)
    (hl1 : r.ixNameLabels.length = r.times.length) (hl2 : r.values.length = r.times.length)
    (hd : distinctCount (seriesRows r) < 2147483648) :
    ∃ P R : List Entry, selectTopN r n = some (P.map Prod.fst) ∧
      List.Perm (P ++ R) (totals (seriesRows r)) ∧
      P.length = (min n (distinctCount (seriesRows r))).toNat ∧
      ∀ p ∈ P, ∀ q ∈ R, q.2 ≤ p.2 := by
  obtain ⟨st, e, hOK, _, hH, hP, _⟩ := accumulate_spec r hl1 hl2
  have hlen : st.1.ptrs.length = distinctCount (seriesRows r) := by
    rw [← length_view, hP.length_eq, totals_length]
  have hw : wrapInt32 (st.1.Len : Int) = (distinctCount (seriesRows r) : Int) := by
    show wrapInt32 (st.1.ptrs.length : Int) = _
    rw [hlen]
    exact wrapInt32_id _ ⟨by omega, by omega⟩
  have hk : (if n > (distinctCount (seriesRows r) : Int) then (distinctCount (seriesRows r) : Int)
      else n) = min n (distinctCount (seriesRows r)) := by
    split_ifs with h
    · rw [min_eq_right (le_of_lt h)]
    · rw [min_eq_left (by omega)]
  have hkl : (min n (distinctCount (seriesRows r) : Int)).toNat ≤ st.1.ptrs.length := by
    rw [hlen]
    omega
  obtain ⟨h1, h2, h3⟩ := popsL_spec (min n (distinctCount (seriesRows r) : Int)).toNat
    st.1.view (by rw [length_view]; exact hkl) hH
  have hnd : (((popsL (min n (distinctCount (seriesRows r) : Int)).toNat st.1.view).2.map
      Prod.fst)).Nodup := by
    have := (((h1.trans hP).map Prod.fst).nodup_iff).2 (totals_nodup _)
    rw [List.map_append] at this
    exact List.Nodup.of_append_left this
  refine ⟨_, _, ?_, h1.trans hP, h2, h3⟩
  unfold selectTopN
  rw [e, Option.some_bind]
  unfold invocationHeap.topN
  simp only
  rw [hw, hk, topNLoop_step _ _ _ hOK hkl, foldl_setTrue _ _ (by simpa using hnd)]
  simp

theorem map_fst_rows (r : instructionInvocationsResponse)
    (hl1 : r.ixNameLabels.length = r.times.length) (hl2 : r.values.length = r.times.length) :
    (seriesRows r).map Prod.fst = r.ixNameLabels :=
  List.map_fst_zip _ _ (by omega)

theorem rows_int32 (r : instructionInvocationsResponse) (hv : ∀ v ∈ r.values, isInt32 v) :
    ∀ e ∈ seriesRows r, isInt32 e.2 := by
  intro e he
  obtain ⟨a, b⟩ := e
  exact hv b (List.of_mem_zip he).2

/-! ### A series with `2^31` distinct names -/

theorem letters_inj : ∀ l1 l2 : List Nat, (∀ x ∈ l1, x < 2) → (∀ x ∈ l2, x < 2) →
    l1.map (fun b => if b = 0 then 'a' else 'b')
      = l2.map (fun b => if b = 0 then 'a' else 'b') →
    l1 = l2
  | [], [], _, _, _ => rfl
  | [], _ :: _, _, _, h => by simp at h
  | _ :: _, [], _, _, h => by simp at h
  | x :: l1, y :: l2, h1, h2, h => by
    rw [List.map_cons, List.map_cons, List.cons.injEq] at h
    have hx := h1 x (List.mem_cons_self _ _)
    have hy := h2 y (List.mem_cons_self _ _)
    have hxy : x = y := by
      have h3 := h.1
      by_cases cx : x = 0 <;> by_cases cy : y = 0
      · omega
      · rw [if_pos cx, if_neg cy] at h3
        exact absurd h3 (by decide)
      · rw [if_neg cx, if_pos cy] at h3
        exact absurd h3 (by decide)
      · omega
    rw [hxy, letters_inj l1 l2 (fun z hz => h1 z (List.mem_cons_of_mem _ hz))
      (fun z hz => h2 z (List.mem_cons_of_mem _ hz)) h.2]

theorem binaryName_inj (i j : Nat) (h : binaryName i = binaryName j) : i = j := by
  unfold binaryName at h
  have h1 : (Nat.digits 2 i).map (fun b => if b = 0 then 'a' else 'b')
      = (Nat.digits 2 j).map (fun b => if b = 0 then 'a' else 'b') := congrArg String.data h
  exact Nat.digits.injective 2 (letters_inj _ _
    (fun x hx => Nat.digits_lt_base (by decide) hx)
    (fun x hx => Nat.digits_lt_base (by decide) hx) h1)

theorem wideSeries_names (k : Nat) :
    (wideSeries k).ixNameLabels.length = (wideSeries k).times.length := by
  unfold wideSeries
  simp

theorem wideSeries_values (k : Nat) :
    (wideSeries k).values.length = (wideSeries k).times.length := by
  unfold wideSeries
  simp

theorem wideSeries_int32 (k : Nat) : ∀ v ∈ (wideSeries k).values, isInt32 v := by
  intro v hv
  have e : v = 0 := List.eq_of_mem_replicate hv
  rw [e]
  decide

theorem wideSeries_total (k : Nat) (name : String) :
    total (seriesRows (wideSeries k)) name = 0 := by
  unfold total
  apply List.sum_eq_zero
  intro x hx
  obtain ⟨e, he, rfl⟩ := List.mem_map.1 hx
  have h1 := List.mem_of_mem_filter he
  obtain ⟨a, b⟩ := e
  exact List.eq_of_mem_replicate (List.of_mem_zip h1).2

theorem wideSeries_distinct (k : Nat) : distinctCount (seriesRows (wideSeries k)) = k := by
  unfold distinctCount
  rw [map_fst_rows _ (wideSeries_names k) (wideSeries_values k)]
  have hnd : (wideSeries k).ixNameLabels.Nodup := by
    unfold wideSeries
    apply List.Nodup.map _ (List.nodup_range k)
    intro i j h
    have := binaryName_inj _ _ h
    omega
  rw [List.toFinset_card_of_nodup hnd]
  unfold wideSeries
  simp

theorem selectTopN_wrapped (r : instructionInvocationsResponse) (n : Int)
    (hl1 : r.ixNameLabels.length = r.times.length) (hl2 : r.values.length = r.times.length)
    (hd : distinctCount (seriesRows r) = 2147483648) : selectTopN r n = some [] := by
  obtain ⟨st, e, _, _, _, hP, _⟩ := accumulate_spec r hl1 hl2
  have hlen : st.1.ptrs.length = 2147483648 := by
    rw [← length_view, hP.length_eq, totals_length, hd]
  have hw : wrapInt32 (st.1.Len : Int) = -2147483648 := by
    show wrapInt32 (st.1.ptrs.length : Int) = _
    rw [hlen]
    decide
  unfold selectTopN
  rw [e, Option.some_bind]
  unfold invocationHeap.topN
  simp only
  rw [hw]
  have h0 : (if n > -2147483648 then (-2147483648 : Int) else n).toNat = 0 := by
    split_ifs with h
    · rfl
    · omega
  rw [h0]
  rfl

/-- C1, as stated, fails on a series with `2^31` distinct instruction names:
the columns have one length, every count and every per-name sum is 0, `n = 1`;
`int32(len(h))` wraps to `-2^31` in `topN`, the bound `n` is lowered to it,
no item is popped and the set is empty, not one name of the largest total. -/
theorem selectTopN_largest_totals_counterexample :
    (wideSeries 2147483648).ixNameLabels.length = (wideSeries 2147483648).times.length ∧
      (wideSeries 2147483648).values.length = (wideSeries 2147483648).times.length ∧
      (∀ v ∈ (wideSeries 2147483648).values, isInt32 v) ∧
      (∀ name ∈ (wideSeries 2147483648).ixNameLabels,
        isInt32 (total (seriesRows (wideSeries 2147483648)) name)) ∧
      distinctCount (seriesRows (wideSeries 2147483648)) = 2147483648 ∧
      (0 : Int) ≤ 1 ∧ selectTopN (wideSeries 2147483648) 1 = some [] :=
  ⟨wideSeries_names _, wideSeries_values _, wideSeries_int32 _,
    fun name _ => by rw [wideSeries_total]; decide,
    wideSeries_distinct _, by decide,
    selectTopN_wrapped _ 1 (wideSeries_names _) (wideSeries_values _) (wideSeries_distinct _)⟩

/-- C1, amended. Top-N correctness. For a decoded series (name and count columns as
long as the time column, counts in `int32`) whose per-name sums fit `int32`,
with fewer than `2^31` distinct names, and `n ≥ 0`: streaming the series into
the heap and calling `topN(n)` returns a set of `min(n, d)` instruction names
of the series, and the summed count of every name in the set is at least the
summed count of every name of the series outside it. -/
theorem selectTopN_largest_totals (r : instructionInvocationsResponse) (n : Int)
    (hl1 : r.ixNameLabels.length = r.times.length) (hl2 : r.values.length = r.times.length)
    (hv : ∀ v ∈ r.values, isInt32 v)
    (hfit : ∀ name ∈ r.ixNameLabels, isInt32 (total (seriesRows r) name))
    (hd : distinctCount (seriesRows r) < 2147483648) (hn : 0 ≤ n) :
    ∃ top, selectTopN r n = some top ∧ top.Nodup ∧
      top.length = min n.toNat (distinctCount (seriesRows r)) ∧
      (∀ a ∈ top, a ∈ r.ixNameLabels) ∧
      ∀ a ∈ top, ∀ b ∈ r.ixNameLabels, b ∉ top →
        total (seriesRows r) b ≤ total (seriesRows r) a := by
  obtain ⟨P, R, e, hperm, hlenP, hdom⟩ := selectTopN_spec r n hl1 hl2 hd
  have hnames := map_fst_rows r hl1 hl2
  have hcount := totals_count (seriesRows r) (rows_int32 r hv)
  have hmemP : ∀ p ∈ P, p ∈ totals (seriesRows r) := fun p hp =>
    (hperm.mem_iff).1 (List.mem_append_left _ hp)
  have hsub : ∀ a ∈ P.map Prod.fst, a ∈ r.ixNameLabels := by
    intro a ha
    obtain ⟨p, hp, rfl⟩ := List.mem_map.1 ha
    rw [← hnames, ← totals_names]
    exact List.mem_map_of_mem _ (hmemP p hp)
  refine ⟨P.map Prod.fst, e, ?_, ?_, hsub, ?_⟩
  · have := (((hperm.map Prod.fst).nodup_iff).2 (totals_nodup _))
    rw [List.map_append] at this
    exact List.Nodup.of_append_left this
  · rw [List.length_map, hlenP]
    omega
  · intro a ha b hb hnb
    have haN := hsub a ha
    obtain ⟨p, hp, rfl⟩ := List.mem_map.1 ha
    have hb' : b ∈ (totals (seriesRows r)).map Prod.fst := by
      rw [totals_names, hnames]; exact hb
    obtain ⟨q, hq, rfl⟩ := List.mem_map.1 hb'
    have hqR : q ∈ R := by
      rcases List.mem_append.1 ((hperm.mem_iff).2 hq) with h | h
      · exact absurd (List.mem_map_of_mem _ h) hnb
      · exact h
    have h1 := hdom p hp q hqR
    rw [hcount q hq, hcount p (hmemP p hp), wrapInt32_id _ (hfit _ hb),
      wrapInt32_id _ (hfit _ haN)] at h1
    exact h1

/-- C1, witness: on scenario A with `n = 1` the hypotheses hold and the set is `{transfer}`. -/
theorem selectTopN_largest_totals_witness :
    selectTopN scenarioA 1 = some ["transfer"] ∧
    ∃ top, selectTopN scenarioA 1 = some top ∧ top.Nodup ∧
      top.length = min (1 : Int).toNat (distinctCount (seriesRows scenarioA)) ∧
      (∀ a ∈ top, a ∈ scenarioA.ixNameLabels) ∧
      ∀ a ∈ top, ∀ b ∈ scenarioA.ixNameLabels, b ∉ top →
        total (seriesRows scenarioA) b ≤ total (seriesRows scenarioA) a :=
  ⟨by decide, selectTopN_largest_totals scenarioA 1 (by decide) (by decide) (by decide)
    (by decide) (by rw [← totals_length]; decide) (by decide)⟩

/-- C3, as stated, fails on a series with `d = 2^31` distinct instruction
names: with `n = 5` the set `topN` returns is empty, where `min(n, d) = 5`,
and with `n = d` it is empty too, where it should hold all `d` names. -/
theorem selectTopN_size_counterexample :
    (wideSeries 2147483648).ixNameLabels.length = (wideSeries 2147483648).times.length ∧
      (wideSeries 2147483648).values.length = (wideSeries 2147483648).times.length ∧
      distinctCount (seriesRows (wideSeries 2147483648)) = 2147483648 ∧
      selectTopN (wideSeries 2147483648) 5 = some [] ∧
      ([] : List String).length ≠ min (5 : Int).toNat 2147483648 ∧
      selectTopN (wideSeries 2147483648) 2147483648 = some [] :=
  ⟨wideSeries_names _, wideSeries_values _, wideSeries_distinct _,
    selectTopN_wrapped _ 5 (wideSeries_names _) (wideSeries_values _) (wideSeries_distinct _),
    by decide,
    selectTopN_wrapped _ 2147483648 (wideSeries_names _) (wideSeries_values _)
      (wideSeries_distinct _)⟩

/-- C3, amended. Top-N result size. For a decoded series with `d < 2^31` distinct
instruction names and any `n`: `topN(n)` on the heap built from the series
returns a set of instruction names of the series; it has `min(n, d)` elements
when `n ≥ 0`, is empty when `n ≤ 0`, and holds every name of the series when
`n ≥ d`. -/
theorem selectTopN_size (r : instructionInvocationsResponse) (n : Int)
    (hl1 : r.ixNameLabels.length = r.times.length) (hl2 : r.values.length = r.times.length)
    (hd : distinctCount (seriesRows r) < 2147483648) :
    ∃ top, selectTopN r n = some top ∧ top.Nodup ∧ (∀ a ∈ top, a ∈ r.ixNameLabels) ∧
      (0 ≤ n → top.length = min n.toNat (distinctCount (seriesRows r))) ∧
      (n ≤ 0 → top = []) ∧
      ((distinctCount (seriesRows r) : Int) ≤ n → ∀ a ∈ r.ixNameLabels, a ∈ top) := by
  obtain ⟨P, R, e, hperm, hlenP, _⟩ := selectTopN_spec r n hl1 hl2 hd
  have hnames := map_fst_rows r hl1 hl2
  refine ⟨P.map Prod.fst, e, ?_, ?_, ?_, ?_, ?_⟩
  · have := (((hperm.map Prod.fst).nodup_iff).2 (totals_nodup _))
    rw [List.map_append] at this
    exact List.Nodup.of_append_left this
  · intro a ha
    obtain ⟨p, hp, rfl⟩ := List.mem_map.1 ha
    rw [← hnames, ← totals_names]
    exact List.mem_map_of_mem _ ((hperm.mem_iff).1 (List.mem_append_left _ hp))
  · intro hn
    rw [List.length_map, hlenP]
    omega
  · intro hn
    have h0 : P.length = 0 := by rw [hlenP]; omega
    rw [List.length_eq_zero.1 h0]
    rfl
  · intro hn a ha
    have hR : R = [] := by
      have h1 := hperm.length_eq
      rw [List.length_append, totals_length, hlenP] at h1
      exact List.length_eq_zero.1 (by omega)
    rw [hR, List.append_nil] at hperm
    have ha' : a ∈ (totals (seriesRows r)).map Prod.fst := by
      rw [totals_names, hnames]; exact ha
    exact ((hperm.map Prod.fst).mem_iff).2 ha'

/-- C3, witness: scenario A has two distinct names; `n = 5` returns both. -/
theorem selectTopN_size_witness :
    selectTopN scenarioA 5 = some ["transfer", "mint"] ∧
    ∃ top, selectTopN scenarioA 5 = some top ∧ top.Nodup ∧
      (∀ a ∈ top, a ∈ scenarioA.ixNameLabels) ∧
      (0 ≤ (5 : Int) → top.length = min (5 : Int).toNat (distinctCount (seriesRows scenarioA))) ∧
      ((5 : Int) ≤ 0 → top = []) ∧
      ((distinctCount (seriesRows scenarioA) : Int) ≤ 5 →
        ∀ a ∈ scenarioA.ixNameLabels, a ∈ top) :=
  ⟨by decide, selectTopN_size scenarioA 5 (by decide) (by decide)
    (by rw [← totals_length]; decide)⟩

/-! ## The decoder and the derivations that do not rank -/

theorem take_succ_set {α : Type} (l : List α) (i : Nat) (x : α) (hi : i < l.length) :
    (l.set i x).take (i + 1) = l.take i ++ [x] := by
  rw [List.take_succ, List.getElem?_set_self hi, List.set_take,
    List.set_eq_of_length_le (by rw [List.length_take]; omega)]
  rfl

theorem transpose_loop : ∀ (bs : List invocationsBucket) (i : Nat)
    (r : instructionInvocationsResponse), r.times.length = i + bs.length →
    r.values.length = i + bs.length → r.statusLabels.length = i + bs.length →
    r.ixNameLabels.length = i + bs.length →
    forRange (fun (r : instructionInvocationsResponse) i n =>
        { times := r.times.set i n.Time
          values := r.values.set i n.Count
          statusLabels := r.statusLabels.set i n.Status
          ixNameLabels := r.ixNameLabels.set i n.IxName }) i bs r
      = { times := r.times.take i ++ bs.map invocationsBucket.Time
          values := r.values.take i ++ bs.map invocationsBucket.Count
          statusLabels := r.statusLabels.take i ++ bs.map invocationsBucket.Status
          ixNameLabels := r.ixNameLabels.take i ++ bs.map invocationsBucket.IxName }
  | [], i, r, h1, h2, h3, h4 => by
    simp only [forRange, List.map_nil, List.append_nil]
    rw [List.take_of_length_le (by simp at h1; omega),
      List.take_of_length_le (by simp at h2; omega),
      List.take_of_length_le (by simp at h3; omega),
      List.take_of_length_le (by simp at h4; omega)]
  | b :: bs, i, r, h1, h2, h3, h4 => by
    simp only [List.length_cons] at h1 h2 h3 h4
    unfold forRange
    rw [transpose_loop bs (i + 1) _ (by simp; omega) (by simp; omega) (by simp; omega)
      (by simp; omega)]
    simp only
    rw [take_succ_set _ _ _ (by omega), take_succ_set _ _ _ (by omega),
      take_succ_set _ _ _ (by omega), take_succ_set _ _ _ (by omega)]
    simp

theorem getInstructionInvocations_eq (buckets : List invocationsBucket) :
    getInstructionInvocations (.ok buckets) = .ok
      { times := buckets.map invocationsBucket.Time
        values := buckets.map invocationsBucket.Count
        statusLabels := buckets.map invocationsBucket.Status
        ixNameLabels := buckets.map invocationsBucket.IxName } := by
  unfold getInstructionInvocations
  simp only
  rw [transpose_loop buckets 0 _ (by simp) (by simp) (by simp) (by simp)]
  simp

/-- C8. Invocation decoding is an order-preserving transposition: on a
successfully parsed payload of `k` buckets `getInstructionInvocations`
returns four columns of length `k` each, whose `i`-th entries are the time,
count, status and instruction name of the `i`-th bucket. -/
theorem getInstructionInvocations_transposes (buckets : List invocationsBucket) :
    ∃ r, getInstructionInvocations (.ok buckets) = .ok r ∧
      r.times.length = buckets.length ∧ r.values.length = buckets.length ∧
      r.statusLabels.length = buckets.length ∧ r.ixNameLabels.length = buckets.length ∧
      ∀ (i : Nat) (b : invocationsBucket), buckets[i]? = some b →
        r.times[i]? = some b.Time ∧ r.values[i]? = some b.Count ∧
        r.statusLabels[i]? = some b.Status ∧ r.ixNameLabels[i]? = some b.IxName := by
  refine ⟨_, getInstructionInvocations_eq buckets, by simp, by simp, by simp, by simp, ?_⟩
  intro i b hb
  simp [List.getElem?_map, hb]

theorem failures_loop : ∀ (bs : List invocationsBucket) (acc : List Time × List Int × List String),
    bs.foldl
      (fun (acc : List Time × List Int × List String) n =>
        if n.Status ≠ "success" then
          (acc.1 ++ [n.Time], acc.2.1 ++ [n.Count], acc.2.2 ++ [n.IxName])
        else acc) acc
      = (acc.1 ++ (bs.filter fun n => n.Status ≠ "success").map invocationsBucket.Time,
         acc.2.1 ++ (bs.filter fun n => n.Status ≠ "success").map invocationsBucket.Count,
         acc.2.2 ++ (bs.filter fun n => n.Status ≠ "success").map invocationsBucket.IxName)
  | [], acc => by simp
  | b :: bs, acc => by
    rw [List.foldl_cons, failures_loop bs]
    by_cases h : b.Status = "success"
    · simp [h]
    · simp [h]

/-- C4. The failures derivation: the three output columns are the time, the
count and the instruction name of the buckets whose status is not `"success"`,
in the original order, so every `"success"` bucket is dropped and the columns
have one common length. -/
theorem queryFailures_filters (buckets : List invocationsBucket) :
    queryFailures buckets =
      [⟨"time", .time ((buckets.filter fun n => n.Status ≠ "success").map
          invocationsBucket.Time)⟩,
        ⟨"count", .int32 ((buckets.filter fun n => n.Status ≠ "success").map
          invocationsBucket.Count)⟩,
        ⟨"instructionName", .string ((buckets.filter fun n => n.Status ≠ "success").map
          invocationsBucket.IxName)⟩] := by
  unfold queryFailures
  rw [failures_loop]
  simp

/-- C4, witness: statuses `[success, error, error]` yield the second and the third row. -/
theorem queryFailures_filters_witness :
    queryFailures [⟨4, "success", "transfer", 100⟩, ⟨2, "error", "mint", 100⟩,
        ⟨9, "error", "transfer", 200⟩] =
      [⟨"time", .time [100, 200]⟩, ⟨"count", .int32 [2, 9]⟩,
        ⟨"instructionName", .string ["mint", "transfer"]⟩] := by
  rw [queryFailures_filters]
  decide

/-! ## The bucket resolver -/

/-! ### The seconds of a duration -/

theorem bitSearch_le : ∀ (k lo n b : Nat), n < 2 ^ b → lo ≤ b → bitSearch k lo n ≤ b
  | 0, lo, n, b, hn, hlo => by
    unfold bitSearch
    split_ifs with h
    · exact hlo
    · have h1 : 2 ^ lo < 2 ^ b := lt_of_le_of_lt (not_lt.1 h) hn
      have := (Nat.pow_lt_pow_iff_right (by decide : 1 < 2)).1 h1
      omega
  | k + 1, lo, n, b, hn, hlo => by
    unfold bitSearch
    split_ifs with h
    · exact bitSearch_le k lo n b hn hlo
    · have h1 : 2 ^ (lo + 2 ^ k) < 2 ^ b := lt_of_le_of_lt (not_lt.1 h) hn
      have := (Nat.pow_lt_pow_iff_right (by decide : 1 < 2)).1 h1
      exact bitSearch_le k (lo + 2 ^ k) n b hn (by omega)

theorem bitLength_le (n b : Nat) (hn : n < 2 ^ b) : bitLength n ≤ b :=
  bitSearch_le 8 0 n b hn (Nat.zero_le _)

theorem roundTo53_floor (sec f s : Nat) (hs1 : 1 ≤ s) (hs : s ≤ 82)
    (hN : sec * 2 ^ 82 + f < 2 ^ (53 + s)) (hf : f + 2 ^ (s - 1) < 2 ^ 82) :
    roundTo53 (sec * 2 ^ 82 + f) / 2 ^ 82 = sec := by
  have hbl := bitLength_le _ _ hN
  have hpos : 0 < 2 ^ (s - 1) := Nat.pow_pos (by decide)
  have hfl : f < 2 ^ 82 := by omega
  unfold roundTo53
  split_ifs with h
  · exact Nat.div_eq_of_lt_le (by omega) (by omega)
  · simp only
    generalize hb : bitLength (sec * 2 ^ 82 + f) = bl at h hbl
    obtain ⟨sh, rfl⟩ : ∃ sh, bl = 53 + (sh + 1) := ⟨bl - 54, by omega⟩
    have e1 : 53 + (sh + 1) - 53 = sh + 1 := by omega
    have e2 : sh + 1 - 1 = sh := by omega
    rw [e1, e2]
    have hP : 2 ^ (sh + 1) = 2 * 2 ^ sh := by rw [pow_succ]; ring
    have hH : 2 ^ sh ≤ 2 ^ (s - 1) := Nat.pow_le_pow_right (by decide) (by omega)
    have h82 : sec * 2 ^ 82 = sec * 2 ^ (82 - (sh + 1)) * 2 ^ (sh + 1) := by
      rw [mul_assoc, ← pow_add]
      congr 2
      omega
    have hdm := Nat.div_add_mod (sec * 2 ^ 82 + f) (2 ^ (sh + 1))
    have hPpos : 0 < 2 ^ (sh + 1) := Nat.pow_pos (by decide)
    have hrem := Nat.mod_lt (sec * 2 ^ 82 + f) hPpos
    have hq : sec * 2 ^ (82 - (sh + 1)) ≤ (sec * 2 ^ 82 + f) / 2 ^ (sh + 1) := by
      rw [Nat.le_div_iff_mul_le hPpos, ← h82]
      omega
    have hlow : sec * 2 ^ 82 ≤ (sec * 2 ^ 82 + f) / 2 ^ (sh + 1) * 2 ^ (sh + 1) := by
      have := Nat.mul_le_mul_right (2 ^ (sh + 1)) hq
      rw [← h82] at this
      exact this
    generalize (sec * 2 ^ 82 + f) / 2 ^ (sh + 1) = q at hdm hq hlow ⊢
    generalize (sec * 2 ^ 82 + f) % 2 ^ (sh + 1) = rem at hdm hrem ⊢
    have hmc : 2 ^ (sh + 1) * q = q * 2 ^ (sh + 1) := mul_comm _ _
    apply Nat.div_eq_of_lt_le
    · split_ifs with c
      · rw [add_mul]; omega
      · exact hlow
    · split_ifs with c
      · rw [add_mul]
        have : 2 ^ sh ≤ rem := by
          rcases c with c | c
          · omega
          · omega
        omega
      · omega

theorem fracFloat_lt (nsec : Nat) (h : nsec < 1000000000) :
    fracFloat nsec + 2 ^ 52 < 2 ^ 82 := by
  unfold fracFloat
  split_ifs with h0
  · norm_num
  · simp only
    have ht : (if nsec * 2 ^ (30 - bitLength nsec) ≥ 1000000000 then 30 - bitLength nsec
        else 30 - bitLength nsec + 1) ≤ 30 := by
      split_ifs with c
      · omega
      · rcases Nat.lt_or_ge (30 - bitLength nsec) 30 with h1 | h1
        · omega
        · exfalso
          apply c
          have e : 30 - bitLength nsec = 30 := by omega
          rw [e]
          norm_num
          omega
    generalize (if nsec * 2 ^ (30 - bitLength nsec) ≥ 1000000000 then 30 - bitLength nsec
        else 30 - bitLength nsec + 1) = t at ht ⊢
    have hpow : 2 ^ (52 + t) * 2 ^ (30 - t) = 2 ^ 82 := by
      rw [← pow_add]
      congr 1
      omega
    have hB : 2 ^ (30 - t) ≤ 2 ^ 30 := Nat.pow_le_pow_right (by decide) (by omega)
    have hQ := Nat.div_mul_le_self (nsec * 2 ^ (52 + t)) 1000000000
    have hx : nsec * 2 ^ (52 + t) * 2 ^ (30 - t) ≤ 999999999 * 2 ^ 82 := by
      rw [mul_assoc, hpow]
      exact Nat.mul_le_mul_right _ (by omega)
    have hA : nsec * 2 ^ (52 + t) / 1000000000 * 1000000000 * 2 ^ (30 - t)
        ≤ 999999999 * 2 ^ 82 := le_trans (Nat.mul_le_mul_right _ hQ) hx
    generalize nsec * 2 ^ (52 + t) / 1000000000 = q at hA ⊢
    have hA' : 1000000000 * (q * 2 ^ (30 - t)) ≤ 999999999 * 2 ^ 82 := by
      calc 1000000000 * (q * 2 ^ (30 - t)) = q * 1000000000 * 2 ^ (30 - t) := by ring
        _ ≤ _ := hA
    have hle : (if 2 * (nsec * 2 ^ (52 + t) % 1000000000) > 1000000000 ∨
        (2 * (nsec * 2 ^ (52 + t) % 1000000000) = 1000000000 ∧ q % 2 = 1) then q + 1 else q)
          * 2 ^ (30 - t) ≤ q * 2 ^ (30 - t) + 2 ^ (30 - t) := by
      split_ifs
      · rw [add_mul, one_mul]
      · exact Nat.le_add_right _ _
    generalize q * 2 ^ (30 - t) = a at hA' hle
    norm_num at hB hA' hle ⊢
    omega

theorem secondsMagnitude_floor (d : Nat) (h : d < 16777216000000000) :
    secondsMagnitude d = d / 1000000000 := by
  unfold secondsMagnitude
  have hf := fracFloat_lt (d % 1000000000) (Nat.mod_lt _ (by decide))
  apply roundTo53_floor _ _ 53 (by decide) (by decide)
  · have hs : d / 1000000000 < 16777216 := by omega
    generalize d / 1000000000 = sec at hs
    generalize fracFloat (d % 1000000000) = f at hf
    norm_num at hf ⊢
    omega
  · exact hf

theorem secondsMagnitude_whole (k : Nat) (h : k < 9007199254740992) :
    secondsMagnitude (k * 1000000000) = k := by
  unfold secondsMagnitude
  have e1 : k * 1000000000 / 1000000000 = k := Nat.mul_div_cancel _ (by decide)
  have e2 : k * 1000000000 % 1000000000 = 0 := Nat.mul_mod_left _ _
  have e3 : fracFloat 0 = 0 := rfl
  rw [e1, e2, e3]
  apply roundTo53_floor _ _ 82 (by decide) (by decide)
  · norm_num
    omega
  · norm_num

theorem durationSeconds_nonneg (d : Int) (h : 0 ≤ d) : 0 ≤ durationSeconds d := by
  unfold durationSeconds
  rw [if_pos h]
  exact Int.ofNat_nonneg _

theorem rangeSeconds_nonneg (start end_ : Int) (h : start ≤ end_) :
    0 ≤ rangeSeconds start end_ := by
  have h1 : 0 ≤ durationSub end_ start := by
    unfold durationSub
    split_ifs with h1 h2
    · have h3 : (end_ - start : Int) < -9223372036854775808 := h1
      omega
    · omega
    · omega
  exact durationSeconds_nonneg _ h1

theorem rangeSeconds_whole (start d : Int) (hd : isInt32 d) :
    rangeSeconds start (start + d * 1000000000) = d := by
  unfold isInt32 at hd
  have es : durationSub (start + d * 1000000000) start = d * 1000000000 := by
    unfold durationSub
    have e : start + d * 1000000000 - start = d * 1000000000 := by ring
    rw [e]
    split_ifs with h1 h2
    · have h3 : d * 1000000000 < -9223372036854775808 := h1
      omega
    · have h3 : d * 1000000000 > 9223372036854775807 := h2
      omega
    · rfl
  unfold rangeSeconds
  rw [es]
  unfold durationSeconds
  split_ifs with h
  · have e : (d * 1000000000).toNat = d.toNat * 1000000000 := by omega
    rw [e, secondsMagnitude_whole _ (by omega)]
    omega
  · have e : (-(d * 1000000000)).toNat = (-d).toNat * 1000000000 := by omega
    rw [e, secondsMagnitude_whole _ (by omega)]
    omega

theorem rangeSeconds_floor (start end_ : Int) (h1 : start ≤ end_)
    (h2 : end_ - start < 16777216000000000) :
    rangeSeconds start end_ = Int.tdiv (end_ - start) 1000000000 := by
  have es : durationSub end_ start = end_ - start := by
    unfold durationSub
    split_ifs with h3 h4
    · have h5 : (end_ - start : Int) < -9223372036854775808 := h3
      omega
    · have h5 : (end_ - start : Int) > 9223372036854775807 := h4
      omega
    · rfl
  unfold rangeSeconds
  rw [es]
  unfold durationSeconds
  rw [if_pos (by omega), secondsMagnitude_floor _ (by omega),
    Int.tdiv_eq_ediv (by omega) (by decide)]
  omega

theorem tdiv256_bounds (d : Int) (h : isInt32 d) :
    -8388608 ≤ Int.tdiv d 256 ∧ Int.tdiv d 256 ≤ 8388607 := by
  unfold isInt32 at h
  rcases le_total 0 d with h0 | h0
  · rw [Int.tdiv_eq_ediv h0 (by decide)]
    omega
  · have e : Int.tdiv d 256 = -(Int.tdiv (-d) 256) := by
      rw [Int.neg_tdiv, neg_neg]
    rw [e, Int.tdiv_eq_ediv (by omega) (by decide)]
    omega

theorem calculateBuckets_eq (start end_ w : Int) (hw : w ≠ 0) :
    calculateBuckets start end_ w
      = some (max 1 (wrapInt32 (Int.tdiv (rangeSeconds start end_) w))) := by
  unfold calculateBuckets divInt32
  simp only [if_neg hw]
  show (if wrapInt32 _ < 1 then some 1 else some _) = _
  split_ifs with h
  · rw [max_eq_left (by omega)]
  · rw [max_eq_right (by omega)]

theorem clampBucketSeconds_eq (start end_ w m : Int)
    (hd : isInt32 (rangeSeconds start end_)) (hw : w ≠ 0) :
    clampBucketSeconds start end_ w m
      = some (if max 1 (wrapInt32 (Int.tdiv (rangeSeconds start end_) w)) > m
          then Int.tdiv (rangeSeconds start end_) 256 + 1 else w) := by
  have hb := tdiv256_bounds _ hd
  unfold clampBucketSeconds
  rw [calculateBuckets_eq start end_ w hw]
  show (if _ > m then some (wrapInt32 _) else some w) = _
  split_ifs with h
  · rw [wrapInt32_id _ ⟨by omega, by omega⟩]
  · rfl

/-- C9, as stated, fails on a range that ends just below a whole second: from
`0` to `16777216.999999999` seconds the range has 16777216 whole seconds, for
which, with width 1 and `maxBuckets = 16777216`, the reference definition
keeps the width 1; the `float64` sum of `Duration.Seconds` rounds to
16777217, and the code returns the fallback `16777217 / 256 + 1 = 65537`. -/
theorem clampBucketSeconds_reference_counterexample :
    Int.tdiv (16777216999999999 - 0) 1000000000 = 16777216 ∧
      resolveBucketSecondsRef 16777216 1 16777216 = 1 ∧
      rangeSeconds 0 16777216999999999 = 16777217 ∧
      isInt32 (rangeSeconds 0 16777216999999999) ∧
      clampBucketSeconds 0 16777216999999999 1 16777216 = some 65537 := by
  decide

/-- C9, amended. The bucket resolver against its reference definition, for a
requested width `w ≠ 0` and any `maxBuckets` value `m`, the divisions being
those of `int32`. With `d` the seconds of the range as the code computes them,
`int32(to.Sub(from).Seconds())`, when they fit `int32`, `clampBucketSeconds`
returns `d / 256 + 1` when `max(1, d / w) > m` and `w` otherwise. This `d` is
the length of the range when the range is a whole number `d` of seconds (an
`int32`), and it is the number of whole seconds of the range when the range
is not negative and shorter than `2^24` seconds. -/
theorem clampBucketSeconds_reference (start end_ w m : Int) (hw : w ≠ 0) :
    (isInt32 (rangeSeconds start end_) →
      clampBucketSeconds start end_ w m
        = some (resolveBucketSecondsRef (rangeSeconds start end_) w m)) ∧
    (∀ d : Int, isInt32 d →
      clampBucketSeconds start (start + d * 1000000000) w m
        = some (resolveBucketSecondsRef d w m)) ∧
    (start ≤ end_ → end_ - start < 16777216000000000 →
      clampBucketSeconds start end_ w m
        = some (resolveBucketSecondsRef (Int.tdiv (end_ - start) 1000000000) w m)) := by
  refine ⟨fun hd => ?_, fun d hd => ?_, fun h1 h2 => ?_⟩
  · unfold resolveBucketSecondsRef
    exact clampBucketSeconds_eq start end_ w m hd hw
  · have e := rangeSeconds_whole start d hd
    have h := clampBucketSeconds_eq start (start + d * 1000000000) w m (by rw [e]; exact hd) hw
    rw [e] at h
    unfold resolveBucketSecondsRef
    exact h
  · have e := rangeSeconds_floor start end_ h1 h2
    have hd : isInt32 (rangeSeconds start end_) := by
      rw [e, Int.tdiv_eq_ediv (by omega) (by decide)]
      unfold isInt32
      omega
    have h := clampBucketSeconds_eq start end_ w m hd hw
    rw [e] at h
    unfold resolveBucketSecondsRef
    exact h

/-- C9, witness: a range of 3600 seconds, `w = 10`, `m = 100` gives `15`. -/
theorem clampBucketSeconds_reference_witness :
    (10 : Int) ≠ 0 ∧ isInt32 3600 ∧ resolveBucketSecondsRef 3600 10 100 = 15 ∧
      clampBucketSeconds 0 (0 + 3600 * 1000000000) 10 100
        = some (resolveBucketSecondsRef 3600 10 100) :=
  ⟨by decide, by decide, by decide,
    (clampBucketSeconds_reference 0 3600000000000 10 100 (by decide)).2.1 3600 (by decide)⟩

/-- C10, as stated, fails on scenario B of the specification: a range of 3600
seconds, requested width 10 and `maxBuckets = 100` resolve to the width 15,
which implies 240 buckets, more than `maxBuckets + 1`. -/
theorem clampBucketSeconds_ceiling_counterexample :
    clampBucketSeconds 0 3600000000000 10 100 = some 15 ∧
      calculateBuckets 0 3600000000000 15 = some 240 ∧ ¬ ((240 : Int) ≤ 100 + 1) := by
  decide

/-- C10, amended. For `to > from`, a range whose seconds as the code computes
them, `int32(to.Sub(from).Seconds())`, fit `int32`, and a requested width
other than zero, `clampBucketSeconds` returns a width,
and the bucket count `calculateBuckets` gives for that width is at most
`max(maxBuckets, 255)`: either it is at most `maxBuckets`, or the width is the
fallback `d / 256 + 1` and the count is at most 255. -/
theorem clampBucketSeconds_ceiling (start end_ w m : Int) (hlt : start < end_)
    (hd : isInt32 (rangeSeconds start end_)) (hw : w ≠ 0) :
    ∃ w' b, clampBucketSeconds start end_ w m = some w' ∧
      calculateBuckets start end_ w' = some b ∧ b ≤ max m 255 ∧
      (b ≤ m ∨ (w' = Int.tdiv (rangeSeconds start end_) 256 + 1 ∧ b ≤ 255)) := by
  have h0 : 0 ≤ rangeSeconds start end_ := rangeSeconds_nonneg start end_ (by omega)
  rw [clampBucketSeconds_eq start end_ w m hd hw]
  unfold isInt32 at hd
  split_ifs with h
  · have e256 : Int.tdiv (rangeSeconds start end_) 256 = rangeSeconds start end_ / 256 :=
      Int.tdiv_eq_ediv h0 (by decide)
    have hpos : 0 < rangeSeconds start end_ / 256 + 1 := by omega
    have hq0 : 0 ≤ rangeSeconds start end_ / (rangeSeconds start end_ / 256 + 1) :=
      Int.ediv_nonneg h0 (by omega)
    have hq1 : rangeSeconds start end_ / (rangeSeconds start end_ / 256 + 1) < 256 := by
      rw [Int.ediv_lt_iff_lt_mul hpos]
      omega
    have hq2 : rangeSeconds start end_ / (rangeSeconds start end_ / 256 + 1)
        ≤ rangeSeconds start end_ := Int.ediv_le_self _ h0
    have hb : max 1 (wrapInt32 (Int.tdiv (rangeSeconds start end_)
        (Int.tdiv (rangeSeconds start end_) 256 + 1))) ≤ 255 := by
      rw [e256, Int.tdiv_eq_ediv h0 (by omega), wrapInt32_id _ ⟨by omega, by omega⟩]
      exact max_le (by decide) (by omega)
    exact ⟨_, _, rfl, calculateBuckets_eq start end_ _ (by rw [e256]; omega),
      le_trans hb (le_max_right _ _), Or.inr ⟨rfl, hb⟩⟩
  · have hb : max 1 (wrapInt32 (Int.tdiv (rangeSeconds start end_) w)) ≤ m := by omega
    exact ⟨_, _, rfl, calculateBuckets_eq start end_ w hw, le_trans hb (le_max_left _ _),
      Or.inl hb⟩

/-- C10, witness: scenario B meets the hypotheses; the resolved width 15 implies 240 buckets. -/
theorem clampBucketSeconds_ceiling_witness :
    (0 : Int) < 3600000000000 ∧ isInt32 (rangeSeconds 0 3600000000000) ∧ (10 : Int) ≠ 0 ∧
      ∃ w' b, clampBucketSeconds 0 3600000000000 10 100 = some w' ∧
        calculateBuckets 0 3600000000000 w' = some b ∧ b ≤ max 100 255 ∧
        (b ≤ 100 ∨ (w' = Int.tdiv (rangeSeconds 0 3600000000000) 256 + 1 ∧ b ≤ 255)) :=
  ⟨by decide, by decide, by decide,
    clampBucketSeconds_ceiling 0 3600000000000 10 100 (by decide) (by decide) (by decide)⟩

/-! ## The derivations at the inputs where they leave the specification -/

/-- C2, the code at a failing input. On scenario A with `topN = 1` the top-N
set is `{transfer}` and two rows carry that name, yet every output column has
five rows: the three zero rows of `make([]T, lenb)` come first, with the empty
instruction name, and the two `transfer` rows are appended after them. -/
theorem queryTopInstructions_scenarioA :
    queryTopInstructions scenarioA 1 = some
      [⟨"time", .time [0, 0, 0, 100, 200]⟩, ⟨"count", .int32 [0, 0, 0, 5, 7]⟩,
        ⟨"status", .string ["", "", "", "success", "success"]⟩,
        ⟨"instructionName", .string ["", "", "", "transfer", "transfer"]⟩] := by
  decide

/-- C5, the code at a failing input. Two buckets with the distinct timestamps
100 and 200 give three rows, none of which carries either timestamp: two zero
rows from `make`, then the row appended for the first bucket, with the zero
`curr_time` and the rate `0 / 0`. -/
theorem queryFailureRate_two_timestamps :
    queryFailureRate [⟨4, "success", "transfer", 100⟩, ⟨2, "error", "transfer", 200⟩] = some
      [⟨"time", .time [0, 0, 0]⟩,
        ⟨"rate", .float32 [Float32.zero, Float32.zero, Float32.quot 0 0]⟩] := by
  decide

/-- C6, the code at a failing input. The `authority` column of a bucket with
authority `"alice"` and status `"ok"` holds `"ok"`: the field is built from
`statusLabels`. -/
theorem queryProgramDeployments_authority :
    queryProgramDeployments [⟨1, 100, "alice", "ok", "deploy"⟩] =
      [⟨"time", .time [100]⟩, ⟨"count", .int32 [1]⟩, ⟨"authority", .string ["ok"]⟩,
        ⟨"status", .string ["ok"]⟩, ⟨"action", .string ["deploy"]⟩] := by
  decide

/-- C7, the code at a failing input. A payload of one bucket gives columns of
two rows: the zero row of `make([]T, 1)` and, appended, the bucket. -/
theorem queryUniqueSigners_one_bucket :
    queryUniqueSigners [⟨100, 4⟩] =
      [⟨"time", .time [0, 100]⟩, ⟨"count", .int32 [0, 4]⟩] := by
  decide

/-! ## What the preallocating derivations return on every input -/

theorem signers_loop : ∀ (bs : List signersBucket) (acc : List Time × List Int),
    bs.foldl (fun (acc : List Time × List Int) bucket =>
        (acc.1 ++ [bucket.Time], acc.2 ++ [bucket.Count])) acc
      = (acc.1 ++ bs.map signersBucket.Time, acc.2 ++ bs.map signersBucket.Count)
  | [], acc => by simp
  | b :: bs, acc => by
    rw [List.foldl_cons, signers_loop bs]
    simp

/-- The `UniqueSigners` case on every payload: each column is the `k` zero
values of `make` followed by the `k` buckets in order, `2k` rows in all. -/
theorem queryUniqueSigners_eq (buckets : List signersBucket) :
    queryUniqueSigners buckets =
      [⟨"time", .time (List.replicate buckets.length 0 ++ buckets.map signersBucket.Time)⟩,
        ⟨"count", .int32 (List.replicate buckets.length 0 ++ buckets.map signersBucket.Count)⟩] := by
  unfold queryUniqueSigners
  simp only
  rw [signers_loop]

theorem events_loop : ∀ (bs : List programEventBucket) (i : Nat)
    (acc : List Time × List Int × List String × List String × List String),
    acc.1.length = i + bs.length → acc.2.1.length = i + bs.length →
    acc.2.2.1.length = i + bs.length → acc.2.2.2.1.length = i + bs.length →
    acc.2.2.2.2.length = i + bs.length →
    forRange (fun (acc : List Time × List Int × List String × List String × List String) i n =>
        (acc.1.set i n.Time, acc.2.1.set i n.Count, acc.2.2.1.set i n.Status,
          acc.2.2.2.1.set i n.Authority, acc.2.2.2.2.set i n.Action)) i bs acc
      = (acc.1.take i ++ bs.map programEventBucket.Time,
         acc.2.1.take i ++ bs.map programEventBucket.Count,
         acc.2.2.1.take i ++ bs.map programEventBucket.Status,
         acc.2.2.2.1.take i ++ bs.map programEventBucket.Authority,
         acc.2.2.2.2.take i ++ bs.map programEventBucket.Action)
  | [], i, acc, h1, h2, h3, h4, h5 => by
    simp only [forRange, List.map_nil, List.append_nil]
    rw [List.take_of_length_le (by simp at h1; omega),
      List.take_of_length_le (by simp at h2; omega),
      List.take_of_length_le (by simp at h3; omega),
      List.take_of_length_le (by simp at h4; omega),
      List.take_of_length_le (by simp at h5; omega)]
  | b :: bs, i, acc, h1, h2, h3, h4, h5 => by
    simp only [List.length_cons] at h1 h2 h3 h4 h5
    unfold forRange
    rw [events_loop bs (i + 1) _ (by simp; omega) (by simp; omega) (by simp; omega)
      (by simp; omega) (by simp; omega)]
    simp only
    rw [take_succ_set _ _ _ (by omega), take_succ_set _ _ _ (by omega),
      take_succ_set _ _ _ (by omega), take_succ_set _ _ _ (by omega),
      take_succ_set _ _ _ (by omega)]
    simp

/-- The `ProgramDeployments` / `FailedProgramDeployments` case on every
payload: one row per bucket in order; the time, count, status and action
columns carry their fields and the `authority` column carries the status. -/
theorem queryProgramDeployments_eq (buckets : List programEventBucket) :
    queryProgramDeployments buckets =
      [⟨"time", .time (buckets.map programEventBucket.Time)⟩,
        ⟨"count", .int32 (buckets.map programEventBucket.Count)⟩,
        ⟨"authority", .string (buckets.map programEventBucket.Status)⟩,
        ⟨"status", .string (buckets.map programEventBucket.Status)⟩,
        ⟨"action", .string (buckets.map programEventBucket.Action)⟩] := by
  unfold queryProgramDeployments
  simp only
  rw [events_loop buckets 0 _ (by simp) (by simp) (by simp) (by simp) (by simp)]
  simp

theorem keepRows_snoc {α : Type} (top names : List String) (col : List α) (x : String) (y : α)
    (h : names.length = col.length) :
    keepRows top (names ++ [x]) (col ++ [y])
      = keepRows top names col ++ if x ∈ top then [y] else [] := by
  unfold keepRows
  rw [List.zip_append h, List.filter_append, List.map_append]
  by_cases hx : x ∈ top
  · simp [hx]
  · simp [hx]

theorem take_succ_get {α : Type} (l : List α) (t : Nat) (x : α) (h : l[t]? = some x) :
    l.take (t + 1) = l.take t ++ [x] := by
  rw [List.take_succ, h]
  rfl

theorem filter_loop (r : instructionInvocationsResponse) (top : List String)
    (init : instructionInvocationsResponse)
    (hl1 : r.ixNameLabels.length = r.times.length) (hl2 : r.values.length = r.times.length)
    (hl3 : r.statusLabels.length = r.times.length) :
    ∀ t, t ≤ r.times.length →
      (List.range t).foldlM (filterStep r top) init = some
        { times := init.times ++ keepRows top (r.ixNameLabels.take t) (r.times.take t)
          values := init.values ++ keepRows top (r.ixNameLabels.take t) (r.values.take t)
          statusLabels := init.statusLabels ++
            keepRows top (r.ixNameLabels.take t) (r.statusLabels.take t)
          ixNameLabels := init.ixNameLabels ++
            keepRows top (r.ixNameLabels.take t) (r.ixNameLabels.take t) }
  | 0, _ => by simp [keepRows]
  | t + 1, ht => by
    have hx : r.ixNameLabels[t]? = some r.ixNameLabels[t] := List.getElem?_eq_getElem (by omega)
    have ht' : r.times[t]? = some r.times[t] := List.getElem?_eq_getElem (by omega)
    have hv : r.values[t]? = some r.values[t] := List.getElem?_eq_getElem (by omega)
    have hs : r.statusLabels[t]? = some r.statusLabels[t] := List.getElem?_eq_getElem (by omega)
    have hlen : ∀ {α : Type} (col : List α), col.length = r.times.length →
        (r.ixNameLabels.take t).length = (col.take t).length := by
      intro α col hc
      rw [List.length_take, List.length_take]
      omega
    rw [List.range_succ, List.foldlM_append, filter_loop r top init hl1 hl2 hl3 t (by omega)]
    rw [take_succ_get _ t _ hx, take_succ_get _ t _ ht', take_succ_get _ t _ hv,
      take_succ_get _ t _ hs, keepRows_snoc _ _ _ _ _ (hlen _ rfl),
      keepRows_snoc _ _ _ _ _ (hlen _ hl2), keepRows_snoc _ _ _ _ _ (hlen _ hl3),
      keepRows_snoc _ _ _ _ _ (hlen _ hl1)]
    by_cases hin : r.ixNameLabels[t] ∈ top
    · simp [filterStep, hx, ht', hv, hs, hin]
    · simp [filterStep, hx, hin]

/-- The `TopInstructions` case on every decoded series (four columns of one
length, fewer than `2^31` distinct names): each output column is the `lenb`
zero values of `make` followed by the rows whose instruction name is in the
set `topN` returns, in their original order. -/
theorem queryTopInstructions_eq (r : instructionInvocationsResponse) (n : Int)
    (hl1 : r.ixNameLabels.length = r.times.length) (hl2 : r.values.length = r.times.length)
    (hl3 : r.statusLabels.length = r.times.length)
    (hd : distinctCount (seriesRows r) < 2147483648) :
    ∃ top, selectTopN r n = some top ∧ queryTopInstructions r n = some
      [⟨"time", .time (List.replicate r.times.length 0 ++ keepRows top r.ixNameLabels r.times)⟩,
        ⟨"count", .int32 (List.replicate r.times.length 0 ++
          keepRows top r.ixNameLabels r.values)⟩,
        ⟨"status", .string (List.replicate r.times.length "" ++
          keepRows top r.ixNameLabels r.statusLabels)⟩,
        ⟨"instructionName", .string (List.replicate r.times.length "" ++
          keepRows top r.ixNameLabels r.ixNameLabels)⟩] := by
  obtain ⟨P, _, e, _⟩ := selectTopN_spec r n hl1 hl2 hd
  refine ⟨_, e, ?_⟩
  unfold queryTopInstructions
  rw [e, Option.some_bind]
  simp only
  rw [filter_loop r _ _ hl1 hl2 hl3 r.times.length (le_refl _)]
  rw [List.take_of_length_le (le_of_eq hl1), List.take_of_length_le (le_refl _),
    List.take_of_length_le (le_of_eq hl2), List.take_of_length_le (le_of_eq hl3)]
  rfl

/-- The `TopInstructions` case on scenario A, from the general form. -/
theorem queryTopInstructions_eq_witness :
    ∃ top, selectTopN scenarioA 1 = some top ∧ queryTopInstructions scenarioA 1 = some
      [⟨"time", .time (List.replicate scenarioA.times.length 0 ++
          keepRows top scenarioA.ixNameLabels scenarioA.times)⟩,
        ⟨"count", .int32 (List.replicate scenarioA.times.length 0 ++
          keepRows top scenarioA.ixNameLabels scenarioA.values)⟩,
        ⟨"status", .string (List.replicate scenarioA.times.length "" ++
          keepRows top scenarioA.ixNameLabels scenarioA.statusLabels)⟩,
        ⟨"instructionName", .string (List.replicate scenarioA.times.length "" ++
          keepRows top scenarioA.ixNameLabels scenarioA.ixNameLabels)⟩] :=
  queryTopInstructions_eq scenarioA 1 (by decide) (by decide) (by decide)
    (by rw [← totals_length]; decide)

/-! ## The bucket resolver: widths -/

theorem fallback_quot (d : Int) (h0 : 0 ≤ d) :
    0 ≤ d / (d / 256 + 1) ∧ d / (d / 256 + 1) < 256 ∧ d / (d / 256 + 1) ≤ d := by
  have hpos : 0 < d / 256 + 1 := by omega
  refine ⟨Int.ediv_nonneg h0 (by omega), ?_, Int.ediv_le_self _ h0⟩
  rw [Int.ediv_lt_iff_lt_mul hpos]
  omega

/-- C11, as stated, fails on a negative requested width: with a range of 3600
seconds, width `-5` and `maxBuckets = 100` the bucket count is clamped to 1,
which does not exceed the ceiling, and the width `-5` is returned unchanged. -/
theorem clampBucketSeconds_positive_counterexample :
    clampBucketSeconds 0 3600000000000 (-5) 100 = some (-5) ∧ ¬ ((1 : Int) ≤ -5) := by
  decide

/-- C11, amended. For `to > from`, a range whose seconds as the code computes
them, `int32(to.Sub(from).Seconds())`, fit `int32`, and a requested width of
at least 1, `clampBucketSeconds` returns a width of
at least 1, and `calculateBuckets` evaluated with that width is at least 1. -/
theorem clampBucketSeconds_positive (start end_ w m : Int) (hlt : start < end_)
    (hd : isInt32 (rangeSeconds start end_)) (hw : 1 ≤ w) :
    ∃ w' b, clampBucketSeconds start end_ w m = some w' ∧ 1 ≤ w' ∧
      calculateBuckets start end_ w' = some b ∧ 1 ≤ b := by
  have h0 : 0 ≤ rangeSeconds start end_ := rangeSeconds_nonneg start end_ (by omega)
  have e256 : Int.tdiv (rangeSeconds start end_) 256 = rangeSeconds start end_ / 256 :=
    Int.tdiv_eq_ediv h0 (by decide)
  rw [clampBucketSeconds_eq start end_ w m hd (by omega)]
  split_ifs with h
  · exact ⟨_, _, rfl, by rw [e256]; omega,
      calculateBuckets_eq start end_ _ (by rw [e256]; omega), le_max_left _ _⟩
  · exact ⟨_, _, rfl, hw, calculateBuckets_eq start end_ w (by omega), le_max_left _ _⟩

/-- C11, witness: scenario B of the specification meets the hypotheses. -/
theorem clampBucketSeconds_positive_witness :
    (0 : Int) < 3600000000000 ∧ isInt32 (rangeSeconds 0 3600000000000) ∧ (1 : Int) ≤ 10 ∧
      ∃ w' b, clampBucketSeconds 0 3600000000000 10 100 = some w' ∧ 1 ≤ w' ∧
        calculateBuckets 0 3600000000000 w' = some b ∧ 1 ≤ b :=
  ⟨by decide, by decide, by decide,
    clampBucketSeconds_positive 0 3600000000000 10 100 (by decide) (by decide) (by decide)⟩

/-- C12, the code at a failing input. A query interval of 500 ms gives the
requested width `int32(0.5) = 0`, and `calculateBuckets` divides the range by
it: `clampBucketSeconds` panics instead of returning a width. -/
theorem clampBucketSeconds_zero_width :
    intervalSeconds 500000000 = 0 ∧
      calculateBuckets 0 3600000000000 (intervalSeconds 500000000) = none ∧
      clampBucketSeconds 0 3600000000000 (intervalSeconds 500000000) 100 = none := by
  decide

/-- C13. The fallback width yields at most 256 buckets: for a range of `d ≥ 0`
seconds (`to ≥ from`, `d` as the code computes it) and `w' = d / 256 + 1`, the
quotient `d / w'` is at most 256;
when `d` is an `int32`, `calculateBuckets` at the width `w'` returns
`max(1, d / w')`, at most 256. -/
theorem fallback_width_buckets (start end_ : Int) (hle : start ≤ end_) :
    Int.tdiv (rangeSeconds start end_) (Int.tdiv (rangeSeconds start end_) 256 + 1) ≤ 256 ∧
      (isInt32 (rangeSeconds start end_) →
        ∃ b, calculateBuckets start end_ (Int.tdiv (rangeSeconds start end_) 256 + 1) = some b ∧
          b = max 1 (Int.tdiv (rangeSeconds start end_)
            (Int.tdiv (rangeSeconds start end_) 256 + 1)) ∧ b ≤ 256) := by
  have h0 : 0 ≤ rangeSeconds start end_ := rangeSeconds_nonneg start end_ (by omega)
  have e256 : Int.tdiv (rangeSeconds start end_) 256 = rangeSeconds start end_ / 256 :=
    Int.tdiv_eq_ediv h0 (by decide)
  obtain ⟨q0, q1, q2⟩ := fallback_quot _ h0
  have eq : Int.tdiv (rangeSeconds start end_) (rangeSeconds start end_ / 256 + 1)
      = rangeSeconds start end_ / (rangeSeconds start end_ / 256 + 1) :=
    Int.tdiv_eq_ediv h0 (by omega)
  rw [e256, eq]
  refine ⟨by omega, fun hd => ?_⟩
  unfold isInt32 at hd
  refine ⟨_, calculateBuckets_eq start end_ _ (by omega), ?_, ?_⟩
  · rw [eq, wrapInt32_id _ ⟨by omega, by omega⟩]
  · rw [eq, wrapInt32_id _ ⟨by omega, by omega⟩]
    exact max_le (by decide) (by omega)

/-- C13, witness: a range of 3600 seconds; the fallback width 15 implies 240 buckets. -/
theorem fallback_width_buckets_witness :
    (0 : Int) ≤ 3600000000000 ∧
      Int.tdiv (rangeSeconds 0 3600000000000) (Int.tdiv (rangeSeconds 0 3600000000000) 256 + 1)
        = 240 ∧
      Int.tdiv (rangeSeconds 0 3600000000000) (Int.tdiv (rangeSeconds 0 3600000000000) 256 + 1)
        ≤ 256 :=
  ⟨by decide, by decide, (fallback_width_buckets 0 3600000000000 (by decide)).1⟩

/-! ## The metric router -/

/-- C14. The metric router table: `getQueryType` maps `invocations`,
`failures`, `failureRate` and `topInstructions` to `invocations`,
`uniqueSigners`, `programDeployments` and `failedProgramDeployments` to
themselves, and every other string to `invocations`; its result is always one
of the four upstream shapes. -/
theorem getQueryType_table :
    getQueryType "invocations" = "invocations" ∧ getQueryType "failures" = "invocations" ∧
      getQueryType "failureRate" = "invocations" ∧
      getQueryType "topInstructions" = "invocations" ∧
      getQueryType "uniqueSigners" = "uniqueSigners" ∧
      getQueryType "programDeployments" = "programDeployments" ∧
      getQueryType "failedProgramDeployments" = "failedProgramDeployments" ∧
      (∀ qt : MetricType, qt ∉ ["invocations", "uniqueSigners", "failures", "failureRate",
          "programDeployments", "failedProgramDeployments", "topInstructions"] →
        getQueryType qt = "invocations") ∧
      ∀ qt : MetricType, getQueryType qt ∈
        ["invocations", "uniqueSigners", "programDeployments", "failedProgramDeployments"] := by
  refine ⟨by decide, by decide, by decide, by decide, by decide, by decide, by decide, ?_, ?_⟩
  · intro qt _
    unfold getQueryType
    split_ifs <;> simp_all [Invocations, UniqueSigners, Failures, FailureRate,
      ProgramDeployments, FailedProgramDeployments, TopInstructions]
  · intro qt
    unfold getQueryType
    split_ifs <;> simp [Invocations, UniqueSigners, ProgramDeployments,
      FailedProgramDeployments]

/-! ## Formatting and the upstream URL -/

theorem parseFormat_url :
    parseFormat
      "%s/query/solana/instructions/%s/%s?start=%s&end=%s&bucketSeconds=%d".toList ""
      = [.verb 's', .lit "/query/solana/instructions/", .verb 's', .lit "/", .verb 's',
          .lit "?start=", .verb 's', .lit "&end=", .verb 's', .lit "&bucketSeconds=",
          .verb 'd'] := by
  decide

theorem parseFormat_ixName :
    parseFormat "%s&instructionName=%s".toList ""
      = [.verb 's', .lit "&instructionName=", .verb 's'] := by
  decide

theorem render_string (s : String) : (FmtArg.string s).render 's' = s := by
  simp [FmtArg.render, FmtArg.accepts, FmtArg.value]

theorem render_string_v (s : String) : (FmtArg.string s).render 'v' = s := by
  simp [FmtArg.render, FmtArg.accepts, FmtArg.value]

theorem render_int32 (n : Int) : (FmtArg.int32 n).render 'd' = decimal n := by
  simp [FmtArg.render, FmtArg.accepts, FmtArg.value]

theorem render_int_v (n : Int) : (FmtArg.int n).render 'v' = decimal n := by
  simp [FmtArg.render, FmtArg.accepts, FmtArg.value]

/-- C17. URL construction: `solanaMetricsUrl` returns the host, the path
`/query/solana/instructions/{programId}/{shape}`, the parameters `start` and
`end` in RFC 3339 and `bucketSeconds` in decimal, followed by
`&instructionName={name}` exactly when the instruction name is not empty. -/
theorem solanaMetricsUrl_eq (rfc3339 : Time → String) (d : Datasource) (shape : MetricType)
    (programId ixName : String) (start end_ : Time) (bucket : Int) :
    d.solanaMetricsUrl rfc3339 shape programId ixName start end_ bucket
      = d.host ++ "/query/solana/instructions/" ++ programId ++ "/" ++ shape ++ "?start=" ++
          rfc3339 start ++ "&end=" ++ rfc3339 end_ ++ "&bucketSeconds=" ++ decimal bucket ++
          (if ixName = "" then "" else "&instructionName=" ++ ixName) := by
  unfold Datasource.solanaMetricsUrl Sprintf
  rw [parseFormat_url, parseFormat_ixName]
  simp only [renderPieces, render_string, render_int32]
  by_cases h : ixName = ""
  · simp [h, String.append_assoc]
  · simp [h, String.append_assoc]

set_option maxRecDepth 8000 in
/-- C17, at a concrete input: the URL of an invocations fetch filtered on `transfer`. -/
theorem solanaMetricsUrl_eq_witness :
    exampleDatasource.solanaMetricsUrl
        (fun t => if t = 0 then "2024-01-01T00:00:00Z" else "2024-01-01T01:00:00Z")
        "invocations" "Prog1111" "transfer" 0 3600000000000 15
      = "https://metrics.example/query/solana/instructions/Prog1111/invocations?start=2024-01-01T00:00:00Z&end=2024-01-01T01:00:00Z&bucketSeconds=15&instructionName=transfer" := by
  rw [solanaMetricsUrl_eq]
  decide

/-! ## Errors of `query` -/

theorem sprintf_upstream_status (code : Int) :
    Sprintf "upstream error: %v" [.int code] = "upstream error: " ++ decimal code := by
  have h : parseFormat "upstream error: %v".toList "" = [.lit "upstream error: ", .verb 'v'] := by
    decide
  unfold Sprintf
  rw [h]
  simp only [renderPieces, render_int_v, String.append_empty]

theorem sprintf_invalid_type (qt : String) :
    Sprintf "invalid query type: %s" [.string qt] = "invalid query type: " ++ qt := by
  have h : parseFormat "invalid query type: %s".toList ""
      = [.lit "invalid query type: ", .verb 's'] := by
    decide
  unfold Sprintf
  rw [h]
  simp only [renderPieces, render_string, String.append_empty]

theorem querySwitch_default (qm : queryModel) (resp : Response)
    (hqt : qm.Payload.QueryType ∉ ["invocations", "uniqueSigners", "failures", "failureRate",
      "programDeployments", "failedProgramDeployments", "topInstructions"]) :
    querySwitch qm resp = some (ErrDataResponse StatusBadRequest
      ("invalid query type: " ++ qm.Payload.QueryType)) := by
  simp only [List.mem_cons, List.mem_singleton, List.not_mem_nil, or_false, not_or] at hqt
  obtain ⟨h1, h2, h3, h4, h5, h6, h7⟩ := hqt
  unfold querySwitch
  rw [if_neg (by simpa [Invocations] using h1), if_neg (by simpa [TopInstructions] using h7),
    if_neg (by simpa [UniqueSigners] using h2), if_neg (by simpa [Failures] using h3),
    if_neg (by simpa [FailureRate] using h4),
    if_neg (by simpa [FailedProgramDeployments, ProgramDeployments] using ⟨h6, h5⟩),
    sprintf_invalid_type]

/-- C15. An unrecognized metric type is rejected: when the payload parses, its
`queryType` is none of the seven metric types, the bucket width resolves and
the upstream fetch completes with status 200, `query` returns the bad-request
error `invalid query type: {queryType}` and no frame. -/
theorem query_invalid_type (rfc3339 : Time → String) (Do : Request → Except String Response)
    (d : Datasource) (q : DataQuery) (qm : queryModel) (buckets : Int) (resp : Response)
    (hjson : q.JSON = .ok qm)
    (hqt : qm.Payload.QueryType ∉ ["invocations", "uniqueSigners", "failures", "failureRate",
      "programDeployments", "failedProgramDeployments", "topInstructions"])
    (hwidth : clampBucketSeconds q.From q.To (intervalSeconds q.Interval) d.maxBuckets
      = some buckets)
    (hdo : Do (buildRequest rfc3339 d q qm buckets) = .ok resp)
    (hstatus : resp.StatusCode = 200) :
    ∃ res, d.query rfc3339 Do q = some res ∧ res.Frames = [] ∧
      res.Status = StatusBadRequest ∧
      res.Error = some ("invalid query type: " ++ qm.Payload.QueryType) := by
  refine ⟨ErrDataResponse StatusBadRequest ("invalid query type: " ++ qm.Payload.QueryType),
    ?_, rfl, rfl, rfl⟩
  unfold Datasource.query
  simp only [hjson, hwidth, Option.some_bind, hdo, hstatus, ne_eq, not_true_eq_false, if_false]
  exact querySwitch_default qm resp hqt

/-- C15, witness: scenario D, `queryType = "bogus"` against an upstream that answers 200. -/
theorem query_invalid_type_witness :
    exampleDatasource.query (fun _ => "t") (upstreamStatus 200) (hourQuery "bogus")
        = some (ErrDataResponse StatusBadRequest "invalid query type: bogus") ∧
      ∃ res, exampleDatasource.query (fun _ => "t") (upstreamStatus 200) (hourQuery "bogus")
          = some res ∧ res.Frames = [] ∧ res.Status = StatusBadRequest ∧
        res.Error = some ("invalid query type: " ++ "bogus") :=
  ⟨by decide, query_invalid_type (fun _ => "t") (upstreamStatus 200) exampleDatasource
    (hourQuery "bogus") ⟨⟨"bogus", "Prog1111", "", 3⟩⟩ 15 ⟨200, .ok [], .ok [], .ok []⟩ rfl
    (by decide) (by decide) rfl rfl⟩

/-- C18. An upstream status failure is terminal: when the payload parses,
whatever its `queryType`, the bucket width resolves and the upstream fetch
completes with a status code other than 200, `query` returns the bad-request
error `upstream error: {code}`, the code in decimal, and no frame. -/
theorem query_upstream_status (rfc3339 : Time → String) (Do : Request → Except String Response)
    (d : Datasource) (q : DataQuery) (qm : queryModel) (buckets : Int) (resp : Response)
    (hjson : q.JSON = .ok qm)
    (hwidth : clampBucketSeconds q.From q.To (intervalSeconds q.Interval) d.maxBuckets
      = some buckets)
    (hdo : Do (buildRequest rfc3339 d q qm buckets) = .ok resp)
    (hstatus : resp.StatusCode ≠ 200) :
    ∃ res, d.query rfc3339 Do q = some res ∧ res.Frames = [] ∧
      res.Status = StatusBadRequest ∧
      res.Error = some ("upstream error: " ++ decimal resp.StatusCode) := by
  refine ⟨ErrDataResponse StatusBadRequest ("upstream error: " ++ decimal resp.StatusCode),
    ?_, rfl, rfl, rfl⟩
  unfold Datasource.query
  simp only [hjson, hwidth, Option.some_bind, hdo, ne_eq, hstatus, not_false_eq_true, if_true,
    sprintf_upstream_status]

/-- C18, witness: scenario E, the upstream answers 500 to an invocations sub-query. -/
theorem query_upstream_status_witness :
    exampleDatasource.query (fun _ => "t") (upstreamStatus 500) (hourQuery "invocations")
        = some (ErrDataResponse StatusBadRequest "upstream error: 500") ∧
      ∃ res, exampleDatasource.query (fun _ => "t") (upstreamStatus 500)
          (hourQuery "invocations") = some res ∧ res.Frames = [] ∧
        res.Status = StatusBadRequest ∧
        res.Error = some ("upstream error: " ++ decimal 500) :=
  ⟨by decide, query_upstream_status (fun _ => "t") (upstreamStatus 500) exampleDatasource
    (hourQuery "invocations") ⟨⟨"invocations", "Prog1111", "", 3⟩⟩ 15
    ⟨500, .ok [], .ok [], .ok []⟩ rfl (by decide) rfl (by decide)⟩

/-! ## The failure rate at its boundaries -/

/-- C16, the code at a failing input. On a decoded payload without buckets
the slice expression `Buckets[0 : len(Buckets)-1]` has the upper bound `-1`
and panics: the `FailureRate` case returns no columns, and so does `query`. -/
theorem queryFailureRate_empty :
    queryFailureRate [] = none ∧
      exampleDatasource.query (fun _ => "t") (upstreamStatus 200) (hourQuery "failureRate")
        = none := by
  decide

theorem failureRate_loop_lengths : ∀ (bs : List invocationsBucket) (i : Nat)
    (s : failureRateState), s.times.length = s.values.length →
    (forRange (fun (s : failureRateState) i n =>
        if i ≠ 0 ∧ n.Time ≠ s.curr_time then
          { s with
            curr_time := n.Time
            curr_failure :=
              if n.Status ≠ "success" then incFloat32 s.curr_failure else s.curr_failure
            curr_len := incFloat32 s.curr_len }
        else
          { s with
            times := s.times ++ [s.curr_time]
            values := s.values ++ [Float32.quot s.curr_failure s.curr_len] }) i bs s).times.length
      = (forRange (fun (s : failureRateState) i n =>
        if i ≠ 0 ∧ n.Time ≠ s.curr_time then
          { s with
            curr_time := n.Time
            curr_failure :=
              if n.Status ≠ "success" then incFloat32 s.curr_failure else s.curr_failure
            curr_len := incFloat32 s.curr_len }
        else
          { s with
            times := s.times ++ [s.curr_time]
            values := s.values ++ [Float32.quot s.curr_failure s.curr_len] }) i bs
          s).values.length
  | [], _, _, h => h
  | b :: bs, i, s, h => by
    unfold forRange
    apply failureRate_loop_lengths bs (i + 1)
    have h' : (s.times ++ [s.curr_time]).length
        = (s.values ++ [Float32.quot s.curr_failure s.curr_len]).length := by
      rw [List.length_append, List.length_append, h]
      rfl
    split_ifs
    all_goals first | exact h | exact h'

/-- The `FailureRate` case on a payload with at least one bucket: it returns
a time column and a rate column of one common length. -/
theorem queryFailureRate_lengths (buckets : List invocationsBucket) (h : buckets ≠ []) :
    ∃ t v, queryFailureRate buckets = some [⟨"time", .time t⟩, ⟨"rate", .float32 v⟩] ∧
      t.length = v.length := by
  have hl : ¬ buckets.length = 0 := fun e => h (List.length_eq_zero.1 e)
  unfold queryFailureRate
  rw [if_neg hl]
  exact ⟨_, _, rfl, failureRate_loop_lengths _ 0 _ (by simp)⟩

/-- The `FailureRate` case on a payload of one bucket: the single zero row of `make`. -/
theorem queryFailureRate_lengths_witness :
    queryFailureRate [⟨4, "error", "transfer", 100⟩]
        = some [⟨"time", .time [0]⟩, ⟨"rate", .float32 [Float32.zero]⟩] ∧
      ∃ t v, queryFailureRate [⟨4, "error", "transfer", 100⟩]
          = some [⟨"time", .time t⟩, ⟨"rate", .float32 v⟩] ∧ t.length = v.length :=
  ⟨by decide, queryFailureRate_lengths _ (by decide)⟩

/-! ## Online aggregation on the heap -/

theorem ent_get (a : List Entry) (i : Nat) (hi : i < a.length) : a[i]? = some (ent a i) := by
  simp [ent, List.getElem?_eq_getElem hi]

theorem names_inj (a : List Entry) (hnd : (a.map Prod.fst).Nodup) (i j : Nat) (hi : i < a.length)
    (hj : j < a.length) (h : (ent a i).1 = (ent a j).1) : i = j := by
  have h1 : (a.map Prod.fst)[i]? = some (ent a i).1 := by
    rw [List.getElem?_map, ent_get a i hi]; rfl
  have h2 : (a.map Prod.fst)[j]? = some (ent a j).1 := by
    rw [List.getElem?_map, ent_get a j hj]; rfl
  have hi' : i < (a.map Prod.fst).length := by simpa using hi
  have hj' : j < (a.map Prod.fst).length := by simpa using hj
  rw [List.getElem?_eq_getElem hi'] at h1
  rw [List.getElem?_eq_getElem hj'] at h2
  injection h1 with h1
  injection h2 with h2
  exact (List.Nodup.getElem_inj_iff hnd).1 (h1.trans (h.trans h2.symm))

/-- C19. Online aggregation. For a decoded series (name and count columns as
long as the time column, counts in `int32`), after the accumulation loop the
heap holds as many items as the series has distinct instruction names; every
item carries a name of the series and, as its count, the sum of the counts of
the rows of that name in `int32` wrap-around arithmetic (the exact sum when
it fits); no two positions hold items of one name; and the `seen` map binds
every name of the series, and no other, to the address of the item of that
name, which is in the heap at the position its `index` records. -/
theorem accumulate_online (r : instructionInvocationsResponse)
    (hl1 : r.ixNameLabels.length = r.times.length) (hl2 : r.values.length = r.times.length)
    (hv : ∀ v ∈ r.values, isInt32 v) :
    ∃ h seen, accumulate r = some (h, seen) ∧
      h.Len = distinctCount (seriesRows r) ∧
      (∀ i, i < h.Len → ∃ it, h.item i = some it ∧ it.ixName ∈ r.ixNameLabels ∧
        it.count = wrapInt32 (total (seriesRows r) it.ixName) ∧
        (isInt32 (total (seriesRows r) it.ixName) →
          it.count = total (seriesRows r) it.ixName)) ∧
      (∀ i j a b, h.item i = some a → h.item j = some b → a.ixName = b.ixName → i = j) ∧
      (∀ name ∈ r.ixNameLabels, ∃ p it i, seen.lookup name = some p ∧
        h.store[p]? = some it ∧ it.ixName = name ∧ it.index = ((i : Nat) : Int) ∧
        h.item i = some it) ∧
      (∀ name, name ∉ r.ixNameLabels → seen.lookup name = none) := by
  obtain ⟨⟨h, seen⟩, e, hOK, hA, _, hP, hS⟩ := accumulate_spec r hl1 hl2
  simp only at hOK hA hP hS
  have hnames := map_fst_rows r hl1 hl2
  have hcount := totals_count (seriesRows r) (rows_int32 r hv)
  have hnd : (h.view.map Prod.fst).Nodup := ((hP.map Prod.fst).nodup_iff).2 (totals_nodup _)
  refine ⟨h, seen, e, ?_, ?_, ?_, ?_, ?_⟩
  · show h.ptrs.length = _
    rw [← length_view, hP.length_eq, totals_length]
  · intro i hi
    obtain ⟨p, it, h1, h2, _⟩ := hOK.get hi
    have hent := view_ent h i p it h1 h2
    have hmem : (it.ixName, it.count) ∈ totals (seriesRows r) := by
      rw [← hent]
      exact (hP.mem_iff).1 (ent_mem _ _ (by rw [length_view]; exact hi))
    have hc : it.count = wrapInt32 (total (seriesRows r) it.ixName) := hcount _ hmem
    refine ⟨it, (item_some h i it).2 ⟨p, h1, h2⟩, ?_, hc, fun hfit => ?_⟩
    · rw [← hnames, ← totals_names]
      exact List.mem_map_of_mem Prod.fst hmem
    · rw [hc]
      exact wrapInt32_id _ hfit
  · intro i j a b ha hb hab
    obtain ⟨p, h1, h2⟩ := (item_some h i a).1 ha
    obtain ⟨q, h3, h4⟩ := (item_some h j b).1 hb
    refine names_inj h.view hnd i j (by rw [length_view]; exact lt_of_get h1)
      (by rw [length_view]; exact lt_of_get h3) ?_
    rw [view_ent h i p a h1 h2, view_ent h j q b h3 h4]
    exact hab
  · intro name hname
    have hin : name ∈ (totals (seriesRows r)).map Prod.fst := by
      rw [totals_names, hnames]; exact hname
    have hs := hS name
    rcases hl : seen.lookup name with _ | p
    · rw [hl] at hs
      exact absurd hin hs
    · rw [hl] at hs
      obtain ⟨_, it, h1, h2⟩ := hs
      obtain ⟨it', i, h3, h4, h5⟩ := hA p (lt_of_get h1)
      rw [h1] at h3
      injection h3 with h3
      subst h3
      exact ⟨p, it, i, rfl, h1, h2, h4, (item_some h i it).2 ⟨p, h5, h1⟩⟩
  · intro name hname
    have hs := hS name
    rcases hl : seen.lookup name with _ | p
    · rfl
    · rw [hl] at hs
      exact absurd ((hnames ▸ (totals_names _ name).1 hs.1)) hname

/-- C19, witness: scenario A leaves two items, `transfer` with `5 + 7 = 12` at
the root and `mint` with 3, and `seen` binds both names. -/
theorem accumulate_online_witness :
    accumulate scenarioA = some
        ({ store := [⟨"transfer", 12, 0⟩, ⟨"mint", 3, 1⟩], ptrs := [0, 1] },
          [("mint", 1), ("transfer", 0)]) ∧
      ∃ h seen, accumulate scenarioA = some (h, seen) ∧
        h.Len = distinctCount (seriesRows scenarioA) ∧
        (∀ i, i < h.Len → ∃ it, h.item i = some it ∧ it.ixName ∈ scenarioA.ixNameLabels ∧
          it.count = wrapInt32 (total (seriesRows scenarioA) it.ixName) ∧
          (isInt32 (total (seriesRows scenarioA) it.ixName) →
            it.count = total (seriesRows scenarioA) it.ixName)) ∧
        (∀ i j a b, h.item i = some a → h.item j = some b → a.ixName = b.ixName → i = j) ∧
        (∀ name ∈ scenarioA.ixNameLabels, ∃ p it i, seen.lookup name = some p ∧
          h.store[p]? = some it ∧ it.ixName = name ∧ it.index = ((i : Nat) : Int) ∧
          h.item i = some it) ∧
        (∀ name, name ∉ scenarioA.ixNameLabels → seen.lookup name = none) :=
  ⟨by decide, accumulate_online scenarioA (by decide) (by decide) (by decide)⟩

/-! ## The heap invariant along `Push`, `update` and `Pop` -/

theorem key_item (h : invocationHeap) (i : Nat) (it : invocationHeapItem)
    (hi : h.item i = some it) : key h.view i = it.count := by
  obtain ⟨p, h1, h2⟩ := (item_some h i it).1 hi
  rw [key, view_ent h i p it h1 h2]

theorem maxHeapOrder_iff (h : invocationHeap) (hOK : IndexOK h) :
    MaxHeapOrder h ↔ IsHeap h.view h.view.length := by
  constructor
  · intro hM i hi hil
    rw [length_view] at hil
    obtain ⟨a, b, h1, h2, h3⟩ := hM i hi hil
    rw [key_item h i a h1, key_item h _ b h2]
    exact h3
  · intro hH i hi hil
    have hil' : i < h.ptrs.length := hil
    obtain ⟨a, h1, _⟩ := hOK i hil'
    obtain ⟨b, h2, _⟩ := hOK ((i - 1) / 2) (by omega)
    refine ⟨a, b, h1, h2, ?_⟩
    have := hH i hi (by rw [length_view]; exact hil')
    rw [key_item h i a h1, key_item h _ b h2] at this
    exact this

theorem Push_fresh (h : invocationHeap) (hOK : IndexOK h) (it : invocationHeapItem) :
    ∃ h1, invocationHeap.Push (alloc h it) h.store.length = some h1 ∧ IndexOK h1 ∧
      h1.view = h.view ++ [(it.ixName, it.count)] ∧ h1.ptrs.length = h.ptrs.length + 1 := by
  refine ⟨⟨h.store ++ [{ it with index := h.ptrs.length }], h.ptrs ++ [h.store.length]⟩,
    ?_, ?_, ?_, by simp⟩
  · simp [invocationHeap.Push, alloc, setIndex]
  · intro k hk
    simp only [List.length_append, List.length_singleton] at hk
    by_cases e : k < h.ptrs.length
    · obtain ⟨p, c, h1, h2, h3⟩ := hOK.get e
      refine ⟨c, (item_some _ _ _).2 ⟨p, ?_, ?_⟩, h3⟩
      · show (h.ptrs ++ [h.store.length])[k]? = some p
        rw [List.getElem?_append_left e, h1]
      · show (h.store ++ _)[p]? = some c
        rw [List.getElem?_append_left (lt_of_get h2), h2]
    · have e' : k = h.ptrs.length := by omega
      subst e'
      refine ⟨{ it with index := h.ptrs.length },
        (item_some _ _ _).2 ⟨h.store.length, ?_, ?_⟩, rfl⟩
      · show (h.ptrs ++ [h.store.length])[h.ptrs.length]? = some h.store.length
        simp
      · show (h.store ++ _)[h.store.length]? = some _
        simp
  · show List.map _ (h.ptrs ++ [h.store.length]) = _
    rw [List.map_append]
    congr 1
    · apply List.map_congr_left
      intro q hq
      show entryOf (h.store ++ _)[q]? = _
      rw [List.getElem?_append_left (hOK.valid hq)]
    · simp [entryOf]

theorem heapPush_fresh (h : invocationHeap) (hOK : IndexOK h)
    (hH : IsHeap h.view h.view.length) (it : invocationHeapItem) :
    ∃ h', heap.Push (alloc h it) h.store.length = some h' ∧ IndexOK h' ∧
      IsHeap h'.view h'.view.length := by
  obtain ⟨h1, e1, hOK1, hv1, hl1⟩ := Push_fresh h hOK it
  obtain ⟨h2, e2, s2⟩ := up_step h1 h.ptrs.length hOK1 (by omega)
  rw [hv1] at s2
  refine ⟨h2, ?_, s2.1, ?_⟩
  · have : h1.Len - 1 = h.ptrs.length := by
      show h1.ptrs.length - 1 = _
      omega
    simp [heap.Push, e1, this, e2]
  · rw [s2.2.2.2, length_upL]
    have hl0 : (h.view ++ [(it.ixName, it.count)]).length = h.view.length + 1 := by simp
    rw [hl0, ← length_view h]
    exact upL_heap _ _ _ _ (by omega) (by omega) (by omega)
      (upReady_push h.view (it.ixName, it.count) hH)

theorem update_at (h : invocationHeap) (hOK : IndexOK h) (i p : Nat)
    (hpi : h.ptrs[i]? = some p) (hH : IsHeap h.view h.view.length) (v : Int) :
    ∃ h', h.update p v = some h' ∧ IndexOK h' ∧ IsHeap h'.view h'.view.length := by
  have hi := lt_of_get hpi
  obtain ⟨p', it, h1, hp, h2⟩ := hOK.get hi
  rw [hpi] at h1
  injection h1 with h1
  subst h1
  have hpl := lt_of_get hp
  have hS : ∀ q : Nat,
      (h.store.set p { it with count := wrapInt32 (it.count + v) })[q]?
        = if q = p then some { it with count := wrapInt32 (it.count + v) } else h.store[q]? := by
    intro q
    rw [List.getElem?_set]
    by_cases e : p = q
    · subst e; simp [hpl]
    · have e' : ¬ q = p := fun x => e x.symm
      simp [e, e']
  have hOK1 : IndexOK
      { h with store := h.store.set p { it with count := wrapInt32 (it.count + v) } } := by
    intro k hk
    obtain ⟨pk, c, h4, h5, h6⟩ := hOK.get hk
    by_cases e : pk = p
    · subst e
      rw [hp] at h5
      injection h5 with h5
      subst h5
      exact ⟨{ it with count := wrapInt32 (it.count + v) },
        (item_some _ _ _).2 ⟨pk, h4, by rw [hS, if_pos rfl]⟩, h6⟩
    · exact ⟨c, (item_some _ _ _).2 ⟨pk, h4, by rw [hS, if_neg e, h5]⟩, h6⟩
  have hV1 : invocationHeap.view
      { h with store := h.store.set p { it with count := wrapInt32 (it.count + v) } }
      = h.view.set i (it.ixName, wrapInt32 (it.count + v)) := by
    apply List.ext_getElem?
    intro k
    unfold invocationHeap.view
    rw [List.getElem?_map, List.getElem?_set, List.getElem?_map]
    simp only [List.length_map]
    by_cases e : i = k
    · subst e
      simp [hpi, hS, hi, entryOf]
    · rw [if_neg e]
      rcases hk : h.ptrs[k]? with _ | pk
      · rfl
      · have : pk ≠ p := fun x => e (hOK.inj hpi (x ▸ hk))
        simp [hS, this]
  obtain ⟨h2', e2, s2⟩ := Fix_step _ i hOK1 hi
  rw [hV1] at s2
  have hiv : i < h.view.length := by rw [length_view]; exact hi
  refine ⟨h2', ?_, s2.1, ?_⟩
  · rw [← e2]
    simp [invocationHeap.update, hp, h2]
  · rw [s2.2.2.2, length_fixL]
    refine fixL_heap _ i (by rw [List.length_set]; exact hiv) ?_
    rw [List.length_set]
    exact fixReady_set h.view _ i hiv hH

theorem reachable_inv (h : invocationHeap) (hR : Reachable h) :
    IndexOK h ∧ IsHeap h.view h.view.length := by
  induction hR with
  | empty =>
    exact ⟨fun i hi => by simp at hi, fun k _ hk => by simp [invocationHeap.view] at hk⟩
  | push h h' it _ hpush ih =>
    obtain ⟨h2, e, hOK, hH⟩ := heapPush_fresh h ih.1 ih.2 it
    rw [hpush] at e
    injection e with e
    subst e
    exact ⟨hOK, hH⟩
  | update h h' i p delta _ hpi hupd ih =>
    obtain ⟨h2, e, hOK, hH⟩ := update_at h ih.1 i p hpi ih.2 delta
    rw [hupd] at e
    injection e with e
    subst e
    exact ⟨hOK, hH⟩

/-- C20. The heap invariant. Every heap reached from the empty heap by
`heap.Push` of a fresh item and `update` (any delta) of an item in the heap
is in max-heap order and index-consistent, and on such a heap every further
`heap.Push` of a fresh item and every `update` of an item in the heap
returns; `heap.Pop` on a non-empty heap with both properties returns and
leaves a heap, one item shorter, with both properties. -/
theorem heap_invariant :
    (∀ h, Reachable h → MaxHeapOrder h ∧ IndexOK h) ∧
      (∀ h it, Reachable h → ∃ h', heap.Push (alloc h it) h.store.length = some h') ∧
      (∀ (h : invocationHeap) (i p : Nat) (delta : Int), Reachable h → h.ptrs[i]? = some p →
        ∃ h', h.update p delta = some h') ∧
      ∀ h, MaxHeapOrder h → IndexOK h → 0 < h.Len →
        ∃ h' x, heap.Pop h = some (h', x) ∧ MaxHeapOrder h' ∧ IndexOK h' ∧
          h'.Len = h.Len - 1 := by
  refine ⟨fun h hR => ?_, fun h it hR => ?_, fun h i p delta hR hpi => ?_,
    fun h hM hOK hn => ?_⟩
  · obtain ⟨hOK, hH⟩ := reachable_inv h hR
    exact ⟨(maxHeapOrder_iff h hOK).2 hH, hOK⟩
  · obtain ⟨hOK, hH⟩ := reachable_inv h hR
    obtain ⟨h', e, _⟩ := heapPush_fresh h hOK hH it
    exact ⟨h', e⟩
  · obtain ⟨hOK, hH⟩ := reachable_inv h hR
    obtain ⟨h', e, _⟩ := update_at h hOK i p hpi hH delta
    exact ⟨h', e⟩
  · have hH := (maxHeapOrder_iff h hOK).1 hM
    have hn' : 0 < h.view.length := by rw [length_view]; exact hn
    obtain ⟨h', x, _, e, hOK', hv, _, _⟩ := heapPop_step h hOK hn
    obtain ⟨_, _, hheap, hlen, _⟩ := popL_spec h.view hn' hH
    refine ⟨h', x, e, (maxHeapOrder_iff h' hOK').2 (by rw [hv]; exact hheap), hOK', ?_⟩
    show h'.ptrs.length = h.ptrs.length - 1
    rw [← length_view h', hv, hlen, length_view]

/-- C20, witness: a heap reached by two pushes and an update that lifts the
second item to the root; it has both properties and `heap.Pop` takes the
root off it. -/
theorem heap_invariant_witness :
    Reachable twoItemHeap ∧ MaxHeapOrder twoItemHeap ∧ IndexOK twoItemHeap ∧
      heap.Pop twoItemHeap
        = some ({ store := [⟨"transfer", 5, 0⟩, ⟨"mint", 13, -1⟩], ptrs := [0] }, 1) :=
  have hR : Reachable twoItemHeap :=
    Reachable.update { store := [⟨"transfer", 5, 0⟩, ⟨"mint", 3, 1⟩], ptrs := [0, 1] }
      twoItemHeap 1 1 10
      (Reachable.push { store := [⟨"transfer", 5, 0⟩], ptrs := [0] } _ ⟨"mint", 3, 0⟩
        (Reachable.push { store := [], ptrs := [] } _ ⟨"transfer", 5, 0⟩ Reachable.empty
          (by decide))
        (by decide))
      (by decide) (by decide)
  ⟨hR, (heap_invariant.1 twoItemHeap hR).1, (heap_invariant.1 twoItemHeap hR).2, by decide⟩

end Plugin
